import Mathlib

/-!
# Octree colour quantiser (`palette.c`)

A shallow embedding of `palette.c` and the properties of its two entry points,
`get_palette` and `get_dominant_color`.

Modelling conventions.

* An `octnode *` is a value of `octnode`: `octnode.null` is the NULL pointer and
  `octnode.node` a pointer to an allocated node together with its contents.  The
  tree owns its nodes, so a node is identified by the sequence of child indices
  that leads to it from the root (`Ref`).
* The intrusive singly linked list `heads[level]` (threaded through `next`) is
  the list of the references of its members, head first.
* `size_t` counters and sums are natural numbers.  In a tree built from a
  buffer a count never exceeds the number of pixels and a channel sum never
  exceeds 255 times that number (`totals_bounded`), so with a 64-bit `size_t`
  no addition wraps for buffers of fewer than `2^56` pixels; `numLeaves--` is
  only applied to a counter at least as large as the number of children that
  are merged (`occupied_le_leaves`).  Where the code narrows (`uint8_t`, `int`)
  the narrowing is explicit.
* `malloc` and `calloc` are taken to succeed (returning a non-NULL pointer also
  for a request of zero bytes).
* The library routine `qsort` and the saturation comparator are arguments of
  `get_dominant_color`.  What is taken of `qsort` is collected in `sorts`.  The
  comparator of the source, `compare_node_color`, computes in single-precision
  floating point; it is defined over a type `F` of `float` values with a linear
  order and the arithmetic operations `float_ops F` as arguments, so that what
  is proved of it holds for every implementation of that arithmetic.
* Undefined behaviour that the code can run into is reported as a `Fault`.  The
  indexed accesses to `heads`, `mask` and the child slots are listed by the
  functions of the section on array accesses.
-/

namespace Palette

/-- The constant `BIT_DEPTH`. -/
abbrev BIT_DEPTH : Nat := 8

/-- An unsigned 8-bit value. -/
abbrev uint8_t := Fin 256

/-- One RGBA8888 pixel: the four bytes `pixel[0..3]`. -/
structure Pixel where
  r : uint8_t
  g : uint8_t
  b : uint8_t
  a : uint8_t
deriving DecidableEq, Repr

/-- A node reference: the child indices on the way from the root to the node. -/
abbrev Ref := List Nat

/-- The ways in which the C code can leave defined behaviour: a dereference of
NULL, an array access outside the array, a division by zero, the use of a node
that has been freed, and a loop that does not end. -/
inductive Fault where
  | null_deref
  | out_of_bounds
  | division_by_zero
  | dangling
  | diverges
deriving DecidableEq, Repr

deriving instance DecidableEq for Except

/-- A value of type `octnode *`: NULL, or a node with the fields of
`struct octnode` (`next` is the position in the level queue). -/
inductive octnode where
  | null : octnode
  | node (isLeaf : Bool) (numPixels red green blue alpha : Nat)
      (children : List octnode) : octnode
deriving Repr

namespace octnode

/-- Whether the pointer is NULL. -/
def isNull : octnode → Bool
  | null => true
  | node .. => false

/-- Field `isLeaf` (false for NULL). -/
def leaf : octnode → Bool
  | null => false
  | node l .. => l

/-- Whether the pointer is to a node that is not a leaf. -/
def internal : octnode → Bool
  | null => false
  | node l .. => !l

/-- Field `numPixels`. -/
def count : octnode → Nat
  | null => 0
  | node _ n .. => n

/-- Field `red`. -/
def sumRed : octnode → Nat
  | null => 0
  | node _ _ r .. => r

/-- Field `green`. -/
def sumGreen : octnode → Nat
  | null => 0
  | node _ _ _ g .. => g

/-- Field `blue`. -/
def sumBlue : octnode → Nat
  | null => 0
  | node _ _ _ _ b .. => b

/-- Field `alpha`. -/
def sumAlpha : octnode → Nat
  | null => 0
  | node _ _ _ _ _ a _ => a

/-- Field `children`. -/
def kids : octnode → List octnode
  | null => []
  | node _ _ _ _ _ _ cs => cs

/-- The node a reference leads to, starting from `n`; NULL when there is none. -/
def find : octnode → Ref → octnode
  | n, [] => n
  | null, _ :: _ => null
  | node _ _ _ _ _ _ cs, j :: q => find (cs.getD j null) q

/-- Store `new` at the place a reference leads to. -/
def replace : octnode → Ref → octnode → octnode
  | _, [], new => new
  | null, _ :: _, _ => null
  | node l n r g b a cs, j :: q, new =>
    node l n r g b a (cs.set j (replace (cs.getD j null) q new))

/-- The fields of a node other than the contents of its child slots. -/
def head (n : octnode) : Bool × Bool × Nat × Nat × Nat × Nat × Nat × Nat :=
  (n.isNull, n.leaf, n.count, n.sumRed, n.sumGreen, n.sumBlue, n.sumAlpha, n.kids.length)

end octnode

/-- The `octree` struct: `numLeaves`, `root` and the `BIT_DEPTH` level queues
`heads`. -/
structure octree where
  numLeaves : Nat
  root : octnode
  heads : List (List Ref)
deriving Repr

/-- A freshly initialised node: all sums zero, sixteen NULL children. -/
def fresh_node (isLeaf : Bool) : octnode :=
  .node isLeaf 0 0 0 0 0 (List.replicate 16 .null)

/-- Function `octree_create_node`; `self` is the reference of the new node. -/
def octree_create_node (tree : octree) (level : Nat) (self : Ref) : octree × octnode :=
  if BIT_DEPTH = level then
    ({ tree with numLeaves := tree.numLeaves + 1 }, fresh_node true)
  else
    ({ tree with heads := tree.heads.set level (self :: tree.heads.getD level []) },
      fresh_node false)

mutual
/-- Function `octree_destroy_node`.  The comparison `tree->heads[level] == node`
reads past the array when `level = BIT_DEPTH`; that read is taken to yield a
pointer other than `node`. -/
def octree_destroy_node (tree : octree) : octnode → Ref → Nat → octree
  | .null, _, _ => tree
  | .node _ _ _ _ _ _ cs, self, level =>
    octree_destroy_children
      (if (tree.heads.getD level []).head? = some self then
        { tree with heads := tree.heads.set level (tree.heads.getD level []).tail }
      else tree) cs self 0 (level + 1)
/-- The loop `for (i = 0; i < 16; i++)` of `octree_destroy_node`, from slot `i`. -/
def octree_destroy_children (tree : octree) : List octnode → Ref → Nat → Nat → octree
  | [], _, _, _ => tree
  | c :: cs, self, i, level =>
    octree_destroy_children (octree_destroy_node tree c (self ++ [i]) level) cs self (i + 1) level
end

/-- The table `mask` of `octree_add_pixel_to_node`. -/
def mask : List Nat := [0x80, 0x40, 0x20, 0x10, 0x08, 0x04, 0x02, 0x01]

/-- The child index of a pixel at a level (`level < BIT_DEPTH`). -/
def child_index (pixel : Pixel) (level : Nat) : Nat :=
  let shift := (7 - level) % 256
  let m := mask.getD level 0
  ((((pixel.r.val &&& m) >>> shift <<< 3) |||
    ((pixel.g.val &&& m) >>> shift <<< 2) |||
    ((pixel.b.val &&& m) >>> shift <<< 1) |||
    ((pixel.a.val &&& m) >>> shift)) % 256)

/-- The statement `if (!node->children[index]) node->children[index] =
octree_create_node(tree, level + 1);` of `octree_add_pixel_to_node`: the tree
and the child in slot `index` after it. -/
def ensure_child (tree : octree) (cs : List octnode) (index level : Nat) (self : Ref) :
    octree × octnode :=
  if (cs.getD index .null).isNull then
    octree_create_node tree (level + 1) (self ++ [index])
  else (tree, cs.getD index .null)

/-- Function `octree_add_pixel_to_node`, with the recursion depth bounded by
`fuel`.  Returns the updated tree bookkeeping and the updated node. -/
def octree_add_pixel_to_node :
    Nat → octree → octnode → Ref → Nat → Pixel → Except Fault (octree × octnode)
  | 0, _, _, _, _, _ => .error .diverges
  | _ + 1, _, .null, _, _, _ => .error .null_deref
  | fuel + 1, tree, .node isLeaf n r g b a cs, self, level, pixel =>
    if isLeaf then
      .ok (tree, .node isLeaf (n + 1) (r + pixel.r.val) (g + pixel.g.val)
        (b + pixel.b.val) (a + pixel.a.val) cs)
    else if BIT_DEPTH ≤ level then
      .error .out_of_bounds
    else
      let index := child_index pixel level
      let created := ensure_child tree cs index level self
      match octree_add_pixel_to_node fuel created.1 created.2 (self ++ [index])
          (level + 1) pixel with
      | .error e => .error e
      | .ok (tree2, child) => .ok (tree2, .node isLeaf n r g b a (cs.set index child))

/-- Function `octree_create`. -/
def octree_create : octree :=
  let created := octree_create_node
    { numLeaves := 0, root := .null, heads := List.replicate BIT_DEPTH [] } 0 []
  { created.1 with root := created.2, numLeaves := 0 }

mutual
/-- Function `octree_get_leaf_nodes`: the leaves below a node, in the order in
which they are stored into `leaves`. -/
def octree_get_leaf_nodes : octnode → List octnode
  | .null => []
  | .node isLeaf n r g b a cs =>
    if isLeaf then [.node isLeaf n r g b a cs] else octree_get_leaf_children cs
/-- The loop over the sixteen child slots of `octree_get_leaf_nodes`. -/
def octree_get_leaf_children : List octnode → List octnode
  | [] => []
  | c :: cs => octree_get_leaf_nodes c ++ octree_get_leaf_children cs
end

/-- Function `octree_add_pixel`. -/
def octree_add_pixel (tree : octree) (pixel : Pixel) : Except Fault octree :=
  match octree_add_pixel_to_node (BIT_DEPTH + 1) tree tree.root [] 0 pixel with
  | .error e => .error e
  | .ok (tree2, root) => .ok { tree2 with root := root }

/-- The loop `for (j = 0; j < 16; j++)` of `octree_reduce`, from slot `j`, over
the children not yet visited; `node` is the node being collapsed. -/
def octree_reduce_children (level : Nat) (self : Ref) :
    List octnode → Nat → octree → octnode → octree × octnode
  | [], _, tree, node => (tree, node)
  | .null :: rest, j, tree, node => octree_reduce_children level self rest (j + 1) tree node
  | .node l n r g b a cs :: rest, j, tree, node =>
    let tree1 := octree_destroy_node tree (.node l n r g b a cs) (self ++ [j]) (level + 1)
    octree_reduce_children level self rest (j + 1)
      { tree1 with numLeaves := tree1.numLeaves - 1 }
      (.node node.leaf (node.count + n) (node.sumRed + r) (node.sumGreen + g)
        (node.sumBlue + b) (node.sumAlpha + a) (node.kids.set j .null))

/-- The loop `for (i = BIT_DEPTH - 1; i > -1; i--)` of `octree_reduce`, with
`i + 1` levels still to scan. -/
def octree_reduce_from : Nat → octree → Except Fault octree
  | 0, tree => .ok tree
  | i + 1, tree =>
    match tree.heads.getD i [] with
    | [] => octree_reduce_from i tree
    | self :: next =>
      let tree1 := { tree with heads := tree.heads.set i next }
      match tree1.root.find self with
      | .null => .error .dangling
      | .node l n r g b a cs =>
        let merged := octree_reduce_children i self cs 0 tree1 (.node l n r g b a cs)
        .ok { merged.1 with
          root := merged.1.root.replace self
            (.node true merged.2.count merged.2.sumRed merged.2.sumGreen merged.2.sumBlue
              merged.2.sumAlpha merged.2.kids)
          numLeaves := merged.1.numLeaves + 1 }

/-- Function `octree_reduce`. -/
def octree_reduce (tree : octree) : Except Fault octree :=
  octree_reduce_from BIT_DEPTH tree

/-- Narrowing of a `size_t` value to `int`. -/
def to_int (x : Nat) : Int :=
  if x % 2 ^ 32 < 2 ^ 31 then ((x % 2 ^ 32 : Nat) : Int) else ((x % 2 ^ 32 : Nat) : Int) - 2 ^ 32

/-- Function `compare_node_size`: the `size_t` difference of the two counts,
narrowed to `int`. -/
def compare_node_size (a b : octnode) : Int :=
  to_int ((b.count + 2 ^ 64 - a.count % 2 ^ 64) % 2 ^ 64)

/-- The narrowing store `c[k] = sum / numPixels` of one channel. -/
def channel (sum numPixels : Nat) : uint8_t :=
  Fin.ofNat (sum / numPixels)

/-- The four bytes written for one leaf. -/
def leaf_color (leaf : octnode) : Except Fault (List uint8_t) :=
  match leaf with
  | .null => .error .null_deref
  | .node _ n r g b a _ =>
    if n = 0 then .error .division_by_zero
    else .ok [channel r n, channel g n, channel b n, channel a n]

/-- Store a list of bytes into a buffer at an offset. -/
def store (buf : List uint8_t) (offset : Nat) (bytes : List uint8_t) :
    Except Fault (List uint8_t) :=
  if offset + bytes.length ≤ buf.length then
    .ok (buf.take offset ++ bytes ++ buf.drop (offset + bytes.length))
  else .error .out_of_bounds

/-- The loop `for (i = 0; i < count; i++)` of `octree_get_colors`, from leaf `i`. -/
def write_colors : List octnode → Nat → List uint8_t → Except Fault (List uint8_t)
  | [], _, colors => .ok colors
  | leaf :: rest, i, colors =>
    match leaf_color leaf with
    | .error e => .error e
    | .ok quad =>
      match store colors (i * 4) quad with
      | .error e => .error e
      | .ok colors1 => write_colors rest (i + 1) colors1

/-- Function `octree_get_colors`.  The array `leaves` has room for `numLeaves`
pointers: collecting more leaves than that writes past its end. -/
def octree_get_colors (tree : octree) (colors : List uint8_t) : Except Fault (List uint8_t) :=
  let leaves := octree_get_leaf_nodes tree.root
  if tree.numLeaves < leaves.length then .error .out_of_bounds
  else write_colors leaves 0 colors

/-- The loop that feeds every pixel of the buffer to `octree_add_pixel`. -/
def add_pixels : octree → List Pixel → Except Fault octree
  | tree, [] => .ok tree
  | tree, p :: ps =>
    match octree_add_pixel tree p with
    | .error e => .error e
    | .ok tree1 => add_pixels tree1 ps

/-- The number of nodes waiting in the level queues. -/
def queued (tree : octree) : Nat :=
  (tree.heads.map List.length).sum

/-- The loop `while (tree->numLeaves > bound) octree_reduce(tree)`, run for at
most `fuel` iterations. -/
def reduce_while : Nat → octree → Nat → Except Fault octree
  | fuel, tree, bound =>
    if tree.numLeaves ≤ bound then .ok tree
    else
      match fuel with
      | 0 => .error .diverges
      | fuel + 1 =>
        match octree_reduce tree with
        | .error e => .error e
        | .ok tree1 => reduce_while fuel tree1 bound

/-- The whole loop `while (tree->numLeaves > bound) octree_reduce(tree)`.  Every
call of `octree_reduce` that changes the tree takes a node out of a level
queue, so `queued tree` iterations are all the loop can make before it either
stops or spins on an unchanging tree. -/
def reduce_to (tree : octree) (bound : Nat) : Except Fault octree :=
  reduce_while (queued tree) tree bound

/-- Function `get_palette`.  The result is the contents of `colors` and of
`*numColors` when the function returns. -/
def get_palette (pixels : List Pixel) (colors : List uint8_t) (numColors : Nat) :
    Except Fault (List uint8_t × Nat) :=
  if numColors < 8 then .ok (colors, numColors)
  else
    match add_pixels octree_create pixels with
    | .error e => .error e
    | .ok tree =>
      match reduce_to tree numColors with
      | .error e => .error e
      | .ok tree1 =>
        match store colors 0 (List.replicate (tree1.numLeaves * 4) 0) with
        | .error e => .error e
        | .ok zeroed =>
          match octree_get_colors tree1 zeroed with
          | .error e => .error e
          | .ok out => .ok (out, tree1.numLeaves)

/-- Function `get_dominant_color`.  The library routine `qsort` and the
comparator `compare_node_color` (single-precision float arithmetic) are
arguments.  The array `leaves` has room for `numLeaves` pointers, all NULL at
first: collecting more leaves than that writes past its end, collecting fewer
leaves NULL entries for the comparators to dereference, and with `numLeaves = 0`
the read of `leaves[0]` is outside the array.  The result is the four bytes
stored into `color`. -/
def get_dominant_color (qsort : (octnode → octnode → Int) → List octnode → List octnode)
    (compare_node_color : octnode → octnode → Int) (pixels : List Pixel) :
    Except Fault (List uint8_t) :=
  match add_pixels octree_create pixels with
  | .error e => .error e
  | .ok tree =>
    match reduce_to tree 16 with
    | .error e => .error e
    | .ok tree1 =>
      let leaves := octree_get_leaf_nodes tree1.root
      if tree1.numLeaves < leaves.length then .error .out_of_bounds
      else if leaves.length < tree1.numLeaves ∧ 2 ≤ tree1.numLeaves then .error .null_deref
      else
        let sorted := qsort compare_node_size leaves
        let ranked :=
          qsort compare_node_color (sorted.take (tree1.numLeaves / 4)) ++
            sorted.drop (tree1.numLeaves / 4)
        match ranked with
        | [] => if tree1.numLeaves = 0 then .error .out_of_bounds else .error .null_deref
        | leaf :: _ => leaf_color leaf

/-! ## A reduction step in closed form -/

/-- The node `octree_reduce` collapses: the head of the queue of the deepest
level below `i` whose queue is not empty, with that level. -/
def selected : Nat → octree → Option (Nat × Ref)
  | 0, _ => none
  | i + 1, tree =>
    match tree.heads.getD i [] with
    | [] => selected i tree
    | self :: _ => some (i, self)

/-- The sum of a field over a list of child slots (an empty slot counts 0). -/
def total (f : octnode → Nat) (cs : List octnode) : Nat :=
  (cs.map f).sum

/-- The number of occupied slots in a list of child slots. -/
def occupied (cs : List octnode) : Nat :=
  (cs.filter (fun c => !c.isNull)).length

/-- The leaf a node with child slots `cs` is collapsed into. -/
def merged_leaf (cs : List octnode) : octnode :=
  .node true (total octnode.count cs) (total octnode.sumRed cs) (total octnode.sumGreen cs)
    (total octnode.sumBlue cs) (total octnode.sumAlpha cs) (List.replicate cs.length .null)

/-- The tree after the node `self` of level `level`, the head of its queue,
has been collapsed into a leaf that holds the sums of its children. -/
def collapse (tree : octree) (level : Nat) (self : Ref) : octree :=
  { numLeaves := tree.numLeaves - occupied (tree.root.find self).kids + 1
    root := tree.root.replace self (merged_leaf (tree.root.find self).kids)
    heads := tree.heads.set level (tree.heads.getD level []).tail }

/-! ## Well-formed trees -/

mutual
/-- The number of nodes with `isLeaf` set among a node and all its descendants. -/
def count_leaves : octnode → Nat
  | .null => 0
  | .node l _ _ _ _ _ cs => (if l then 1 else 0) + count_leaves_children cs
/-- The number of nodes with `isLeaf` set below a list of child slots. -/
def count_leaves_children : List octnode → Nat
  | [] => 0
  | c :: cs => count_leaves c + count_leaves_children cs
end

/-- What holds of the node at reference `q`: a leaf has no children; any other
node has zero sums, sixteen child slots, lies above level `BIT_DEPTH` and is a
member of the queue of its level. -/
def node_ok (heads : List (List Ref)) (q : Ref) : octnode → Prop
  | .null => True
  | .node true _ _ _ _ _ cs => cs = List.replicate 16 .null
  | .node false n r g b a cs =>
    n = 0 ∧ r = 0 ∧ g = 0 ∧ b = 0 ∧ a = 0 ∧ cs.length = 16 ∧ q.length < BIT_DEPTH ∧
      q ∈ heads.getD q.length []

/-- The invariant of the tree: the queues hold exactly the nodes that are not
leaves, each once and at its level, and `numLeaves` counts the leaves. -/
structure consistent (tree : octree) : Prop where
  heads_length : tree.heads.length = BIT_DEPTH
  root_node : tree.root.isNull = false
  nodes_ok : ∀ q, node_ok tree.heads q (tree.root.find q)
  queued_internal : ∀ l q, q ∈ tree.heads.getD l [] →
    q.length = l ∧ (tree.root.find q).internal = true
  queues_nodup : ∀ l, (tree.heads.getD l []).Nodup
  leaves_counted : tree.numLeaves = count_leaves tree.root

/-- The trees that `octree_create`, `octree_add_pixel` and `octree_reduce` can
produce. -/
inductive reachable : octree → Prop
  | create : reachable octree_create
  | add_pixel {tree tree1 : octree} (pixel : Pixel) :
      reachable tree → octree_add_pixel tree pixel = .ok tree1 → reachable tree1
  | reduce {tree tree1 : octree} :
      reachable tree → octree_reduce tree = .ok tree1 → reachable tree1

/-- The bit of a byte that a level looks at: bit `7 - level`. -/
def bit_at (x : uint8_t) (level : Nat) : Nat := (x.val >>> (7 - level)) &&& 1

/-- What a call of `octree_add_pixel_to_node` on the node at reference `ref`
leaves behind: the node is still well formed, the queues have only grown, and
only by references below `ref`, and `numLeaves` has grown with the leaves. -/
structure add_post (tree : octree) (node : octnode) (ref : Ref) (tree1 : octree)
    (node1 : octnode) : Prop where
  heads_length : tree1.heads.length = BIT_DEPTH
  not_null : node1.isNull = false
  nodes_ok : ∀ q, node_ok tree1.heads (ref ++ q) (node1.find q)
  grows : ∀ l q, q ∈ tree.heads.getD l [] → q ∈ tree1.heads.getD l []
  fresh_below : ∀ l q, q ∈ tree1.heads.getD l [] →
    q ∈ tree.heads.getD l [] ∨ ∃ j q1, q = ref ++ j :: q1
  queued_internal : ∀ l q, ref ++ q ∈ tree1.heads.getD l [] → (node1.find q).internal = true
  queued_length : ∀ l q, q ∈ tree1.heads.getD l [] → q.length = l
  queues_nodup : ∀ l, (tree1.heads.getD l []).Nodup
  leaves_counted : tree1.numLeaves + count_leaves node = tree.numLeaves + count_leaves node1

/-- The five running totals a node keeps: `numPixels` and the four channel
sums. -/
inductive tally where
  | pixels
  | red
  | green
  | blue
  | alpha
deriving DecidableEq, Repr

/-- The field of a node that holds a total. -/
def tally.of : tally → octnode → Nat
  | .pixels => octnode.count
  | .red => octnode.sumRed
  | .green => octnode.sumGreen
  | .blue => octnode.sumBlue
  | .alpha => octnode.sumAlpha

/-- What one pixel adds to a total. -/
def tally.weight : tally → Pixel → Nat
  | .pixels, _ => 1
  | .red, p => p.r.val
  | .green, p => p.g.val
  | .blue, p => p.b.val
  | .alpha, p => p.a.val

/-- The sum of a total over the leaves that `octree_get_leaf_nodes` collects
below a node. -/
def leaf_total (t : tally) (n : octnode) : Nat :=
  total t.of (octree_get_leaf_nodes n)

/-- The sum of `numPixels` over the leaves that `octree_get_leaf_nodes`
collects below a node. -/
def leaf_pixels (n : octnode) : Nat :=
  total octnode.count (octree_get_leaf_nodes n)

/-- A leaf holds at least one pixel and any other node has an occupied child
slot. -/
def populated_at (n : octnode) : Prop :=
  (n.leaf = true → 1 ≤ n.count) ∧ (n.internal = true → ∃ c ∈ n.kids, c.isNull = false)

/-- Every node of the tree is populated. -/
def populated (n : octnode) : Prop :=
  ∀ q, populated_at (n.find q)

/-- The effect of `k` calls of `octree_reduce` in a row. -/
def reduce_times : Nat → octree → Except Fault octree
  | 0, tree => .ok tree
  | k + 1, tree =>
    match octree_reduce tree with
    | .error e => .error e
    | .ok tree1 => reduce_times k tree1

/-- Every node that is not a leaf has sixteen child slots. -/
def wide (n : octnode) : Prop :=
  ∀ q, (n.find q).internal = true → (n.find q).kids.length = 16

/-- The colour of a leaf: its four channel sums divided by `numPixels`, each
narrowed to a byte. -/
def quad (leaf : octnode) : List uint8_t :=
  [channel leaf.sumRed leaf.count, channel leaf.sumGreen leaf.count,
    channel leaf.sumBlue leaf.count, channel leaf.sumAlpha leaf.count]

/-- The colours of a list of leaves, one after the other. -/
def quads : List octnode → List uint8_t
  | [] => []
  | leaf :: rest => quad leaf ++ quads rest

/-- The four bytes of a pixel. -/
def Pixel.bytes (p : Pixel) : List uint8_t := [p.r, p.g, p.b, p.a]

/-- The child indices of a pixel at the levels `0 .. BIT_DEPTH - 1`: the
reference of the deepest leaf the pixel can reach. -/
def path (pixel : Pixel) : Ref :=
  (List.range BIT_DEPTH).map (child_index pixel)

/-- A leaf at reference `q` holds copies of one pixel, the pixel whose path is
`q`: each sum is the count times the channel. -/
def exact_at (q : Ref) (n : octnode) : Prop :=
  n.leaf = true → ∃ p : Pixel, path p = q ∧ n.sumRed = n.count * p.r.val ∧
    n.sumGreen = n.count * p.g.val ∧ n.sumBlue = n.count * p.b.val ∧
    n.sumAlpha = n.count * p.a.val

/-- There is a leaf at reference `q` below `n` and it holds a pixel. -/
def held (n : octnode) (q : Ref) : Prop :=
  (n.find q).leaf = true ∧ 1 ≤ (n.find q).count

/-- The colours of the leaves of a list that hold a pixel, one quad each. -/
def leaf_colors (leaves : List octnode) : List (List uint8_t) :=
  (leaves.filter (fun m => decide (1 ≤ m.count))).map quad

/-- The colours of the leaves below a node that hold a pixel. -/
def colors_of (n : octnode) : List (List uint8_t) :=
  leaf_colors (octree_get_leaf_nodes n)

/-- A buffer of colours cut into its quads. -/
def split_quads : List uint8_t → List (List uint8_t)
  | r :: g :: b :: a :: rest => [r, g, b, a] :: split_quads rest
  | _ => []

/-- The tree after the pixels `done` have been inserted, in any order, into a
fresh tree: every leaf holds copies of one pixel, the pixels held are those of
`done`, and the colours of the leaves are the distinct pixels of `done`. -/
structure holds (tree : octree) (done : List Pixel) : Prop where
  wf : consistent tree
  below : ∀ j q, populated_at (tree.root.find (j :: q))
  pop : done ≠ [] → populated tree.root
  sums : ∀ q, exact_at q (tree.root.find q)
  present : ∀ p, held tree.root (path p) ↔ p ∈ done
  colours : (colors_of tree.root).Perm (done.dedup.map Pixel.bytes)

/-- A sorting routine that can stand for `qsort`: a merge sort that puts `a`
before `b` when the comparator does not return a positive number. -/
def merge_qsort (compare : octnode → octnode → Int) (nodes : List octnode) : List octnode :=
  nodes.mergeSort (fun a b => decide (compare a b ≤ 0))

/-- The two-cluster image of the specification: 100 pixels `(255, 0, 0, 255)`
followed by 10 pixels `(0, 255, 0, 255)`. -/
def two_clusters : List Pixel :=
  List.replicate 100 ⟨255, 0, 0, 255⟩ ++ List.replicate 10 ⟨0, 255, 0, 255⟩

/-- Twenty pixels of twenty different colours. -/
def twenty_colours : List Pixel :=
  (List.range 20).map fun i => ⟨Fin.ofNat (13 * i), Fin.ofNat (7 * i), Fin.ofNat i, 255⟩

/-! ## Array accesses -/

/-- An indexed access the code makes: to `tree->heads[i]`, to the table
`mask[i]`, or to a child slot `children[i]`. -/
inductive access where
  | heads (i : Nat)
  | mask (i : Nat)
  | child (i : Nat)
deriving DecidableEq, Repr

/-- Whether an access is inside its array: `heads` and `mask` have `BIT_DEPTH`
entries, `children` has sixteen. -/
def access.in_bounds : access → Bool
  | .heads i => decide (i < BIT_DEPTH)
  | .mask i => decide (i < 8)
  | .child i => decide (i < 16)

/-- The accesses of `octree_create_node(tree, level)`: `heads[level]` when the
node is not a leaf. -/
def create_node_accesses (level : Nat) : List access :=
  if BIT_DEPTH = level then [] else [.heads level]

/-- The accesses of `octree_add_pixel_to_node(tree, node, level, pixel)`, in
order, with the recursion depth bounded by `fuel`: at a node that is not a
leaf `mask[level]`, the slot `children[index]`, the accesses of
`octree_create_node` when the slot is empty, and those of the recursive call. -/
def add_pixel_accesses : Nat → octnode → Nat → Pixel → List access
  | 0, _, _, _ => []
  | _ + 1, .null, _, _ => []
  | fuel + 1, .node isLeaf _ _ _ _ _ cs, level, pixel =>
    if isLeaf then []
    else if BIT_DEPTH ≤ level then [.mask level]
    else
      let index := child_index pixel level
      [.mask level, .child index] ++
        (if (cs.getD index .null).isNull then
          create_node_accesses (level + 1) ++
            add_pixel_accesses fuel (fresh_node (decide (BIT_DEPTH = level + 1))) (level + 1) pixel
        else add_pixel_accesses fuel (cs.getD index .null) (level + 1) pixel)

mutual
/-- The accesses of `octree_destroy_node(tree, node, level)`, in order:
`heads[level]` for the comparison with `node`, then each child slot and the
accesses of the recursive call on a child that is there. -/
def destroy_node_accesses : octnode → Nat → List access
  | .null, _ => []
  | .node _ _ _ _ _ _ cs, level => .heads level :: destroy_children_accesses cs 0 (level + 1)
/-- The accesses of the loop over the child slots of `octree_destroy_node`,
from slot `i`. -/
def destroy_children_accesses : List octnode → Nat → Nat → List access
  | [], _, _ => []
  | c :: cs, i, level =>
    .child i :: (destroy_node_accesses c level ++ destroy_children_accesses cs (i + 1) level)
end

/-- The accesses of the loop over the child slots of `octree_reduce`, from slot
`j`, for a node of level `level`. -/
def reduce_children_accesses (level : Nat) : List octnode → Nat → List access
  | [], _ => []
  | c :: rest, j =>
    .child j :: (destroy_node_accesses c (level + 1) ++ reduce_children_accesses level rest (j + 1))

/-- The accesses of `octree_reduce`, with `i + 1` levels still to scan:
`heads[i]` for each level scanned and, at the level of the node that is
collapsed, the accesses of the loop over its children. -/
def reduce_accesses : Nat → octree → List access
  | 0, _ => []
  | i + 1, tree =>
    match tree.heads.getD i [] with
    | [] => .heads i :: reduce_accesses i tree
    | self :: _ => .heads i :: reduce_children_accesses i (tree.root.find self).kids 0

/-- The accesses of `octree_destroy(tree)`. -/
def destroy_accesses (tree : octree) : List access :=
  destroy_node_accesses tree.root 0

/-! ## Counting the calls of `octree_reduce` -/

mutual
/-- The number of nodes that are not leaves among a node and all its
descendants. -/
def count_internal : octnode → Nat
  | .null => 0
  | .node l _ _ _ _ _ cs => (if l then 0 else 1) + count_internal_children cs
/-- The number of nodes that are not leaves below a list of child slots. -/
def count_internal_children : List octnode → Nat
  | [] => 0
  | c :: cs => count_internal c + count_internal_children cs
end

/-- The loop `while (tree->numLeaves > bound) octree_reduce(tree)`, run for at
most `fuel` iterations: the tree it ends with and the number of calls of
`octree_reduce` it has made. -/
def reduce_calls : Nat → octree → Nat → Except Fault (octree × Nat)
  | fuel, tree, bound =>
    if tree.numLeaves ≤ bound then .ok (tree, 0)
    else
      match fuel with
      | 0 => .error .diverges
      | fuel + 1 =>
        match octree_reduce tree with
        | .error e => .error e
        | .ok tree1 =>
          match reduce_calls fuel tree1 bound with
          | .error e => .error e
          | .ok (tree2, calls) => .ok (tree2, calls + 1)

/-! ## The classes of pixels behind the leaves -/

mutual
/-- The references, from a node, of the leaves that `octree_get_leaf_nodes`
collects below it, in the order in which it collects them: depth first, the
child slots in ascending order. -/
def leaf_paths : octnode → List Ref
  | .null => []
  | .node isLeaf _ _ _ _ _ cs => if isLeaf then [[]] else leaf_paths_children cs 0
/-- The references of the leaves collected below a list of child slots, the
first of which is slot `j`. -/
def leaf_paths_children : List octnode → Nat → List Ref
  | [], _ => []
  | c :: cs, j => (leaf_paths c).map (fun q => j :: q) ++ leaf_paths_children cs (j + 1)
end

/-- The pixels of a buffer whose path begins with the reference `q`: the
pixels whose child indices at the levels `0 .. q.length - 1` are the entries
of `q`. -/
def class_of (pixels : List Pixel) (q : Ref) : List Pixel :=
  pixels.filter (fun p => decide (q <+: path p))

/-- A total over the pixels of a class. -/
def class_total (t : tally) (pixels : List Pixel) (q : Ref) : Nat :=
  ((class_of pixels q).map t.weight).sum

/-- The truncated mean colour of a list of pixels: per channel the sum of the
channel over the list divided by the number of pixels. -/
def mean_color (ps : List Pixel) : List uint8_t :=
  [channel (ps.map tally.red.weight).sum ps.length,
    channel (ps.map tally.green.weight).sum ps.length,
    channel (ps.map tally.blue.weight).sum ps.length,
    channel (ps.map tally.alpha.weight).sum ps.length]

/-- The leaves of the tree stand for classes of the pixels `pixels`: a leaf
at reference `q` holds the totals of the pixels whose path begins with `q`,
and the path of every pixel leads through a leaf. -/
structure classes (tree : octree) (pixels : List Pixel) : Prop where
  sums : ∀ (t : tally) (q : Ref), (tree.root.find q).leaf = true →
    t.of (tree.root.find q) = class_total t pixels q
  reached : ∀ p ∈ pixels, ∃ L, (tree.root.find ((path p).take L)).leaf = true

/-! ## The comparators and `qsort` -/

/-- The floating-point operations of `get_rgb` and `get_saturation` on a type
`F` of `float` values: the conversion `(float)` of a `size_t`, the divisions
`/ 255.` and `/ 6.` (carried out in `double` and stored into a `float`), `+`,
`-` and `/` on `float`, the test `l > 0.5` and the constants `0` and `2`.  The
comparisons `==`, `<`, `>` and the functions `fminf` and `fmaxf` are those of
the order of `F`. -/
structure float_ops (F : Type) where
  of_size : Nat → F
  div_255 : F → F
  add : F → F → F
  sub : F → F → F
  div : F → F → F
  div_6 : F → F
  above_half : F → Bool
  zero : F
  two : F

/-- Function `get_rgb`: the three averaged channels as floats in `[0, 1]`. -/
def get_rgb {F : Type} (ops : float_ops F) : octnode → Except Fault (F × F × F)
  | .null => .error .null_deref
  | .node _ n r g b _ _ =>
    if n = 0 then .error .division_by_zero
    else .ok (ops.div_255 (ops.of_size (r / n)), ops.div_255 (ops.of_size (g / n)),
      ops.div_255 (ops.of_size (b / n)))

/-- Function `get_saturation`. -/
def get_saturation {F : Type} [LinearOrder F] (ops : float_ops F) (r g b : F) : F :=
  let minv := min (min r g) b
  let maxv := max (max r g) b
  if minv = maxv then ops.zero
  else
    let d := ops.sub maxv minv
    let l := ops.div_6 (ops.add (ops.add (ops.add (ops.add (ops.add r r) b) g) g) g)
    if ops.above_half l then ops.div d (ops.sub (ops.sub ops.two maxv) minv)
    else ops.div d (ops.add maxv minv)

/-- The saturation that `compare_node_color` computes for a node. -/
def saturation {F : Type} [LinearOrder F] (ops : float_ops F) (node : octnode) :
    Except Fault F :=
  match get_rgb ops node with
  | .error e => .error e
  | .ok (r, g, b) => .ok (get_saturation ops r g b)

/-- Function `compare_node_color`.  A call in which `get_rgb` faults has no
result; it is given the value 0. -/
def compare_node_color {F : Type} [LinearOrder F] (ops : float_ops F) (a b : octnode) : Int :=
  match saturation ops a, saturation ops b with
  | .ok asat, .ok bsat => if asat > bsat then -1 else if asat < bsat then 1 else 0
  | _, _ => 0

/-- Exact arithmetic on the rationals as the floating-point operations. -/
def exact_ops : float_ops ℚ where
  of_size := fun n => (n : ℚ)
  div_255 := fun x => x / 255
  add := fun x y => x + y
  sub := fun x y => x - y
  div := fun x y => x / y
  div_6 := fun x => x / 6
  above_half := fun x => decide (1 / 2 < x)
  zero := 0
  two := 2

/-- What is taken of the library routine `qsort`: the result is a
rearrangement of the array; it is in order when the comparator orders the
elements of the array consistently (any two are comparable, and transitively
so); and, modelled from the specification, which describes the sort as stable
by traversal order, an array that is in order already is left as it is. -/
structure sorts (qsort : (octnode → octnode → Int) → List octnode → List octnode) : Prop where
  perm : ∀ compare nodes, (qsort compare nodes).Perm nodes
  ordered : ∀ compare nodes,
    (∀ a ∈ nodes, ∀ b ∈ nodes, compare a b ≤ 0 ∨ compare b a ≤ 0) →
    (∀ a ∈ nodes, ∀ b ∈ nodes, ∀ c ∈ nodes, compare a b ≤ 0 → compare b c ≤ 0 →
      compare a c ≤ 0) →
    (qsort compare nodes).Pairwise (fun a b => compare a b ≤ 0)
  stable : ∀ compare nodes, nodes.Pairwise (fun a b => compare a b ≤ 0) →
    qsort compare nodes = nodes

/-- Insert a node into a list in front of the first node it does not compare
greater than. -/
def ordered_insert (compare : octnode → octnode → Int) (x : octnode) :
    List octnode → List octnode
  | [] => [x]
  | y :: ys => if compare x y ≤ 0 then x :: y :: ys else y :: ordered_insert compare x ys

/-- A sorting routine that can stand for `qsort`: insertion sort. -/
def insertion_qsort (compare : octnode → octnode → Int) : List octnode → List octnode
  | [] => []
  | x :: xs => ordered_insert compare x (insertion_qsort compare xs)

/-- The comparison that `compare_node_size` makes of two pixel counts. -/
def size_order (a b : Nat) : Int :=
  to_int ((b + 2 ^ 64 - a % 2 ^ 64) % 2 ^ 64)

/-- The pixel whose four bytes are at the start of a list. -/
def Pixel.of_bytes (bytes : List uint8_t) : Pixel :=
  ⟨bytes.getD 0 0, bytes.getD 1 0, bytes.getD 2 0, bytes.getD 3 0⟩

/-- The buffer made of runs of equal pixels: for each pair `(c, n)` in turn,
`n` copies of the pixel `c`. -/
def runs : List (Pixel × Nat) → List Pixel
  | [] => []
  | (c, n) :: rest => List.replicate n c ++ runs rest

/-- A buffer of 3221225474 pixels: 3221225473 (that is `3 * 2^30 + 1`) pixels
`(255, 0, 0, 255)` followed by one pixel `(0, 255, 0, 255)`. -/
def lopsided : List (Pixel × Nat) :=
  [(⟨255, 0, 0, 255⟩, 3221225473), (⟨0, 255, 0, 255⟩, 1)]

/-- A buffer of 3221225481 pixels of four colours: 3221225475 pixels
`(255, 0, 0, 255)`, then 3 pixels `(0, 255, 0, 255)`, 2 pixels
`(0, 0, 255, 255)` and one pixel `(255, 255, 0, 255)`. -/
def lopsided_four : List (Pixel × Nat) :=
  [(⟨255, 0, 0, 255⟩, 3221225475), (⟨0, 255, 0, 255⟩, 3), (⟨0, 0, 255, 255⟩, 2),
    (⟨255, 255, 0, 255⟩, 1)]

/-- A grayscale buffer of 3221225474 pixels: 3221225473 pixels `(0, 0, 0, 255)`
followed by one pixel `(255, 255, 255, 255)`. -/
def lopsided_gray : List (Pixel × Nat) :=
  [(⟨0, 0, 0, 255⟩, 3221225473), (⟨255, 255, 255, 255⟩, 1)]

/-! ## References into a tree -/

theorem getD_set_self {α : Type} (cs : List α) (j : Nat) (x d : α) (h : j < cs.length) :
    (cs.set j x).getD j d = x := by
  simp [List.getD_eq_getElem?_getD, List.getElem?_set, h]

theorem getD_set_other {α : Type} (cs : List α) (j k : Nat) (x d : α) (h : j ≠ k) :
    (cs.set j x).getD k d = cs.getD k d := by
  simp [List.getD_eq_getElem?_getD, List.getElem?_set, h]

theorem getD_mem_or_default {α : Type} (cs : List α) (j : Nat) (d : α) :
    cs.getD j d ∈ cs ∨ cs.getD j d = d := by
  by_cases h : j < cs.length
  · left; rw [List.getD_eq_getElem _ _ h]; exact List.getElem_mem _
  · right; exact List.getD_eq_default _ _ (by omega)

theorem mem_iff_getD {α : Type} (cs : List α) (c d : α) :
    c ∈ cs ↔ ∃ j, j < cs.length ∧ cs.getD j d = c := by
  constructor
  · intro h
    obtain ⟨j, hj, rfl⟩ := List.mem_iff_getElem.1 h
    exact ⟨j, hj, List.getD_eq_getElem _ _ hj⟩
  · rintro ⟨j, hj, rfl⟩
    rw [List.getD_eq_getElem _ _ hj]; exact List.getElem_mem _

namespace octnode

@[simp]
theorem find_nil (n : octnode) : n.find [] = n := by
  cases n <;> rfl

@[simp]
theorem find_null (q : Ref) : null.find q = null := by
  cases q <;> rfl

@[simp]
theorem find_cons (l : Bool) (n r g b a : Nat) (cs : List octnode) (j : Nat) (q : Ref) :
    (node l n r g b a cs).find (j :: q) = (cs.getD j null).find q := rfl

theorem find_cons_kids (n : octnode) (j : Nat) (q : Ref) :
    n.find (j :: q) = (n.kids.getD j null).find q := by
  cases n <;> simp [kids]

theorem find_append (n : octnode) (p q : Ref) : n.find (p ++ q) = (n.find p).find q := by
  induction p generalizing n with
  | nil => simp
  | cons j p ih =>
    cases n with
    | null => simp
    | node l n r g b a cs => simp [ih]

@[simp]
theorem replace_nil (n x : octnode) : n.replace [] x = x := by
  cases n <;> rfl

@[simp]
theorem replace_null (j : Nat) (q : Ref) (x : octnode) : null.replace (j :: q) x = null := rfl

@[simp]
theorem replace_cons (l : Bool) (n r g b a : Nat) (cs : List octnode) (j : Nat) (q : Ref)
    (x : octnode) :
    (node l n r g b a cs).replace (j :: q) x =
      node l n r g b a (cs.set j ((cs.getD j null).replace q x)) := rfl

@[simp]
theorem isNull_null : null.isNull = true := rfl
@[simp]
theorem isNull_node (l : Bool) (n r g b a : Nat) (cs : List octnode) :
    (node l n r g b a cs).isNull = false := rfl
@[simp]
theorem leaf_null : null.leaf = false := rfl
@[simp]
theorem leaf_node (l : Bool) (n r g b a : Nat) (cs : List octnode) :
    (node l n r g b a cs).leaf = l := rfl
@[simp]
theorem internal_null : null.internal = false := rfl
@[simp]
theorem internal_node (l : Bool) (n r g b a : Nat) (cs : List octnode) :
    (node l n r g b a cs).internal = !l := rfl
@[simp]
theorem kids_null : null.kids = [] := rfl
@[simp]
theorem kids_node (l : Bool) (n r g b a : Nat) (cs : List octnode) :
    (node l n r g b a cs).kids = cs := rfl
@[simp]
theorem count_null : null.count = 0 := rfl
@[simp]
theorem count_node (l : Bool) (n r g b a : Nat) (cs : List octnode) :
    (node l n r g b a cs).count = n := rfl
@[simp]
theorem sumRed_node (l : Bool) (n r g b a : Nat) (cs : List octnode) :
    (node l n r g b a cs).sumRed = r := rfl
@[simp]
theorem sumGreen_node (l : Bool) (n r g b a : Nat) (cs : List octnode) :
    (node l n r g b a cs).sumGreen = g := rfl
@[simp]
theorem sumBlue_node (l : Bool) (n r g b a : Nat) (cs : List octnode) :
    (node l n r g b a cs).sumBlue = b := rfl
@[simp]
theorem sumAlpha_node (l : Bool) (n r g b a : Nat) (cs : List octnode) :
    (node l n r g b a cs).sumAlpha = a := rfl

theorem internal_not_null {n : octnode} (h : n.internal = true) : n.isNull = false := by
  cases n <;> simp_all

theorem leaf_not_null {n : octnode} (h : n.leaf = true) : n.isNull = false := by
  cases n <;> simp_all

theorem internal_not_leaf {n : octnode} (h : n.internal = true) : n.leaf = false := by
  cases n <;> simp_all

theorem leaf_or_internal {n : octnode} (h : n.isNull = false) :
    n.leaf = true ∨ n.internal = true := by
  cases n with
  | null => simp at h
  | node l => cases l <;> simp

/-- Induction over a tree: a property of NULL that passes from the children of
a node to the node holds of every tree. -/
theorem induct {P : octnode → Prop} (h0 : P null)
    (h1 : ∀ l n r g b a cs, (∀ c ∈ cs, P c) → P (node l n r g b a cs)) : ∀ n, P n := by
  intro n
  refine @octnode.rec P (fun cs => ∀ c ∈ cs, P c) h0 ?_ ?_ ?_ n
  · intro l n r g b a cs ih; exact h1 l n r g b a cs ih
  · intro c hc; cases hc
  · intro c cs hc hcs x hx
    rcases List.mem_cons.1 hx with rfl | hx
    · exact hc
    · exact hcs x hx

/-- A reference that leads to a node passes only through nodes. -/
theorem find_prefix_not_null {n : octnode} {p q : Ref}
    (h : (n.find (p ++ q)).isNull = false) : (n.find p).isNull = false := by
  rw [find_append] at h
  cases hp : n.find p with
  | null => rw [hp] at h; simp at h
  | node => rfl

/-- After a store through a reference that leads to a node, the reference leads
to what was stored. -/
theorem find_replace_self {n : octnode} {s : Ref} (x : octnode) (q : Ref)
    (h : (n.find s).isNull = false) : (n.replace s x).find (s ++ q) = x.find q := by
  induction s generalizing n with
  | nil => simp
  | cons j s ih =>
    cases n with
    | null => simp at h
    | node l n r g b a cs =>
      simp only [find_cons] at h
      have hj : j < cs.length := by
        by_contra hlt
        rw [List.getD_eq_default _ _ (by omega)] at h
        simp at h
      simp only [replace_cons, List.cons_append, find_cons, getD_set_self _ _ _ _ hj]
      exact ih h

/-- A store through a reference leaves every node that is neither on the way to
the reference nor below it as it was. -/
theorem find_replace_apart {n : octnode} {s q : Ref} (x : octnode)
    (h1 : ¬ s <+: q) (h2 : ¬ q <+: s) : (n.replace s x).find q = n.find q := by
  induction s generalizing n q with
  | nil => exact absurd List.nil_prefix h1
  | cons j s ih =>
    cases q with
    | nil => exact absurd List.nil_prefix h2
    | cons k q =>
      cases n with
      | null => simp
      | node l n r g b a cs =>
        simp only [replace_cons, find_cons]
        by_cases hjk : j = k
        · subst hjk
          by_cases hj : j < cs.length
          · rw [getD_set_self _ _ _ _ hj]
            apply ih
            · intro hp; exact h1 ((List.prefix_cons_inj j).2 hp)
            · intro hp; exact h2 ((List.prefix_cons_inj j).2 hp)
          · rw [List.set_eq_of_length_le (by omega)]
        · rw [getD_set_other _ _ _ _ _ hjk]

/-- A store through a reference leaves the fields of every node that is not
below the reference as they were. -/
theorem find_replace_above {n : octnode} {s q : Ref} (x : octnode)
    (h1 : ¬ s <+: q) : ((n.replace s x).find q).head = (n.find q).head := by
  induction s generalizing n q with
  | nil => exact absurd List.nil_prefix h1
  | cons j s ih =>
    cases n with
    | null => simp
    | node l n r g b a cs =>
      cases q with
      | nil => simp [head, isNull, leaf, count, sumRed, sumGreen, sumBlue, sumAlpha]
      | cons k q =>
        simp only [replace_cons, find_cons]
        by_cases hjk : j = k
        · subst hjk
          by_cases hj : j < cs.length
          · rw [getD_set_self _ _ _ _ hj]
            apply ih
            intro hp; exact h1 ((List.prefix_cons_inj j).2 hp)
          · rw [List.set_eq_of_length_le (by omega)]
        · rw [getD_set_other _ _ _ _ _ hjk]

theorem head_isNull {m n : octnode} (h : m.head = n.head) : m.isNull = n.isNull := by
  simp only [head, Prod.mk.injEq] at h; exact h.1

theorem head_leaf {m n : octnode} (h : m.head = n.head) : m.leaf = n.leaf := by
  simp only [head, Prod.mk.injEq] at h; exact h.2.1

theorem head_internal {m n : octnode} (h : m.head = n.head) : m.internal = n.internal := by
  have h1 := head_isNull h
  have h2 := head_leaf h
  cases m <;> cases n <;> simp_all

end octnode

/-! ## The child index -/

set_option maxRecDepth 100000 in
theorem masked_bit (x : uint8_t) (level : Fin 8) :
    (x.val &&& mask.getD level.val 0) >>> ((7 - level.val) % 256) = bit_at x level.val := by
  revert x level
  decide

theorem bit_at_lt (x : uint8_t) (level : Nat) : bit_at x level < 2 := by
  unfold bit_at
  have : (x.val >>> (7 - level)) &&& 1 ≤ 1 := Nat.and_le_right
  omega

theorem child_index_eq (pixel : Pixel) (level : Nat) (h : level < BIT_DEPTH) :
    child_index pixel level = 8 * bit_at pixel.r level + 4 * bit_at pixel.g level +
      2 * bit_at pixel.b level + bit_at pixel.a level := by
  have hr := masked_bit pixel.r ⟨level, h⟩
  have hg := masked_bit pixel.g ⟨level, h⟩
  have hb := masked_bit pixel.b ⟨level, h⟩
  have ha := masked_bit pixel.a ⟨level, h⟩
  simp only at hr hg hb ha
  unfold child_index
  simp only [hr, hg, hb, ha]
  have h1 := bit_at_lt pixel.r level
  have h2 := bit_at_lt pixel.g level
  have h3 := bit_at_lt pixel.b level
  have h4 := bit_at_lt pixel.a level
  generalize bit_at pixel.r level = x at *
  generalize bit_at pixel.g level = y at *
  generalize bit_at pixel.b level = z at *
  generalize bit_at pixel.a level = w at *
  interval_cases x <;> interval_cases y <;> interval_cases z <;> interval_cases w <;> rfl

theorem child_index_lt (pixel : Pixel) (level : Nat) (h : level < BIT_DEPTH) :
    child_index pixel level < 16 := by
  rw [child_index_eq pixel level h]
  have h1 := bit_at_lt pixel.r level
  have h2 := bit_at_lt pixel.g level
  have h3 := bit_at_lt pixel.b level
  have h4 := bit_at_lt pixel.a level
  omega

/-! ## Counting leaves -/

@[simp]
theorem count_leaves_null : count_leaves .null = 0 := by
  simp [count_leaves]

@[simp]
theorem count_leaves_node (l : Bool) (n r g b a : Nat) (cs : List octnode) :
    count_leaves (.node l n r g b a cs) = (if l then 1 else 0) + count_leaves_children cs := by
  simp [count_leaves]

@[simp]
theorem count_leaves_children_nil : count_leaves_children [] = 0 := by
  simp [count_leaves_children]

@[simp]
theorem count_leaves_children_cons (c : octnode) (cs : List octnode) :
    count_leaves_children (c :: cs) = count_leaves c + count_leaves_children cs := by
  simp [count_leaves_children]

theorem count_leaves_children_null (cs : List octnode) (h : ∀ c ∈ cs, c = .null) :
    count_leaves_children cs = 0 := by
  induction cs with
  | nil => simp
  | cons c cs ih =>
    have hc : c = .null := h c (List.mem_cons_self _ _)
    subst hc
    simp [ih (fun c hc => h c (List.mem_cons_of_mem _ hc))]

theorem count_leaves_children_replicate (k : Nat) :
    count_leaves_children (List.replicate k .null) = 0 :=
  count_leaves_children_null _ (fun _ hc => (List.mem_replicate.1 hc).2)

theorem count_leaves_children_set (cs : List octnode) (j : Nat) (x : octnode)
    (h : j < cs.length) :
    count_leaves_children (cs.set j x) + count_leaves (cs.getD j .null) =
      count_leaves_children cs + count_leaves x := by
  induction cs generalizing j with
  | nil => simp at h
  | cons c cs ih =>
    cases j with
    | zero => simp; omega
    | succ j =>
      have := ih j (by simpa using h)
      simp only [List.set_cons_succ, count_leaves_children_cons, List.getD_cons_succ]
      omega

/-! ## Fresh nodes and queue updates -/

theorem find_fresh_node (l : Bool) (j : Nat) (q : Ref) : (fresh_node l).find (j :: q) = .null := by
  unfold fresh_node
  rw [octnode.find_cons]
  have : (List.replicate 16 octnode.null).getD j .null = .null := by
    rcases getD_mem_or_default (List.replicate 16 octnode.null) j .null with h | h
    · exact (List.mem_replicate.1 h).2
    · exact h
  rw [this]; simp

theorem count_leaves_fresh (l : Bool) : count_leaves (fresh_node l) = if l then 1 else 0 := by
  unfold fresh_node
  rw [count_leaves_node, count_leaves_children_replicate, Nat.add_zero]

theorem node_ok_mono {heads heads1 : List (List Ref)} {q : Ref} {n : octnode}
    (hm : ∀ l r, r ∈ heads.getD l [] → r ∈ heads1.getD l []) (h : node_ok heads q n) :
    node_ok heads1 q n := by
  cases n with
  | null => trivial
  | node l n r g b a cs =>
    cases l with
    | true => exact h
    | false =>
      obtain ⟨h1, h2, h3, h4, h5, h6, h7, h8⟩ := h
      exact ⟨h1, h2, h3, h4, h5, h6, h7, hm _ _ h8⟩

theorem node_ok_internal {heads : List (List Ref)} {q : Ref} {n : octnode}
    (h : node_ok heads q n) (hi : n.internal = true) :
    n.kids.length = 16 ∧ q.length < BIT_DEPTH ∧ q ∈ heads.getD q.length [] ∧
      n = .node false 0 0 0 0 0 n.kids := by
  cases n with
  | null => simp at hi
  | node l n r g b a cs =>
    cases l with
    | true => simp at hi
    | false =>
      obtain ⟨h1, h2, h3, h4, h5, h6, h7, h8⟩ := h
      subst h1 h2 h3 h4 h5
      exact ⟨h6, h7, h8, rfl⟩

theorem node_ok_leaf {heads : List (List Ref)} {q : Ref} {n : octnode}
    (h : node_ok heads q n) (hl : n.leaf = true) : n.kids = List.replicate 16 .null := by
  cases n with
  | null => simp at hl
  | node l n r g b a cs =>
    cases l with
    | true => exact h
    | false => simp at hl

theorem mem_getD_set {heads : List (List Ref)} {i l : Nat} {x : List Ref} {q : Ref}
    (h : q ∈ (heads.set i x).getD l []) : (l = i ∧ q ∈ x) ∨ (l ≠ i ∧ q ∈ heads.getD l []) := by
  by_cases hli : i = l
  · subst hli
    by_cases hlt : i < heads.length
    · rw [getD_set_self _ _ _ _ hlt] at h; exact Or.inl ⟨rfl, h⟩
    · rw [List.set_eq_of_length_le (by omega), List.getD_eq_default _ _ (by omega)] at h
      cases h
  · rw [getD_set_other _ _ _ _ _ hli] at h
    exact Or.inr ⟨fun e => hli e.symm, h⟩

/-! ## Insertion keeps the tree well formed -/

theorem add_post_leaf (tree : octree) (self : Ref) (n r g b a n1 r1 g1 b1 a1 : Nat)
    (cs : List octnode) (hlen : tree.heads.length = BIT_DEPTH)
    (hok : ∀ q, node_ok tree.heads (self ++ q) ((octnode.node true n r g b a cs).find q))
    (hq : ∀ l q, self ++ q ∈ tree.heads.getD l [] →
      ((octnode.node true n r g b a cs).find q).internal = true)
    (hql : ∀ l q, q ∈ tree.heads.getD l [] → q.length = l)
    (hnd : ∀ l, (tree.heads.getD l []).Nodup) :
    add_post tree (.node true n r g b a cs) self tree (.node true n1 r1 g1 b1 a1 cs) := by
  refine ⟨hlen, rfl, ?_, fun _ _ h => h, fun _ _ h => Or.inl h, ?_, hql, hnd, by simp⟩
  · intro q
    cases q with
    | nil => have := hok []; simpa [node_ok] using this
    | cons j q => have := hok (j :: q); simpa using this
  · intro l q h
    cases q with
    | nil => have := hq l [] h; simp at this
    | cons j q => have := hq l (j :: q) h; simpa using this

theorem add_pixel_to_node_post (fuel : Nat) :
    ∀ (tree : octree) (node : octnode) (self : Ref) (level : Nat) (pixel : Pixel),
      level = self.length → level ≤ BIT_DEPTH → BIT_DEPTH + 1 ≤ fuel + level →
      tree.heads.length = BIT_DEPTH →
      node.isNull = false →
      (∀ q, node_ok tree.heads (self ++ q) (node.find q)) →
      (∀ l q, self ++ q ∈ tree.heads.getD l [] → (node.find q).internal = true) →
      (∀ l q, q ∈ tree.heads.getD l [] → q.length = l) →
      (∀ l, (tree.heads.getD l []).Nodup) →
      ∃ tree1 node1,
        octree_add_pixel_to_node fuel tree node self level pixel = .ok (tree1, node1) ∧
          add_post tree node self tree1 node1 := by
  induction fuel with
  | zero =>
    intro tree node self level pixel _ h1 h2
    omega
  | succ fuel ih =>
    intro tree node self level pixel hlev hle hfuel hlen hnn hok hq hql hnd
    cases node with
    | null => simp at hnn
    | node l n r g b a cs =>
      cases l with
      | true =>
        exact ⟨tree, .node true (n + 1) (r + pixel.r.val) (g + pixel.g.val) (b + pixel.b.val)
            (a + pixel.a.val) cs, by simp [octree_add_pixel_to_node],
          add_post_leaf tree self n r g b a _ _ _ _ _ cs hlen hok hq hql hnd⟩
      | false =>
        have h0 := hok []
        simp only [List.append_nil, octnode.find_nil, node_ok] at h0
        obtain ⟨hn, hr, hg, hb, ha, hcs, hlt, hself⟩ := h0
        have hlt8 : level < BIT_DEPTH := by omega
        have hidx : child_index pixel level < 16 := child_index_lt pixel level hlt8
        generalize hi : child_index pixel level = idx at hidx
        -- the child the pixel descends into, after it has been created if need be
        have key : ∃ tree1 child,
            ensure_child tree cs idx level self = (tree1, child) ∧
            tree1.heads.length = BIT_DEPTH ∧ child.isNull = false ∧
            (∀ q, node_ok tree1.heads ((self ++ [idx]) ++ q) (child.find q)) ∧
            (∀ l q, (self ++ [idx]) ++ q ∈ tree1.heads.getD l [] →
              (child.find q).internal = true) ∧
            (∀ l q, q ∈ tree1.heads.getD l [] → q.length = l) ∧
            (∀ l, (tree1.heads.getD l []).Nodup) ∧
            (∀ l q, q ∈ tree.heads.getD l [] → q ∈ tree1.heads.getD l []) ∧
            (∀ l q, q ∈ tree1.heads.getD l [] → q ∈ tree.heads.getD l [] ∨ q = self ++ [idx]) ∧
            tree1.numLeaves + count_leaves (cs.getD idx .null) =
              tree.numLeaves + count_leaves child := by
          cases hc : cs.getD idx .null with
          | node l2 n2 r2 g2 b2 a2 cs2 =>
            refine ⟨tree, .node l2 n2 r2 g2 b2 a2 cs2, by unfold ensure_child; rw [hc]; rfl, hlen, rfl, ?_, ?_, hql, hnd,
              fun _ _ h => h, fun _ _ h => Or.inl h, rfl⟩
            · intro q
              have := hok (idx :: q)
              rw [octnode.find_cons, hc] at this
              rw [List.append_assoc]
              exact this
            · intro l q h
              rw [List.append_assoc] at h
              have := hq l (idx :: q) h
              rw [octnode.find_cons, hc] at this
              exact this
          | null =>
            -- no reference below the empty slot is queued
            have hnone : ∀ l q, self ++ idx :: q ∉ tree.heads.getD l [] := by
              intro l q h
              have := hq l (idx :: q) h
              rw [octnode.find_cons, hc] at this
              simp at this
            by_cases h8 : BIT_DEPTH = level + 1
            · refine ⟨{ tree with numLeaves := tree.numLeaves + 1 }, fresh_node true,
                by unfold ensure_child; rw [hc]; simp [octree_create_node, h8], hlen, rfl, ?_, ?_, hql, hnd,
                fun _ _ h => h, fun _ _ h => Or.inl h, ?_⟩
              · intro q
                cases q with
                | nil => simp [fresh_node, node_ok]
                | cons j q => rw [find_fresh_node]; trivial
              · intro l q h
                rw [List.append_assoc] at h
                exact absurd h (hnone l q)
              · simp [count_leaves_fresh]
            · have hl1 : level + 1 < tree.heads.length := by omega
              refine ⟨{ tree with heads := (tree.heads.set (level + 1)
                  ((self ++ [idx]) :: tree.heads.getD (level + 1) [])) }, fresh_node false,
                by unfold ensure_child; rw [hc]; simp [octree_create_node, h8], by simpa using hlen, rfl, ?_, ?_, ?_, ?_, ?_, ?_, ?_⟩
              · intro q
                cases q with
                | nil =>
                  simp only [List.append_nil, octnode.find_nil, fresh_node, node_ok,
                    List.length_replicate, List.length_append, List.length_singleton, true_and]
                  refine ⟨by omega, ?_⟩
                  rw [← hlev, getD_set_self _ _ _ _ hl1]
                  exact List.mem_cons_self _ _
                | cons j q => rw [find_fresh_node]; trivial
              · intro l q h
                cases q with
                | nil => rfl
                | cons j q =>
                  exfalso
                  rw [List.append_assoc] at h
                  rcases mem_getD_set h with ⟨_, h1⟩ | ⟨_, h1⟩
                  · rcases List.mem_cons.1 h1 with h2 | h2
                    · have := congrArg List.length h2
                      simp at this
                    · exact hnone _ (j :: q) h2
                  · exact hnone l (j :: q) h1
              · intro l q h
                rcases mem_getD_set h with ⟨h0, h1⟩ | ⟨_, h1⟩
                · rcases List.mem_cons.1 h1 with h2 | h2
                  · subst h2; simp [hlev, h0]
                  · subst h0; exact hql _ _ h2
                · exact hql _ _ h1
              · intro l
                by_cases hl : level + 1 = l
                · subst hl
                  simp only [getD_set_self _ _ _ _ hl1]
                  refine List.nodup_cons.2 ⟨?_, hnd _⟩
                  intro h
                  exact hnone _ [] h
                · simp only [getD_set_other _ _ _ _ _ hl]
                  exact hnd l
              · intro l q h
                by_cases hl : level + 1 = l
                · subst hl
                  simp only [getD_set_self _ _ _ _ hl1]
                  exact List.mem_cons_of_mem _ h
                · simpa only [getD_set_other _ _ _ _ _ hl] using h
              · intro l q h
                rcases mem_getD_set h with ⟨h0, h1⟩ | ⟨_, h1⟩
                · rcases List.mem_cons.1 h1 with h2 | h2
                  · exact Or.inr h2
                  · subst h0; exact Or.inl h2
                · exact Or.inl h1
              · simp [count_leaves_fresh]
        obtain ⟨tree1, child, hcreated, hlen1, hnn1, hok1, hq1, hql1, hnd1, hmono1, hfresh1,
          hcount1⟩ := key
        obtain ⟨tree2, child2, hrec, hpost⟩ := ih tree1 child (self ++ [idx]) (level + 1) pixel
          (by simp [hlev]) (by omega) (by omega) hlen1 hnn1 hok1 hq1 hql1 hnd1
        refine ⟨tree2, .node false n r g b a (cs.set idx child2), ?_, ?_⟩
        · have hnot : ¬ BIT_DEPTH ≤ level := by omega
          simp only [octree_add_pixel_to_node, hi, hcreated, hrec, hnot]
          simp
        · have hidx' : idx < cs.length := by omega
          refine ⟨hpost.heads_length, rfl, ?_, fun l q h => hpost.grows l q (hmono1 l q h), ?_, ?_,
            hpost.queued_length, hpost.queues_nodup, ?_⟩
          · intro q
            cases q with
            | nil =>
              simp only [List.append_nil, octnode.find_nil, node_ok]
              exact ⟨hn, hr, hg, hb, ha, by simpa using hcs, hlt,
                hpost.grows _ _ (hmono1 _ _ hself)⟩
            | cons j q =>
              rw [octnode.find_cons]
              by_cases hj : idx = j
              · subst hj
                rw [getD_set_self _ _ _ _ hidx']
                have := hpost.nodes_ok q
                simpa using this
              · rw [getD_set_other _ _ _ _ _ hj]
                have := hok (j :: q)
                rw [octnode.find_cons] at this
                exact node_ok_mono (fun l r h => hpost.grows l r (hmono1 l r h)) this
          · intro l q h
            rcases hpost.fresh_below l q h with h | ⟨j, q1, h⟩
            · rcases hfresh1 l q h with h | h
              · exact Or.inl h
              · exact Or.inr ⟨idx, [], h⟩
            · exact Or.inr ⟨idx, j :: q1, by simpa using h⟩
          · intro l q h
            cases q with
            | nil => rfl
            | cons j q =>
              rw [octnode.find_cons]
              by_cases hj : idx = j
              · subst hj
                rw [getD_set_self _ _ _ _ hidx']
                exact hpost.queued_internal l q (by simpa using h)
              · rw [getD_set_other _ _ _ _ _ hj]
                have hold : self ++ j :: q ∈ tree.heads.getD l [] := by
                  rcases hpost.fresh_below l _ h with h | ⟨j1, q1, h⟩
                  · rcases hfresh1 l _ h with h | h
                    · exact h
                    · exfalso
                      have := List.append_cancel_left h
                      simp at this
                      exact hj this.1.symm
                  · exfalso
                    rw [List.append_assoc] at h
                    have := List.append_cancel_left h
                    simp at this
                    exact hj this.1.symm
                have := hq l (j :: q) hold
                simpa using this
          · have h1 := count_leaves_children_set cs idx child2 hidx'
            have h2 := hpost.leaves_counted
            simp only [count_leaves_node]
            simp only [Bool.false_eq_true, if_false, Nat.zero_add]
            omega

theorem create_heads : octree_create.heads = [[[]], [], [], [], [], [], [], []] := by
  decide

theorem create_root : octree_create.root = fresh_node false := by
  simp [octree_create, octree_create_node]

theorem create_numLeaves : octree_create.numLeaves = 0 := rfl

theorem create_consistent : consistent octree_create := by
  refine ⟨by rw [create_heads]; rfl, by rw [create_root]; rfl, ?_, ?_, ?_, ?_⟩
  · intro q
    rw [create_root]
    cases q with
    | nil => simp [fresh_node, node_ok, create_heads]
    | cons j q => rw [find_fresh_node]; trivial
  · intro l q h
    rw [create_heads] at h
    have h8 : l = 0 ∧ q = [] := by
      rcases l with _ | _ | _ | _ | _ | _ | _ | _ | _ | l <;> simp_all
    rw [h8.1, h8.2, create_root]
    exact ⟨rfl, rfl⟩
  · intro l
    rw [create_heads]
    rcases l with _ | _ | _ | _ | _ | _ | _ | _ | _ | l <;> simp
  · rw [create_numLeaves, create_root, count_leaves_fresh]; rfl

theorem add_pixel_consistent {tree : octree} (h : consistent tree) (pixel : Pixel) :
    ∃ tree1, octree_add_pixel tree pixel = .ok tree1 ∧ consistent tree1 := by
  obtain ⟨tree1, root1, hrun, hpost⟩ := add_pixel_to_node_post (BIT_DEPTH + 1) tree tree.root []
    0 pixel rfl (by decide) (by decide) h.heads_length h.root_node
    (fun q => by simpa using h.nodes_ok q)
    (fun l q hq => (h.queued_internal l q (by simpa using hq)).2)
    (fun l q hq => (h.queued_internal l q hq).1) h.queues_nodup
  refine ⟨{ tree1 with root := root1 }, by simp [octree_add_pixel, hrun], ?_⟩
  refine ⟨hpost.heads_length, hpost.not_null, fun q => by simpa using hpost.nodes_ok q, ?_,
    hpost.queues_nodup, ?_⟩
  · intro l q hq
    exact ⟨hpost.queued_length l q hq, hpost.queued_internal l q (by simpa using hq)⟩
  · have h1 := hpost.leaves_counted
    have h2 := h.leaves_counted
    simp only
    omega

/-! ## One reduction step -/

theorem destroy_children_null (tree : octree) (cs : List octnode) (self : Ref) (i level : Nat)
    (h : ∀ c ∈ cs, c = .null) : octree_destroy_children tree cs self i level = tree := by
  induction cs generalizing i with
  | nil => simp [octree_destroy_children]
  | cons c cs ih =>
    have hc : c = .null := h c (List.mem_cons_self _ _)
    subst hc
    simp only [octree_destroy_children, octree_destroy_node]
    exact ih _ (fun c hc => h c (List.mem_cons_of_mem _ hc))

theorem destroy_node_leaf (tree : octree) (l : Bool) (n r g b a : Nat) (cs : List octnode)
    (self : Ref) (level : Nat) (hq : tree.heads.getD level [] = [])
    (h : ∀ c ∈ cs, c = .null) :
    octree_destroy_node tree (.node l n r g b a cs) self level = tree := by
  simp only [octree_destroy_node, hq, List.head?_nil]
  simp only [reduceCtorEq, if_false]
  exact destroy_children_null tree cs self 0 (level + 1) h

@[simp]
theorem total_nil (f : octnode → Nat) : total f [] = 0 := rfl

@[simp]
theorem total_cons (f : octnode → Nat) (c : octnode) (cs : List octnode) :
    total f (c :: cs) = f c + total f cs := by
  simp [total]

@[simp]
theorem occupied_nil : occupied [] = 0 := rfl

theorem occupied_cons (c : octnode) (cs : List octnode) :
    occupied (c :: cs) = (if c.isNull then 0 else 1) + occupied cs := by
  cases c
  · simp [occupied, List.filter_cons]
  · simp [occupied, List.filter_cons]; omega

/-- The loop of `octree_reduce` over children that are empty slots or leaves
without children, below a level whose successor has an empty queue. -/
theorem reduce_children_eq (level : Nat) (self : Ref) (cs : List octnode) :
    ∀ (j : Nat) (tree : octree) (l : Bool) (n r g b a : Nat) (ks : List octnode),
      (∀ c ∈ cs, c.isNull = true ∨ ∀ k ∈ c.kids, k = .null) →
      tree.heads.getD (level + 1) [] = [] →
      ks.drop j = cs →
      octree_reduce_children level self cs j tree (.node l n r g b a ks) =
        ({ tree with numLeaves := tree.numLeaves - occupied cs },
          .node l (n + total octnode.count cs) (r + total octnode.sumRed cs)
            (g + total octnode.sumGreen cs) (b + total octnode.sumBlue cs)
            (a + total octnode.sumAlpha cs) (ks.take j ++ List.replicate cs.length .null)) := by
  induction cs with
  | nil =>
    intro j tree l n r g b a ks _ _ hd
    have : ks.take j = ks := by
      have h1 := List.take_append_drop j ks
      rw [hd, List.append_nil] at h1
      exact h1
    simp [octree_reduce_children, this]
  | cons c cs ih =>
    intro j tree l n r g b a ks hcs hq hd
    have hj : j < ks.length := by
      by_contra hlt
      rw [List.drop_eq_nil_of_le (by omega)] at hd
      cases hd
    have hget : ks[j] = c := by
      have := List.drop_eq_getElem_cons hj
      rw [hd] at this
      exact (List.cons.inj this).1.symm
    have hrest : ks.drop (j + 1) = cs := by
      have := List.drop_eq_getElem_cons hj
      rw [hd] at this
      exact (List.cons.inj this).2.symm
    have htake : ks.take (j + 1) = ks.take j ++ [c] := by
      rw [List.take_succ, List.getElem?_eq_getElem hj, hget]; rfl
    have hcs' : ∀ c ∈ cs, c.isNull = true ∨ ∀ k ∈ c.kids, k = .null :=
      fun c hc => hcs c (List.mem_cons_of_mem _ hc)
    cases c with
    | null =>
      simp only [octree_reduce_children]
      rw [ih (j + 1) tree l n r g b a ks hcs' hq hrest, htake]
      simp [occupied_cons, List.replicate_succ, octnode.sumRed, octnode.sumGreen, octnode.sumBlue,
        octnode.sumAlpha]
    | node l2 n2 r2 g2 b2 a2 cs2 =>
      have hk : ∀ k ∈ cs2, k = .null := by
        rcases hcs _ (List.mem_cons_self _ _) with h | h
        · simp at h
        · exact h
      simp only [octree_reduce_children, destroy_node_leaf tree l2 n2 r2 g2 b2 a2 cs2 _ _ hq hk,
        octnode.leaf_node, octnode.count_node, octnode.sumRed_node, octnode.sumGreen_node,
        octnode.sumBlue_node, octnode.sumAlpha_node, octnode.kids_node]
      rw [ih (j + 1) { tree with numLeaves := tree.numLeaves - 1 } l _ _ _ _ _
        (ks.set j .null) hcs' hq
        (by rw [List.drop_set_of_lt _ _ (by omega)]; exact hrest)]
      have h1 : (ks.set j octnode.null).take (j + 1) = ks.take j ++ [octnode.null] := by
        rw [List.take_succ, List.set_take, List.set_eq_of_length_le (by simp),
          List.getElem?_set_self hj]
        rfl
      rw [h1]
      simp only [occupied_cons, total_cons, octnode.isNull_node, octnode.count_node,
        octnode.sumRed_node, octnode.sumGreen_node, octnode.sumBlue_node, octnode.sumAlpha_node,
        List.length_cons, List.replicate_succ, List.append_assoc, List.singleton_append]
      simp only [Bool.false_eq_true, if_false, Nat.add_assoc]
      congr 1
      simp only [octree.mk.injEq, and_true, true_and]
      omega

theorem selected_some {k i : Nat} {tree : octree} {self : Ref}
    (h : selected k tree = some (i, self))
    (hempty : ∀ l, k ≤ l → tree.heads.getD l [] = []) :
    i < k ∧ (∃ next, tree.heads.getD i [] = self :: next) ∧
      ∀ l, i < l → tree.heads.getD l [] = [] := by
  induction k with
  | zero => simp [selected] at h
  | succ k ih =>
    unfold selected at h
    cases hk : tree.heads.getD k [] with
    | nil =>
      rw [hk] at h
      have := ih h (fun l hl => by
        rcases Nat.eq_or_lt_of_le hl with rfl | hl
        · exact hk
        · exact hempty l hl)
      exact ⟨by omega, this.2⟩
    | cons s next =>
      rw [hk] at h
      simp only [Option.some.injEq, Prod.mk.injEq] at h
      obtain ⟨rfl, rfl⟩ := h
      exact ⟨by omega, ⟨next, hk⟩, fun l hl => hempty l hl⟩

theorem selected_none {k : Nat} {tree : octree} (h : selected k tree = none)
    (hempty : ∀ l, k ≤ l → tree.heads.getD l [] = []) : ∀ l, tree.heads.getD l [] = [] := by
  induction k with
  | zero => exact fun l => hempty l (Nat.zero_le l)
  | succ k ih =>
    unfold selected at h
    cases hk : tree.heads.getD k [] with
    | nil =>
      rw [hk] at h
      exact ih h (fun l hl => by
        rcases Nat.eq_or_lt_of_le hl with rfl | hl
        · exact hk
        · exact hempty l hl)
    | cons s next => rw [hk] at h; simp at h

theorem heads_beyond {tree : octree} (h : tree.heads.length = BIT_DEPTH) :
    ∀ l, BIT_DEPTH ≤ l → tree.heads.getD l [] = [] :=
  fun l hl => List.getD_eq_default _ _ (by omega)

/-- The node at the head of the deepest queue that is not empty has sixteen
child slots, each empty or a leaf without children. -/
theorem selected_children {tree : octree} (hc : consistent tree) {i : Nat} {self : Ref}
    (hmem : self ∈ tree.heads.getD i [])
    (habove : ∀ l, i < l → tree.heads.getD l [] = []) :
    tree.root.find self = .node false 0 0 0 0 0 (tree.root.find self).kids ∧
      (tree.root.find self).kids.length = 16 ∧ self.length = i ∧ i < BIT_DEPTH ∧
      ∀ c ∈ (tree.root.find self).kids,
        c.isNull = true ∨ (c.leaf = true ∧ c.kids = List.replicate 16 .null) := by
  obtain ⟨hl, hint⟩ := hc.queued_internal i self hmem
  obtain ⟨h16, hlt, _, hform⟩ := node_ok_internal (hc.nodes_ok self) hint
  refine ⟨hform, h16, hl, by omega, ?_⟩
  intro c hcm
  obtain ⟨j, hj, rfl⟩ := (mem_iff_getD _ c .null).1 hcm
  have hfind : tree.root.find (self ++ [j]) = (tree.root.find self).kids.getD j .null := by
    rw [octnode.find_append, octnode.find_cons_kids, octnode.find_nil]
  have hok := hc.nodes_ok (self ++ [j])
  rw [hfind] at hok
  cases hn : ((tree.root.find self).kids.getD j .null).isNull with
  | true => exact Or.inl rfl
  | false =>
    right
    rcases octnode.leaf_or_internal hn with h | h
    · exact ⟨h, node_ok_leaf hok h⟩
    · exfalso
      have := (node_ok_internal hok h).2.2.1
      rw [habove _ (by simp; omega)] at this
      cases this

theorem total_zero_add (cs : List octnode) :
    octnode.node true (0 + total octnode.count cs) (0 + total octnode.sumRed cs)
      (0 + total octnode.sumGreen cs) (0 + total octnode.sumBlue cs)
      (0 + total octnode.sumAlpha cs) (List.take 0 cs ++ List.replicate cs.length .null) =
      merged_leaf cs := by
  simp [merged_leaf]

/-- On a well-formed tree `octree_reduce` collapses the selected node, and does
nothing when every queue is empty. -/
theorem reduce_from_eq {tree : octree} (hc : consistent tree) (k : Nat)
    (hempty : ∀ l, k ≤ l → tree.heads.getD l [] = []) :
    octree_reduce_from k tree =
      .ok (match selected k tree with
        | none => tree
        | some (i, self) => collapse tree i self) := by
  induction k with
  | zero => rfl
  | succ k ih =>
    unfold octree_reduce_from selected
    cases hk : tree.heads.getD k [] with
    | nil =>
      simp only
      exact ih (fun l hl => by
        rcases Nat.eq_or_lt_of_le hl with rfl | hl
        · exact hk
        · exact hempty l hl)
    | cons self next =>
      simp only
      obtain ⟨hform, h16, _, _, hkids⟩ := selected_children hc
        (by rw [hk]; exact List.mem_cons_self _ _) (fun l hl => hempty l hl)
      generalize hcs : (tree.root.find self).kids = cs at hform h16 hkids
      rw [hform]
      simp only
      rw [reduce_children_eq k self cs 0 _ false 0 0 0 0 0 cs
        (fun c hcm => (hkids c hcm).imp id (fun h => by
          rw [h.2]; exact fun k hk => (List.mem_replicate.1 hk).2))
        (by
          show (tree.heads.set k next).getD (k + 1) [] = []
          rw [getD_set_other _ _ _ _ _ (by omega)]
          exact hempty _ (Nat.le_refl _))
        rfl]
      simp only [octnode.count_node, octnode.sumRed_node, octnode.sumGreen_node,
        octnode.sumBlue_node, octnode.sumAlpha_node, octnode.kids_node, total_zero_add]
      simp only [collapse, hcs, hk, List.tail_cons]

theorem reduce_eq {tree : octree} (hc : consistent tree) :
    octree_reduce tree =
      .ok (match selected BIT_DEPTH tree with
        | none => tree
        | some (i, self) => collapse tree i self) :=
  reduce_from_eq hc BIT_DEPTH (heads_beyond hc.heads_length)

theorem count_leaves_replace {n : octnode} {s : Ref} (x : octnode)
    (h : (n.find s).isNull = false) :
    count_leaves (n.replace s x) + count_leaves (n.find s) = count_leaves n + count_leaves x := by
  induction s generalizing n with
  | nil => simp; omega
  | cons j s ih =>
    cases n with
    | null => simp at h
    | node l n r g b a cs =>
      rw [octnode.find_cons] at h ⊢
      have hj : j < cs.length := by
        by_contra hlt
        rw [List.getD_eq_default _ _ (by omega)] at h
        simp at h
      have h1 := ih h
      have h2 := count_leaves_children_set cs j ((cs.getD j .null).replace s x) hj
      simp only [octnode.replace_cons, count_leaves_node]
      omega

theorem count_leaves_getD_le (cs : List octnode) (j : Nat) :
    count_leaves (cs.getD j .null) ≤ count_leaves_children cs := by
  induction cs generalizing j with
  | nil => simp
  | cons c cs ih =>
    cases j with
    | zero => simp
    | succ j =>
      have := ih j
      simp only [List.getD_cons_succ, count_leaves_children_cons]
      omega

theorem count_leaves_find_le (n : octnode) (s : Ref) :
    count_leaves (n.find s) ≤ count_leaves n := by
  induction s generalizing n with
  | nil => simp
  | cons j s ih =>
    cases n with
    | null => simp
    | node l n r g b a cs =>
      rw [octnode.find_cons, count_leaves_node]
      have h1 := ih (cs.getD j .null)
      have h2 := count_leaves_getD_le cs j
      omega

theorem count_leaves_children_occupied (cs : List octnode)
    (h : ∀ c ∈ cs, c.isNull = true ∨ (c.leaf = true ∧ c.kids = List.replicate 16 .null)) :
    count_leaves_children cs = occupied cs := by
  induction cs with
  | nil => rfl
  | cons c cs ih =>
    rw [count_leaves_children_cons, occupied_cons, ih (fun c hc => h c (List.mem_cons_of_mem _ hc))]
    congr 1
    rcases h c (List.mem_cons_self _ _) with hc | ⟨hl, hk⟩
    · cases c with
      | null => simp
      | node => simp at hc
    · cases c with
      | null => simp at hl
      | node l n r g b a ks =>
        simp only [octnode.leaf_node] at hl
        simp only [octnode.kids_node] at hk
        subst hl hk
        simp [count_leaves_children_replicate]

theorem find_merged_leaf (cs : List octnode) (j : Nat) (q : Ref) :
    (merged_leaf cs).find (j :: q) = .null := by
  unfold merged_leaf
  rw [octnode.find_cons]
  have : (List.replicate cs.length octnode.null).getD j .null = .null := by
    rcases getD_mem_or_default (List.replicate cs.length octnode.null) j .null with h | h
    · exact (List.mem_replicate.1 h).2
    · exact h
  rw [this]; simp

/-- A node that has a node below it is not a leaf without children. -/
theorem above_internal {n : octnode} {p : Ref} {j : Nat} {r : Ref}
    (hleaf : (n.find p).leaf = true → (n.find p).kids = List.replicate 16 .null)
    (h : (n.find (p ++ j :: r)).isNull = false) : (n.find p).internal = true := by
  have hp : (n.find p).isNull = false := octnode.find_prefix_not_null h
  rcases octnode.leaf_or_internal hp with hl | hi
  · exfalso
    rw [octnode.find_append, octnode.find_cons_kids, hleaf hl] at h
    have : (List.replicate 16 octnode.null).getD j .null = .null := by
      rcases getD_mem_or_default (List.replicate 16 octnode.null) j .null with h | h
      · exact (List.mem_replicate.1 h).2
      · exact h
    rw [this] at h
    simp at h
  · exact hi

theorem node_ok_of_head {heads heads1 : List (List Ref)} {q : Ref} {m n : octnode}
    (hh : m.head = n.head) (hi : n.internal = true) (h : node_ok heads q n)
    (hm : q ∈ heads.getD q.length [] → q ∈ heads1.getD q.length []) : node_ok heads1 q m := by
  obtain ⟨h16, hlt, hmem, hform⟩ := node_ok_internal h hi
  cases m with
  | null =>
    have := octnode.head_isNull hh
    rw [octnode.internal_not_null hi] at this
    simp at this
  | node l n1 r g b a cs =>
    rw [hform] at hh
    simp only [octnode.head, octnode.isNull_node, octnode.leaf_node, octnode.count_node,
      octnode.sumRed_node, octnode.sumGreen_node, octnode.sumBlue_node, octnode.sumAlpha_node,
      octnode.kids_node, Prod.mk.injEq, true_and] at hh
    obtain ⟨h1, h2, h3, h4, h5, h6, h7⟩ := hh
    subst h1
    exact ⟨h2, h3, h4, h5, h6, by omega, hlt, hm hmem⟩

theorem node_ok_at {heads heads1 : List (List Ref)} {q : Ref} {n : octnode}
    (hm : q ∈ heads.getD q.length [] → q ∈ heads1.getD q.length []) (h : node_ok heads q n) :
    node_ok heads1 q n := by
  cases n with
  | null => trivial
  | node l n r g b a cs =>
    cases l with
    | true => exact h
    | false =>
      obtain ⟨h1, h2, h3, h4, h5, h6, h7, h8⟩ := h
      exact ⟨h1, h2, h3, h4, h5, h6, h7, hm h8⟩

theorem prefix_cases (s q : Ref) :
    (∃ q1, q = s ++ q1) ∨ (∃ j r, s = q ++ j :: r) ∨ (¬ s <+: q ∧ ¬ q <+: s) := by
  by_cases h1 : s <+: q
  · obtain ⟨q1, rfl⟩ := h1
    exact Or.inl ⟨q1, rfl⟩
  · by_cases h2 : q <+: s
    · obtain ⟨r, rfl⟩ := h2
      cases r with
      | nil => exact absurd (by simp) h1
      | cons j r => exact Or.inr (Or.inl ⟨j, r, rfl⟩)
    · exact Or.inr (Or.inr ⟨h1, h2⟩)

/-- Collapsing the selected node keeps the tree well formed. -/
theorem collapse_consistent {tree : octree} (hc : consistent tree) {i : Nat} {self : Ref}
    {next : List Ref} (hsel : tree.heads.getD i [] = self :: next)
    (habove : ∀ l, i < l → tree.heads.getD l [] = []) : consistent (collapse tree i self) := by
  have hmem : self ∈ tree.heads.getD i [] := by rw [hsel]; exact List.mem_cons_self _ _
  obtain ⟨hform, h16, hlen, hi8, hkids⟩ := selected_children hc hmem habove
  have hnn : (tree.root.find self).isNull = false := by rw [hform]; rfl
  have hnd := hc.queues_nodup i
  rw [hsel] at hnd
  have hnotin : self ∉ next := (List.nodup_cons.1 hnd).1
  have hi' : i < tree.heads.length := by rw [hc.heads_length]; exact hi8
  -- membership in the queues after the step
  have hheads : ∀ l q, q ∈ (collapse tree i self).heads.getD l [] ↔
      q ∈ tree.heads.getD l [] ∧ q ≠ self := by
    intro l q
    simp only [collapse, hsel, List.tail_cons]
    by_cases hl : i = l
    · subst hl
      rw [getD_set_self _ _ _ _ hi', hsel]
      constructor
      · intro h
        exact ⟨List.mem_cons_of_mem _ h, fun e => hnotin (e ▸ h)⟩
      · rintro ⟨h, hne⟩
        rcases List.mem_cons.1 h with h | h
        · exact absurd h hne
        · exact h
    · rw [getD_set_other _ _ _ _ _ hl]
      constructor
      · intro h
        refine ⟨h, fun e => ?_⟩
        subst e
        exact hl ((hc.queued_internal l _ h).1.symm.trans hlen).symm
      · exact fun h => h.1
  have hleafkids : ∀ p, (tree.root.find p).leaf = true →
      (tree.root.find p).kids = List.replicate 16 .null :=
    fun p hl => node_ok_leaf (hc.nodes_ok p) hl
  refine ⟨by simp [collapse, hc.heads_length], ?_, ?_, ?_, ?_, ?_⟩
  · -- the root is still a node
    have := octnode.find_replace_self (n := tree.root)
      (merged_leaf (tree.root.find self).kids) [] hnn
    have h2 := octnode.find_prefix_not_null (n := tree.root.replace self
      (merged_leaf (tree.root.find self).kids)) (p := []) (q := self ++ [])
      (by rw [List.nil_append, this]; rfl)
    simpa [collapse] using h2
  · intro q
    show node_ok _ q ((tree.root.replace self _).find q)
    rcases prefix_cases self q with ⟨q1, rfl⟩ | ⟨j, r, hs⟩ | ⟨h1, h2⟩
    · rw [octnode.find_replace_self _ _ hnn]
      cases q1 with
      | nil => simp [merged_leaf, node_ok, h16]
      | cons j q1 => rw [find_merged_leaf]; trivial
    · have hint : (tree.root.find q).internal = true :=
        above_internal (hleafkids q) (by rw [← hs]; exact hnn)
      have hne : q ≠ self := by
        intro e
        have := congrArg List.length hs
        rw [e] at this
        simp at this
      refine node_ok_of_head (octnode.find_replace_above _ ?_) hint (hc.nodes_ok q)
        (fun h => (hheads _ _).2 ⟨h, hne⟩)
      intro hp
      obtain ⟨t, ht⟩ := hp
      have := congrArg List.length ht
      have h3 := congrArg List.length hs
      simp at this h3
      omega
    · rw [octnode.find_replace_apart _ h1 h2]
      have hne : q ≠ self := fun e => h1 (e ▸ List.prefix_refl _)
      exact node_ok_at (fun h => (hheads _ _).2 ⟨h, hne⟩) (hc.nodes_ok q)
  · intro l q hq
    obtain ⟨hq0, hne⟩ := (hheads l q).1 hq
    obtain ⟨hql, hqi⟩ := hc.queued_internal l q hq0
    refine ⟨hql, ?_⟩
    show ((tree.root.replace self _).find q).internal = true
    rw [octnode.head_internal (octnode.find_replace_above _ ?_)]
    · exact hqi
    · rintro ⟨q1, rfl⟩
      cases q1 with
      | nil => exact hne (by simp)
      | cons j q1 =>
        rw [habove l (by rw [← hql, ← hlen]; simp)] at hq0
        cases hq0
  · intro l
    simp only [collapse, hsel, List.tail_cons]
    by_cases hl : i = l
    · subst hl
      rw [getD_set_self _ _ _ _ hi']
      exact (List.nodup_cons.1 hnd).2
    · rw [getD_set_other _ _ _ _ _ hl]
      exact hc.queues_nodup l
  · have h1 := count_leaves_replace (n := tree.root)
      (merged_leaf (tree.root.find self).kids) hnn
    have h2 : count_leaves (tree.root.find self) = occupied (tree.root.find self).kids := by
      conv_lhs => rw [hform]
      rw [count_leaves_node, count_leaves_children_occupied _ hkids]
      simp
    have h3 : count_leaves (merged_leaf (tree.root.find self).kids) = 1 := by
      simp [merged_leaf, count_leaves_children_replicate]
    have h4 := hc.leaves_counted
    have h5 := count_leaves_find_le tree.root self
    show tree.numLeaves - occupied (tree.root.find self).kids + 1 =
      count_leaves (tree.root.replace self (merged_leaf (tree.root.find self).kids))
    omega

/-! ## Reachable trees are well formed -/

theorem reduce_consistent {tree : octree} (hc : consistent tree) :
    ∃ tree1, octree_reduce tree = .ok tree1 ∧ consistent tree1 := by
  refine ⟨_, reduce_eq hc, ?_⟩
  cases hs : selected BIT_DEPTH tree with
  | none => exact hc
  | some p =>
    obtain ⟨i, self⟩ := p
    obtain ⟨_, ⟨next, hsel⟩, habove⟩ := selected_some hs (heads_beyond hc.heads_length)
    exact collapse_consistent hc hsel habove

theorem reachable_consistent {tree : octree} (h : reachable tree) : consistent tree := by
  induction h with
  | create => exact create_consistent
  | add_pixel pixel _ hrun ih =>
    obtain ⟨t, ht, hct⟩ := add_pixel_consistent ih pixel
    rw [hrun] at ht
    cases ht
    exact hct
  | reduce _ hrun ih =>
    obtain ⟨t, ht, hct⟩ := reduce_consistent ih
    rw [hrun] at ht
    cases ht
    exact hct

/-! ## The collected leaves -/

@[simp]
theorem get_leaf_nodes_null : octree_get_leaf_nodes .null = [] := by
  simp [octree_get_leaf_nodes]

@[simp]
theorem get_leaf_nodes_leaf (n r g b a : Nat) (cs : List octnode) :
    octree_get_leaf_nodes (.node true n r g b a cs) = [.node true n r g b a cs] := by
  simp [octree_get_leaf_nodes]

@[simp]
theorem get_leaf_nodes_internal (n r g b a : Nat) (cs : List octnode) :
    octree_get_leaf_nodes (.node false n r g b a cs) = octree_get_leaf_children cs := by
  simp [octree_get_leaf_nodes]

@[simp]
theorem get_leaf_children_nil : octree_get_leaf_children [] = [] := by
  simp [octree_get_leaf_children]

@[simp]
theorem get_leaf_children_cons (c : octnode) (cs : List octnode) :
    octree_get_leaf_children (c :: cs) = octree_get_leaf_nodes c ++ octree_get_leaf_children cs := by
  simp [octree_get_leaf_children]

theorem mem_get_leaf_children {m : octnode} {cs : List octnode}
    (h : m ∈ octree_get_leaf_children cs) : ∃ c ∈ cs, m ∈ octree_get_leaf_nodes c := by
  induction cs with
  | nil => simp at h
  | cons c cs ih =>
    rw [get_leaf_children_cons] at h
    rcases List.mem_append.1 h with h | h
    · exact ⟨c, List.mem_cons_self _ _, h⟩
    · obtain ⟨c1, hc1, hm⟩ := ih h
      exact ⟨c1, List.mem_cons_of_mem _ hc1, hm⟩

/-- Every collected node is a leaf of the tree. -/
theorem get_leaf_nodes_leaf_at (n : octnode) :
    ∀ m ∈ octree_get_leaf_nodes n, m.leaf = true ∧ ∃ q, m = n.find q := by
  induction n using octnode.induct with
  | h0 => simp
  | h1 l n r g b a cs ih =>
    intro m hm
    cases l with
    | true =>
      rw [get_leaf_nodes_leaf] at hm
      rw [List.mem_singleton.1 hm]
      exact ⟨rfl, [], rfl⟩
    | false =>
      rw [get_leaf_nodes_internal] at hm
      obtain ⟨c, hc, hmc⟩ := mem_get_leaf_children hm
      obtain ⟨hl, q, hq⟩ := ih c hc m hmc
      obtain ⟨j, _, hj⟩ := (mem_iff_getD cs c .null).1 hc
      exact ⟨hl, j :: q, by rw [octnode.find_cons, hj]; exact hq⟩

theorem count_leaves_children_eq (cs : List octnode)
    (h : ∀ c ∈ cs, count_leaves c = (octree_get_leaf_nodes c).length) :
    count_leaves_children cs = (octree_get_leaf_children cs).length := by
  induction cs with
  | nil => simp
  | cons c cs ih =>
    rw [count_leaves_children_cons, get_leaf_children_cons, List.length_append,
      h c (List.mem_cons_self _ _), ih (fun c hc => h c (List.mem_cons_of_mem _ hc))]

/-- When leaves have no children, the collected nodes are all the nodes with
`isLeaf` set. -/
theorem count_leaves_eq_length (n : octnode) :
    (∀ q, (n.find q).leaf = true → (n.find q).kids = List.replicate 16 .null) →
      count_leaves n = (octree_get_leaf_nodes n).length := by
  induction n using octnode.induct with
  | h0 => simp
  | h1 l n r g b a cs ih =>
    intro h
    cases l with
    | true =>
      have := h [] rfl
      simp only [octnode.find_nil, octnode.kids_node] at this
      rw [count_leaves_node, this, count_leaves_children_replicate]
      simp
    | false =>
      rw [count_leaves_node, get_leaf_nodes_internal]
      simp only [Bool.false_eq_true, if_false, Nat.zero_add]
      apply count_leaves_children_eq
      intro c hc
      apply ih c hc
      intro q hq
      obtain ⟨j, _, hj⟩ := (mem_iff_getD cs c .null).1 hc
      have := h (j :: q)
      rw [octnode.find_cons, hj] at this
      exact this hq

theorem consistent_leaves {tree : octree} (hc : consistent tree) :
    (octree_get_leaf_nodes tree.root).length = tree.numLeaves := by
  rw [hc.leaves_counted]
  exact (count_leaves_eq_length tree.root (fun q hq => node_ok_leaf (hc.nodes_ok q) hq)).symm

/-! ## What an insertion does to the leaves -/

/-- The two ways in which `octree_add_pixel_to_node` returns: at a leaf, or
from the child the pixel descends into. -/
theorem add_pixel_to_node_cases {fuel : Nat} {tree : octree} {node : octnode} {self : Ref}
    {level : Nat} {pixel : Pixel} {tree1 : octree} {node1 : octnode}
    (h : octree_add_pixel_to_node fuel tree node self level pixel = .ok (tree1, node1)) :
    (∃ n r g b a cs, node = .node true n r g b a cs ∧ tree1 = tree ∧
      node1 = .node true (n + 1) (r + pixel.r.val) (g + pixel.g.val) (b + pixel.b.val)
        (a + pixel.a.val) cs) ∨
    (∃ fuel0 n r g b a cs child1, fuel = fuel0 + 1 ∧ level < BIT_DEPTH ∧
      node = .node false n r g b a cs ∧
      node1 = .node false n r g b a (cs.set (child_index pixel level) child1) ∧
      octree_add_pixel_to_node fuel0 (ensure_child tree cs (child_index pixel level) level self).1
        (ensure_child tree cs (child_index pixel level) level self).2
        (self ++ [child_index pixel level]) (level + 1) pixel = .ok (tree1, child1)) := by
  cases fuel with
  | zero => simp [octree_add_pixel_to_node] at h
  | succ fuel =>
    cases node with
    | null => simp [octree_add_pixel_to_node] at h
    | node l n r g b a cs =>
      cases l with
      | true =>
        simp only [octree_add_pixel_to_node, if_true, Except.ok.injEq, Prod.mk.injEq] at h
        exact Or.inl ⟨n, r, g, b, a, cs, rfl, h.1.symm, h.2.symm⟩
      | false =>
        right
        simp only [octree_add_pixel_to_node, Bool.false_eq_true, if_false] at h
        by_cases hl : BIT_DEPTH ≤ level
        · simp [hl] at h
        · simp only [hl, if_false] at h
          cases hrec : octree_add_pixel_to_node fuel
              (ensure_child tree cs (child_index pixel level) level self).1
              (ensure_child tree cs (child_index pixel level) level self).2
              (self ++ [child_index pixel level]) (level + 1) pixel with
          | error e => rw [hrec] at h; simp at h
          | ok p =>
            obtain ⟨t2, c2⟩ := p
            rw [hrec] at h
            simp only [Except.ok.injEq, Prod.mk.injEq] at h
            obtain ⟨rfl, rfl⟩ := h
            exact ⟨fuel, n, r, g, b, a, cs, c2, rfl, by omega, rfl, rfl, hrec⟩

theorem ensure_child_node (tree : octree) (cs : List octnode) (index level : Nat) (self : Ref) :
    (ensure_child tree cs index level self).2 =
      if (cs.getD index .null).isNull then fresh_node (decide (BIT_DEPTH = level + 1))
      else cs.getD index .null := by
  unfold ensure_child octree_create_node
  generalize cs.getD index .null = c
  cases c with
  | null => by_cases h8 : BIT_DEPTH = level + 1 <;> simp [h8]
  | node => simp

theorem get_leaf_children_append (xs ys : List octnode) :
    octree_get_leaf_children (xs ++ ys) =
      octree_get_leaf_children xs ++ octree_get_leaf_children ys := by
  induction xs with
  | nil => simp
  | cons x xs ih => simp [ih]

theorem get_leaf_children_split (cs : List octnode) (j : Nat) (h : j < cs.length) :
    octree_get_leaf_children cs =
      octree_get_leaf_children (cs.take j) ++ octree_get_leaf_nodes (cs.getD j .null) ++
        octree_get_leaf_children (cs.drop (j + 1)) := by
  conv_lhs => rw [← List.take_append_drop j cs, List.drop_eq_getElem_cons h]
  rw [get_leaf_children_append, get_leaf_children_cons, List.getD_eq_getElem _ _ h,
    List.append_assoc]

theorem get_leaf_children_set (cs : List octnode) (j : Nat) (y : octnode) (h : j < cs.length) :
    octree_get_leaf_children (cs.set j y) =
      octree_get_leaf_children (cs.take j) ++ octree_get_leaf_nodes y ++
        octree_get_leaf_children (cs.drop (j + 1)) := by
  rw [List.set_eq_take_append_cons_drop, if_pos h, get_leaf_children_append,
    get_leaf_children_cons, List.append_assoc]

theorem get_leaf_children_null (cs : List octnode) (h : ∀ c ∈ cs, c = .null) :
    octree_get_leaf_children cs = [] := by
  induction cs with
  | nil => simp
  | cons c cs ih =>
    rw [get_leaf_children_cons, h c (List.mem_cons_self _ _),
      ih (fun c hc => h c (List.mem_cons_of_mem _ hc))]
    simp

theorem total_append (f : octnode → Nat) (xs ys : List octnode) :
    total f (xs ++ ys) = total f xs + total f ys := by
  simp [total]

theorem tally_of_null (t : tally) : t.of .null = 0 := by
  cases t <;> rfl

theorem leaf_total_fresh (t : tally) (l : Bool) : leaf_total t (fresh_node l) = 0 := by
  unfold leaf_total fresh_node
  cases l with
  | true => cases t <;> simp [tally.of]
  | false =>
    rw [get_leaf_nodes_internal,
      get_leaf_children_null _ (fun c hc => (List.mem_replicate.1 hc).2)]
    rfl

theorem leaf_total_ensure_child (t : tally) (tree : octree) (cs : List octnode)
    (index level : Nat) (self : Ref) :
    leaf_total t (ensure_child tree cs index level self).2 =
      leaf_total t (cs.getD index .null) := by
  rw [ensure_child_node]
  cases h : cs.getD index .null with
  | null => simp only [octnode.isNull_null, if_true, leaf_total_fresh]; rfl
  | node => simp only [octnode.isNull_node, Bool.false_eq_true, if_false]

theorem wide_ensure_child {tree : octree} {n r g b a : Nat} {cs : List octnode}
    (h : wide (.node false n r g b a cs)) (index level : Nat) (self : Ref) :
    wide (ensure_child tree cs index level self).2 := by
  rw [ensure_child_node]
  cases hc : cs.getD index .null with
  | null =>
    simp only [octnode.isNull_null, if_true]
    intro q hq
    cases q with
    | nil => simp [fresh_node]
    | cons j q => rw [find_fresh_node] at hq; simp at hq
  | node l2 n2 r2 g2 b2 a2 cs2 =>
    simp only [octnode.isNull_node, Bool.false_eq_true, if_false]
    intro q hq
    have := h (index :: q)
    rw [octnode.find_cons, hc] at this
    exact this hq

/-- An insertion adds the pixel to each total of the leaves: one to the count
and the channel value to each sum. -/
theorem add_pixel_to_node_total (t : tally) (fuel : Nat) :
    ∀ (tree : octree) (node : octnode) (self : Ref) (level : Nat) (pixel : Pixel)
      (tree1 : octree) (node1 : octnode), wide node →
      octree_add_pixel_to_node fuel tree node self level pixel = .ok (tree1, node1) →
      leaf_total t node1 = leaf_total t node + t.weight pixel := by
  induction fuel with
  | zero =>
    intro tree node self level pixel tree1 node1 _ h
    simp [octree_add_pixel_to_node] at h
  | succ fuel ih =>
    intro tree node self level pixel tree1 node1 hw h
    rcases add_pixel_to_node_cases h with
      ⟨n, r, g, b, a, cs, rfl, _, rfl⟩ | ⟨fuel0, n, r, g, b, a, cs, child1, hf, hl, rfl, rfl, hrec⟩
    · cases t <;> simp [leaf_total, tally.of, tally.weight]
    · have hf0 : fuel0 = fuel := by omega
      subst hf0
      have h16 : cs.length = 16 := hw [] rfl
      have hidx : child_index pixel level < cs.length := by
        rw [h16]; exact child_index_lt pixel level hl
      have := ih _ _ _ _ _ _ _ (wide_ensure_child hw _ level self) hrec
      rw [leaf_total_ensure_child] at this
      unfold leaf_total at this ⊢
      rw [get_leaf_nodes_internal, get_leaf_nodes_internal, get_leaf_children_set _ _ _ hidx]
      conv_rhs => rw [get_leaf_children_split cs _ hidx]
      simp only [total_append]
      omega

theorem add_pixel_to_node_not_null {fuel : Nat} {tree : octree} {node : octnode} {self : Ref}
    {level : Nat} {pixel : Pixel} {tree1 : octree} {node1 : octnode}
    (h : octree_add_pixel_to_node fuel tree node self level pixel = .ok (tree1, node1)) :
    node1.isNull = false := by
  rcases add_pixel_to_node_cases h with
    ⟨n, r, g, b, a, cs, _, _, rfl⟩ | ⟨fuel0, n, r, g, b, a, cs, child1, _, _, _, rfl, _⟩ <;> rfl

theorem populated_at_null : populated_at .null :=
  ⟨fun h => by simp at h, fun h => by simp at h⟩

/-- After an insertion every node on the way of the pixel is populated. -/
theorem add_pixel_to_node_populated (fuel : Nat) :
    ∀ (tree : octree) (node : octnode) (self : Ref) (level : Nat) (pixel : Pixel)
      (tree1 : octree) (node1 : octnode), wide node →
      (∀ j q, populated_at (node.find (j :: q))) →
      octree_add_pixel_to_node fuel tree node self level pixel = .ok (tree1, node1) →
      populated node1 := by
  induction fuel with
  | zero =>
    intro tree node self level pixel tree1 node1 _ _ h
    simp [octree_add_pixel_to_node] at h
  | succ fuel ih =>
    intro tree node self level pixel tree1 node1 hw hp h
    rcases add_pixel_to_node_cases h with
      ⟨n, r, g, b, a, cs, rfl, _, rfl⟩ | ⟨fuel0, n, r, g, b, a, cs, child1, hf, hl, rfl, rfl, hrec⟩
    · intro q
      cases q with
      | nil => exact ⟨fun _ => by simp, fun h => by simp at h⟩
      | cons j q => exact hp j q
    · have hf0 : fuel0 = fuel := by omega
      subst hf0
      have h16 : cs.length = 16 := hw [] rfl
      have hidx : child_index pixel level < cs.length := by
        rw [h16]; exact child_index_lt pixel level hl
      have hchild : populated child1 := by
        refine ih _ _ _ _ _ _ _ (wide_ensure_child hw _ level self) ?_ hrec
        intro j q
        rw [ensure_child_node]
        cases hc : cs.getD (child_index pixel level) .null with
        | null =>
          simp only [octnode.isNull_null, if_true]
          rw [find_fresh_node]
          exact populated_at_null
        | node l2 n2 r2 g2 b2 a2 cs2 =>
          simp only [octnode.isNull_node, Bool.false_eq_true, if_false]
          have := hp (child_index pixel level) (j :: q)
          rw [octnode.find_cons, hc] at this
          exact this
      intro q
      cases q with
      | nil =>
        refine ⟨fun h => by simp at h, fun _ => ⟨child1, ?_, add_pixel_to_node_not_null hrec⟩⟩
        rw [octnode.find_nil, octnode.kids_node]
        exact (mem_iff_getD _ _ .null).2 ⟨child_index pixel level, by simpa using hidx,
          getD_set_self _ _ _ _ hidx⟩
      | cons j q =>
        rw [octnode.find_cons]
        by_cases hj : child_index pixel level = j
        · subst hj
          rw [getD_set_self _ _ _ _ hidx]
          exact hchild q
        · rw [getD_set_other _ _ _ _ _ hj]
          have := hp j q
          rw [octnode.find_cons] at this
          exact this

theorem consistent_wide {tree : octree} (hc : consistent tree) : wide tree.root :=
  fun q hq => (node_ok_internal (hc.nodes_ok q) hq).1

theorem add_pixel_reachable {tree tree1 : octree} {pixel : Pixel} (h : reachable tree)
    (hrun : octree_add_pixel tree pixel = .ok tree1) : reachable tree1 :=
  reachable.add_pixel pixel h hrun

/-- The effect of `octree_add_pixel` on a well-formed tree. -/
theorem add_pixel_spec {tree : octree} (hc : consistent tree)
    (hp : ∀ j q, populated_at (tree.root.find (j :: q))) (pixel : Pixel) :
    ∃ tree1, octree_add_pixel tree pixel = .ok tree1 ∧ consistent tree1 ∧
      populated tree1.root ∧
      ∀ t : tally, leaf_total t tree1.root = leaf_total t tree.root + t.weight pixel := by
  obtain ⟨tree1, hrun, hc1⟩ := add_pixel_consistent hc pixel
  refine ⟨tree1, hrun, hc1, ?_, ?_⟩
  · unfold octree_add_pixel at hrun
    cases hrec : octree_add_pixel_to_node (BIT_DEPTH + 1) tree tree.root [] 0 pixel with
    | error e => rw [hrec] at hrun; simp at hrun
    | ok p =>
      obtain ⟨t2, r2⟩ := p
      rw [hrec] at hrun
      simp only [Except.ok.injEq] at hrun
      subst hrun
      exact add_pixel_to_node_populated _ _ _ _ _ _ _ _ (consistent_wide hc) hp hrec
  · unfold octree_add_pixel at hrun
    cases hrec : octree_add_pixel_to_node (BIT_DEPTH + 1) tree tree.root [] 0 pixel with
    | error e => rw [hrec] at hrun; simp at hrun
    | ok p =>
      obtain ⟨t2, r2⟩ := p
      rw [hrec] at hrun
      simp only [Except.ok.injEq] at hrun
      subst hrun
      exact fun t => add_pixel_to_node_total t _ _ _ _ _ _ _ _ (consistent_wide hc) hrec

/-- The tree `get_palette` builds: well formed, holding every pixel of the
buffer, and populated unless the buffer is empty. -/
theorem add_pixels_spec (pixels : List Pixel) :
    ∀ {tree : octree}, consistent tree → (∀ j q, populated_at (tree.root.find (j :: q))) →
      ∃ tree1, add_pixels tree pixels = .ok tree1 ∧ consistent tree1 ∧
        (pixels ≠ [] → populated tree1.root) ∧
        ∀ t : tally, leaf_total t tree1.root =
          leaf_total t tree.root + (pixels.map t.weight).sum := by
  induction pixels with
  | nil => intro tree hc _; exact ⟨tree, rfl, hc, fun h => absurd rfl h, fun _ => rfl⟩
  | cons p ps ih =>
    intro tree hc hp
    obtain ⟨t1, hrun, hc1, hp1, hl1⟩ := add_pixel_spec hc hp p
    obtain ⟨t2, hrun2, hc2, hp2, hl2⟩ := ih hc1 (fun j q => hp1 (j :: q))
    refine ⟨t2, by simp [add_pixels, hrun, hrun2], hc2, fun _ => ?_, ?_⟩
    · cases ps with
      | nil => simp only [add_pixels, Except.ok.injEq] at hrun2; subst hrun2; exact hp1
      | cons p2 ps => exact hp2 (by simp)
    · intro t
      rw [hl2 t, hl1 t, List.map_cons, List.sum_cons]; omega

theorem create_unpopulated : ∀ j q, populated_at (octree_create.root.find (j :: q)) := by
  intro j q
  rw [create_root, find_fresh_node]
  exact populated_at_null

theorem leaf_total_create (t : tally) : leaf_total t octree_create.root = 0 := by
  rw [create_root]; exact leaf_total_fresh t false

/-! ## What a reduction step does to the leaves -/

/-- A store through a reference whose proper prefixes are not leaves replaces
the leaves below the reference and keeps the others, in order. -/
theorem get_leaf_nodes_replace {n : octnode} {s : Ref} (x : octnode)
    (hnn : (n.find s).isNull = false)
    (hint : ∀ p j r, s = p ++ j :: r → (n.find p).leaf = false) :
    ∃ A B, octree_get_leaf_nodes n = A ++ octree_get_leaf_nodes (n.find s) ++ B ∧
      octree_get_leaf_nodes (n.replace s x) = A ++ octree_get_leaf_nodes x ++ B := by
  induction s generalizing n with
  | nil => exact ⟨[], [], by simp, by simp⟩
  | cons j s ih =>
    cases n with
    | null => simp at hnn
    | node l n r g b a cs =>
      have hl : l = false := by simpa using hint [] j s rfl
      subst hl
      rw [octnode.find_cons] at hnn
      have hj : j < cs.length := by
        by_contra hlt
        rw [List.getD_eq_default _ _ (by omega)] at hnn
        simp at hnn
      obtain ⟨A, B, h1, h2⟩ := ih hnn (fun p j1 r hs => by
        have := hint (j :: p) j1 r (by rw [hs]; rfl)
        rw [octnode.find_cons] at this
        exact this)
      refine ⟨octree_get_leaf_children (cs.take j) ++ A,
        B ++ octree_get_leaf_children (cs.drop (j + 1)), ?_, ?_⟩
      · rw [get_leaf_nodes_internal, get_leaf_children_split cs j hj, h1, octnode.find_cons]
        simp only [List.append_assoc]
      · rw [octnode.replace_cons, get_leaf_nodes_internal, get_leaf_children_set _ _ _ hj, h2]
        simp only [List.append_assoc]

theorem total_get_leaf_children (f : octnode → Nat) (hf : f .null = 0) (cs : List octnode)
    (h : ∀ c ∈ cs, c.isNull = true ∨ c.leaf = true) :
    total f (octree_get_leaf_children cs) = total f cs := by
  induction cs with
  | nil => rfl
  | cons c cs ih =>
    rw [get_leaf_children_cons, total_append, total_cons,
      ih (fun c hc => h c (List.mem_cons_of_mem _ hc))]
    congr 1
    cases c with
    | null => simp [hf]
    | node l n r g b a ks =>
      rcases h _ (List.mem_cons_self _ _) with h | h
      · simp at h
      · simp only [octnode.leaf_node] at h
        subst h
        simp

theorem le_total (f : octnode → Nat) {c : octnode} {cs : List octnode} (h : c ∈ cs) :
    f c ≤ total f cs := by
  induction cs with
  | nil => cases h
  | cons d cs ih =>
    rw [total_cons]
    rcases List.mem_cons.1 h with rfl | h
    · omega
    · have := ih h; omega

theorem proper_prefix_not_leaf {tree : octree} (hc : consistent tree) {self : Ref}
    (hnn : (tree.root.find self).isNull = false) :
    ∀ p j r, self = p ++ j :: r → (tree.root.find p).leaf = false := by
  intro p j r hs
  exact octnode.internal_not_leaf
    (above_internal (fun hl => node_ok_leaf (hc.nodes_ok p) hl) (by rw [← hs]; exact hnn))

theorem tally_of_merged_leaf (t : tally) (cs : List octnode) :
    t.of (merged_leaf cs) = total t.of cs := by
  cases t <;> rfl

/-- A reduction step keeps each total of the leaves. -/
theorem collapse_total (t : tally) {tree : octree} (hc : consistent tree) {i : Nat} {self : Ref}
    {next : List Ref} (hsel : tree.heads.getD i [] = self :: next)
    (habove : ∀ l, i < l → tree.heads.getD l [] = []) :
    leaf_total t (collapse tree i self).root = leaf_total t tree.root := by
  have hmem : self ∈ tree.heads.getD i [] := by rw [hsel]; exact List.mem_cons_self _ _
  obtain ⟨hform, h16, hlen, hi8, hkids⟩ := selected_children hc hmem habove
  have hnn : (tree.root.find self).isNull = false := by rw [hform]; rfl
  obtain ⟨A, B, h1, h2⟩ := get_leaf_nodes_replace (merged_leaf (tree.root.find self).kids) hnn
    (proper_prefix_not_leaf hc hnn)
  have h3 : total t.of (octree_get_leaf_nodes (tree.root.find self)) =
      total t.of (tree.root.find self).kids := by
    conv_lhs => rw [hform]
    rw [get_leaf_nodes_internal]
    exact total_get_leaf_children _ (tally_of_null t) _
      (fun c hcm => (hkids c hcm).imp id (fun h => h.1))
  show leaf_total t (tree.root.replace self (merged_leaf (tree.root.find self).kids)) = _
  unfold leaf_total
  rw [h1, h2]
  simp only [total_append, h3]
  congr 2
  rw [merged_leaf, get_leaf_nodes_leaf, total_cons, total_nil, Nat.add_zero]
  exact tally_of_merged_leaf t _

/-- A reduction step keeps the tree populated. -/
theorem collapse_populated {tree : octree} (hc : consistent tree) {i : Nat} {self : Ref}
    {next : List Ref} (hsel : tree.heads.getD i [] = self :: next)
    (habove : ∀ l, i < l → tree.heads.getD l [] = []) (hp : populated tree.root) :
    populated (collapse tree i self).root := by
  have hmem : self ∈ tree.heads.getD i [] := by rw [hsel]; exact List.mem_cons_self _ _
  obtain ⟨hform, h16, hlen, hi8, hkids⟩ := selected_children hc hmem habove
  have hnn : (tree.root.find self).isNull = false := by rw [hform]; rfl
  have hself : ((collapse tree i self).root.find self) = merged_leaf (tree.root.find self).kids := by
    have := octnode.find_replace_self (n := tree.root)
      (merged_leaf (tree.root.find self).kids) [] hnn
    simpa [collapse] using this
  intro q
  show populated_at ((tree.root.replace self _).find q)
  rcases prefix_cases self q with ⟨q1, rfl⟩ | ⟨j, r, hs⟩ | ⟨h1, h2⟩
  · rw [octnode.find_replace_self _ _ hnn]
    cases q1 with
    | nil =>
      refine ⟨fun _ => ?_, fun h => by simp [merged_leaf] at h⟩
      obtain ⟨c, hcm, hcn⟩ := (hp self).2 (by rw [hform]; rfl)
      obtain ⟨j, hj, hcj⟩ := (mem_iff_getD _ c .null).1 hcm
      have hfind : tree.root.find (self ++ [j]) = c := by
        rw [octnode.find_append, octnode.find_cons_kids, octnode.find_nil, hcj]
      have hleaf : c.leaf = true := by
        rcases hkids c hcm with h | h
        · rw [h] at hcn; cases hcn
        · exact h.1
      have h1 : 1 ≤ c.count := by
        have := (hp (self ++ [j])).1
        rw [hfind] at this
        exact this hleaf
      have h2 := le_total octnode.count hcm
      simp only [octnode.find_nil, merged_leaf, octnode.count_node]
      omega
    | cons j q1 => rw [find_merged_leaf]; exact populated_at_null
  · have hint : (tree.root.find q).internal = true :=
      above_internal (fun hl => node_ok_leaf (hc.nodes_ok q) hl) (by rw [← hs]; exact hnn)
    have hhead : ((tree.root.replace self (merged_leaf (tree.root.find self).kids)).find q).head =
        (tree.root.find q).head := by
      apply octnode.find_replace_above
      rintro ⟨t, ht⟩
      have := congrArg List.length ht
      have h3 := congrArg List.length hs
      simp at this h3
      omega
    refine ⟨fun hl => ?_, fun _ => ?_⟩
    · rw [octnode.head_leaf hhead, octnode.internal_not_leaf hint] at hl
      cases hl
    · have hsub : ((tree.root.replace self (merged_leaf (tree.root.find self).kids)).find
          (q ++ [j])).isNull = false := by
        apply octnode.find_prefix_not_null (q := r)
        have h5 : q ++ [j] ++ r = self := by rw [hs]; simp
        rw [h5]
        have := hself
        simp only [collapse] at this
        rw [this]
        rfl
      rw [octnode.find_append, octnode.find_cons_kids, octnode.find_nil] at hsub
      rcases getD_mem_or_default ((tree.root.replace self
        (merged_leaf (tree.root.find self).kids)).find q).kids j .null with h | h
      · exact ⟨_, h, hsub⟩
      · rw [h] at hsub; cases hsub
  · rw [octnode.find_replace_apart _ h1 h2]
    exact hp q

/-! ## The reduction loop -/

theorem sum_length_set (hs : List (List Ref)) (i : Nat) (x : List Ref) (h : i < hs.length) :
    ((hs.set i x).map List.length).sum + (hs.getD i []).length =
      (hs.map List.length).sum + x.length := by
  induction hs generalizing i with
  | nil => simp at h
  | cons a hs ih =>
    cases i with
    | zero => simp; omega
    | succ i =>
      have := ih i (by simpa using h)
      simp only [List.set_cons_succ, List.map_cons, List.sum_cons, List.getD_cons_succ]
      omega

theorem length_getD_le_sum (hs : List (List Ref)) (i : Nat) :
    (hs.getD i []).length ≤ (hs.map List.length).sum := by
  induction hs generalizing i with
  | nil => simp
  | cons a hs ih =>
    cases i with
    | zero => simp
    | succ i =>
      have := ih i
      simp only [List.getD_cons_succ, List.map_cons, List.sum_cons]
      omega

theorem queued_zero {tree : octree} (h : queued tree = 0) : ∀ l, tree.heads.getD l [] = [] := by
  intro l
  have := length_getD_le_sum tree.heads l
  unfold queued at h
  exact List.length_eq_zero.1 (by omega)

theorem queued_collapse {tree : octree} {i : Nat} {self : Ref} {next : List Ref}
    (hi : i < tree.heads.length) (hsel : tree.heads.getD i [] = self :: next) :
    queued (collapse tree i self) + 1 = queued tree := by
  have := sum_length_set tree.heads i next hi
  rw [hsel] at this
  simp only [queued, collapse, hsel, List.tail_cons]
  simp only [List.length_cons] at this
  omega

/-- The effect of `octree_reduce` on a well-formed tree. -/
theorem reduce_spec {tree : octree} (hc : consistent tree) :
    ∃ tree1, octree_reduce tree = .ok tree1 ∧ consistent tree1 ∧
      (∀ t : tally, leaf_total t tree1.root = leaf_total t tree.root) ∧
      (populated tree.root → populated tree1.root) ∧
      (queued tree = 0 → tree1 = tree) ∧ (queued tree ≠ 0 → queued tree1 + 1 = queued tree) := by
  refine ⟨_, reduce_eq hc, ?_⟩
  cases hs : selected BIT_DEPTH tree with
  | none =>
    refine ⟨hc, fun _ => rfl, id, fun _ => rfl, fun h => absurd ?_ h⟩
    have := selected_none hs (heads_beyond hc.heads_length)
    unfold queued
    have hall : ∀ x ∈ tree.heads, x = [] := by
      intro x hx
      obtain ⟨j, _, hj⟩ := (mem_iff_getD tree.heads x []).1 hx
      rw [← hj]; exact this j
    rw [List.sum_eq_zero]
    intro n hn
    obtain ⟨x, hx, rfl⟩ := List.mem_map.1 hn
    rw [hall x hx]; rfl
  | some p =>
    obtain ⟨i, self⟩ := p
    obtain ⟨hi, ⟨next, hsel⟩, habove⟩ := selected_some hs (heads_beyond hc.heads_length)
    have hq := queued_collapse (by rw [hc.heads_length]; exact hi) hsel
    refine ⟨collapse_consistent hc hsel habove, fun t => collapse_total t hc hsel habove,
      collapse_populated hc hsel habove, fun h => ?_, fun _ => hq⟩
    omega

theorem leaves_le_one {tree : octree} (hc : consistent tree) (h : queued tree = 0) :
    tree.numLeaves ≤ 1 := by
  rw [hc.leaves_counted]
  have hok := hc.nodes_ok []
  rw [octnode.find_nil] at hok
  rcases octnode.leaf_or_internal hc.root_node with hl | hi
  · have hk := node_ok_leaf hok hl
    cases hr : tree.root with
    | null => simp
    | node l n r g b a cs =>
      rw [hr] at hk
      simp only [octnode.kids_node] at hk
      rw [count_leaves_node, hk, count_leaves_children_replicate]
      split <;> omega
  · have := (node_ok_internal hok hi).2.2.1
    rw [queued_zero h] at this
    cases this

/-- The loop `while (tree->numLeaves > bound) octree_reduce(tree)` ends, for any
bound of at least one, within as many iterations as there are queued nodes. -/
theorem reduce_while_spec (fuel : Nat) :
    ∀ (tree : octree) (bound : Nat), consistent tree → 1 ≤ bound → queued tree ≤ fuel →
      ∃ tree1, reduce_while fuel tree bound = .ok tree1 ∧ consistent tree1 ∧
        tree1.numLeaves ≤ bound ∧
        (∀ t : tally, leaf_total t tree1.root = leaf_total t tree.root) ∧
        (populated tree.root → populated tree1.root) ∧
        (tree.numLeaves ≤ bound → tree1 = tree) := by
  induction fuel with
  | zero =>
    intro tree bound hc hb hq
    have h1 := leaves_le_one hc (by omega)
    have hle : tree.numLeaves ≤ bound := by omega
    exact ⟨tree, by simp [reduce_while, hle], hc, hle, fun _ => rfl, id, fun _ => rfl⟩
  | succ fuel ih =>
    intro tree bound hc hb hq
    by_cases hle : tree.numLeaves ≤ bound
    · exact ⟨tree, by simp [reduce_while, hle], hc, hle, fun _ => rfl, id, fun _ => rfl⟩
    · obtain ⟨t1, hrun, hc1, hpx, hpop, hzero, hdec⟩ := reduce_spec hc
      have hq0 : queued tree ≠ 0 := by
        intro h0
        have := leaves_le_one hc h0
        omega
      have hq1 := hdec hq0
      obtain ⟨t2, hrun2, hc2, hle2, hpx2, hpop2, _⟩ := ih t1 bound hc1 hb (by omega)
      refine ⟨t2, ?_, hc2, hle2, fun t => by rw [hpx2 t, hpx t], fun h => hpop2 (hpop h),
        fun h => absurd h hle⟩
      rw [reduce_while]
      simp only [hle, if_false, hrun, hrun2]

theorem reduce_to_spec {tree : octree} (bound : Nat) (hc : consistent tree) (hb : 1 ≤ bound) :
    ∃ tree1, reduce_to tree bound = .ok tree1 ∧ consistent tree1 ∧
      tree1.numLeaves ≤ bound ∧
      (∀ t : tally, leaf_total t tree1.root = leaf_total t tree.root) ∧
      (populated tree.root → populated tree1.root) ∧
      (tree.numLeaves ≤ bound → tree1 = tree) :=
  reduce_while_spec (queued tree) tree bound hc hb (Nat.le_refl _)

theorem reduce_times_spec (k : Nat) :
    ∀ {tree : octree}, consistent tree →
      ∃ tree1, reduce_times k tree = .ok tree1 ∧ consistent tree1 ∧
        (∀ t : tally, leaf_total t tree1.root = leaf_total t tree.root) ∧
        (populated tree.root → populated tree1.root) := by
  induction k with
  | zero => intro tree hc; exact ⟨tree, rfl, hc, fun _ => rfl, id⟩
  | succ k ih =>
    intro tree hc
    obtain ⟨t1, hrun, hc1, hpx, hpop, _, _⟩ := reduce_spec hc
    obtain ⟨t2, hrun2, hc2, hpx2, hpop2⟩ := ih hc1
    exact ⟨t2, by simp [reduce_times, hrun, hrun2], hc2, fun t => by rw [hpx2 t, hpx t],
      fun h => hpop2 (hpop h)⟩

/-! ## Writing the colours -/

theorem quad_length (leaf : octnode) : (quad leaf).length = 4 := rfl

theorem quads_length (leaves : List octnode) : (quads leaves).length = leaves.length * 4 := by
  induction leaves with
  | nil => rfl
  | cons l ls ih => simp [quads, ih, quad_length]; omega

theorem leaf_color_eq {leaf : octnode} (h1 : leaf.isNull = false) (h2 : 1 ≤ leaf.count) :
    leaf_color leaf = .ok (quad leaf) := by
  cases leaf with
  | null => simp at h1
  | node l n r g b a cs =>
    simp only [octnode.count_node] at h2
    have : n ≠ 0 := by omega
    simp [leaf_color, this, quad]

theorem store_eq {buf : List uint8_t} {offset : Nat} {bytes : List uint8_t}
    (h : offset + bytes.length ≤ buf.length) :
    store buf offset bytes =
      .ok (buf.take offset ++ bytes ++ buf.drop (offset + bytes.length)) := by
  simp [store, h]

/-- The loop of `octree_get_colors` overwrites the quads of its leaves and
nothing else. -/
theorem write_colors_eq (leaves : List octnode) :
    ∀ (i : Nat) (colors : List uint8_t),
      (∀ m ∈ leaves, m.isNull = false ∧ 1 ≤ m.count) →
      (i + leaves.length) * 4 ≤ colors.length →
      write_colors leaves i colors =
        .ok (colors.take (i * 4) ++ quads leaves ++ colors.drop ((i + leaves.length) * 4)) := by
  induction leaves with
  | nil =>
    intro i colors _ _
    simp [write_colors, quads]
  | cons leaf rest ih =>
    intro i colors hl hlen
    obtain ⟨h1, h2⟩ := hl leaf (List.mem_cons_self _ _)
    simp only [List.length_cons] at hlen
    have hst : i * 4 + (quad leaf).length ≤ colors.length := by rw [quad_length]; omega
    simp only [write_colors, leaf_color_eq h1 h2, store_eq hst]
    rw [ih (i + 1) _ (fun m hm => hl m (List.mem_cons_of_mem _ hm))
      (by simp [quad_length]; omega)]
    congr 1
    have hq := quad_length leaf
    have e1 : (List.take (i * 4) colors ++ quad leaf ++
        List.drop (i * 4 + (quad leaf).length) colors).take ((i + 1) * 4) =
        List.take (i * 4) colors ++ quad leaf := by
      rw [List.take_append_of_le_length (by simp [hq]; omega)]
      rw [List.take_of_length_le (by simp [hq]; omega)]
    have e2 : (List.take (i * 4) colors ++ quad leaf ++
        List.drop (i * 4 + (quad leaf).length) colors).drop ((i + 1 + rest.length) * 4) =
        List.drop ((i + (rest.length + 1)) * 4) colors := by
      rw [List.drop_append_eq_append_drop]
      rw [List.drop_of_length_le (by simp [hq]; omega), List.nil_append, List.drop_drop]
      congr 1
      simp [hq]
      omega
    rw [e1, e2]
    simp [quads, List.length_cons]

theorem sum_weight_pixels (pixels : List Pixel) :
    (pixels.map tally.pixels.weight).sum = pixels.length := by
  induction pixels with
  | nil => rfl
  | cons p ps ih => rw [List.map_cons, List.sum_cons, ih, List.length_cons]; simp [tally.weight]; omega

theorem le_count_leaves_children {c : octnode} {cs : List octnode} (h : c ∈ cs) :
    count_leaves c ≤ count_leaves_children cs := by
  induction cs with
  | nil => cases h
  | cons d cs ih =>
    rw [count_leaves_children_cons]
    rcases List.mem_cons.1 h with rfl | h
    · omega
    · have := ih h; omega

/-- A populated tree has a leaf. -/
theorem populated_count_leaves (n : octnode) :
    populated n → n.isNull = false → 1 ≤ count_leaves n := by
  induction n using octnode.induct with
  | h0 => intro _ h; simp at h
  | h1 l n r g b a cs ih =>
    intro hp _
    cases l with
    | true => simp
    | false =>
      obtain ⟨c, hc, hcn⟩ := (hp []).2 rfl
      simp only [octnode.find_nil, octnode.kids_node] at hc
      obtain ⟨j, _, hj⟩ := (mem_iff_getD cs c .null).1 hc
      have h1 := ih c hc (fun q => by
        have := hp (j :: q)
        rw [octnode.find_cons, hj] at this
        exact this) hcn
      have h2 := le_count_leaves_children hc
      rw [count_leaves_node]
      omega

theorem populated_leaves {n : octnode} (hp : populated n) :
    ∀ m ∈ octree_get_leaf_nodes n, m.isNull = false ∧ 1 ≤ m.count := by
  intro m hm
  obtain ⟨hl, q, rfl⟩ := get_leaf_nodes_leaf_at n m hm
  exact ⟨octnode.leaf_not_null hl, (hp q).1 hl⟩

theorem get_leaf_nodes_create : octree_get_leaf_nodes octree_create.root = [] := by
  rw [create_root]
  unfold fresh_node
  rw [get_leaf_nodes_internal, get_leaf_children_null _ (fun c hc => (List.mem_replicate.1 hc).2)]

/-- The colours `octree_get_colors` writes for a well-formed tree whose leaves
all hold a pixel. -/
theorem get_colors_eq {tree : octree} (hc : consistent tree)
    (hl : ∀ m ∈ octree_get_leaf_nodes tree.root, m.isNull = false ∧ 1 ≤ m.count)
    (colors : List uint8_t) (hlen : tree.numLeaves * 4 ≤ colors.length) :
    octree_get_colors tree colors =
      .ok (quads (octree_get_leaf_nodes tree.root) ++ colors.drop (tree.numLeaves * 4)) := by
  have hn := consistent_leaves hc
  unfold octree_get_colors
  simp only [hn, Nat.lt_irrefl, if_false]
  rw [write_colors_eq _ 0 colors hl (by rw [hn]; omega)]
  simp [hn]

/-- What `get_palette` returns for a buffer of `colors` large enough for
`numColors` quads: the colours of the leaves of the reduced tree, in the order
of `octree_get_leaf_nodes`, followed by the rest of `colors` as it was. -/
theorem get_palette_spec (pixels : List Pixel) (colors : List uint8_t) (numColors : Nat)
    (h8 : 8 ≤ numColors) (hlen : numColors * 4 ≤ colors.length) :
    ∃ tree0 tree, add_pixels octree_create pixels = .ok tree0 ∧
      reduce_to tree0 numColors = .ok tree ∧ consistent tree0 ∧ consistent tree ∧
      (tree0.numLeaves ≤ numColors → tree = tree0) ∧
      tree.numLeaves ≤ numColors ∧ (pixels ≠ [] → 1 ≤ tree.numLeaves) ∧
      leaf_pixels tree0.root = pixels.length ∧
      leaf_pixels tree.root = pixels.length ∧
      (∀ m ∈ octree_get_leaf_nodes tree.root, m.isNull = false ∧ 1 ≤ m.count) ∧
      get_palette pixels colors numColors =
        .ok (quads (octree_get_leaf_nodes tree.root) ++ colors.drop (tree.numLeaves * 4),
          tree.numLeaves) := by
  obtain ⟨tree0, hadd, hc0, hpop0, hpx0⟩ :=
    add_pixels_spec pixels create_consistent create_unpopulated
  obtain ⟨tree, hred, hc, hle, hpx, hpop, hsame⟩ :=
    reduce_to_spec numColors hc0 (by omega)
  have hpx0 : leaf_pixels tree0.root = pixels.length := by
    have := hpx0 .pixels
    rw [leaf_total_create, Nat.zero_add] at this
    rw [show leaf_pixels tree0.root = leaf_total .pixels tree0.root from rfl, this]
    exact sum_weight_pixels pixels
  have hpx : leaf_pixels tree.root = leaf_pixels tree0.root := hpx .pixels
  have hleaves : ∀ m ∈ octree_get_leaf_nodes tree.root, m.isNull = false ∧ 1 ≤ m.count := by
    cases pixels with
    | nil =>
      simp only [add_pixels, Except.ok.injEq] at hadd
      subst hadd
      have := hsame (by rw [create_numLeaves]; omega)
      subst this
      rw [get_leaf_nodes_create]
      intro m hm; cases hm
    | cons p ps => exact populated_leaves (hpop (hpop0 (by simp)))
  refine ⟨tree0, tree, hadd, hred, hc0, hc, hsame, hle, ?_, hpx0, by rw [hpx, hpx0], hleaves, ?_⟩
  · intro hne
    rw [hc.leaves_counted]
    exact populated_count_leaves _ (hpop (hpop0 hne)) hc.root_node
  · have hnot : ¬ numColors < 8 := by omega
    have hst : 0 + (List.replicate (tree.numLeaves * 4) (0 : uint8_t)).length ≤ colors.length := by
      simp; omega
    unfold get_palette
    simp only [hnot, if_false, hadd, hred, store_eq hst]
    rw [get_colors_eq hc hleaves _ (by simp)]
    simp

/-! ## Paths of pixels -/

set_option maxRecDepth 100000 in
theorem byte_of_bits (x : uint8_t) :
    x.val = 128 * bit_at x 0 + 64 * bit_at x 1 + 32 * bit_at x 2 + 16 * bit_at x 3 +
      8 * bit_at x 4 + 4 * bit_at x 5 + 2 * bit_at x 6 + bit_at x 7 := by
  revert x
  decide

theorem bits_of_child_index {p q : Pixel} {level : Nat} (hl : level < BIT_DEPTH)
    (h : child_index p level = child_index q level) :
    bit_at p.r level = bit_at q.r level ∧ bit_at p.g level = bit_at q.g level ∧
      bit_at p.b level = bit_at q.b level ∧ bit_at p.a level = bit_at q.a level := by
  rw [child_index_eq p level hl, child_index_eq q level hl] at h
  have h1 := bit_at_lt p.r level
  have h2 := bit_at_lt p.g level
  have h3 := bit_at_lt p.b level
  have h4 := bit_at_lt p.a level
  have h5 := bit_at_lt q.r level
  have h6 := bit_at_lt q.g level
  have h7 := bit_at_lt q.b level
  have h8 := bit_at_lt q.a level
  omega

theorem path_length (p : Pixel) : (path p).length = BIT_DEPTH := by
  simp [path]

theorem path_getD (p : Pixel) (level : Nat) (hl : level < BIT_DEPTH) :
    (path p)[level]? = some (child_index p level) := by
  simp [path, hl]

theorem path_injective {p q : Pixel} (h : path p = path q) : p = q := by
  have hidx : ∀ level, level < BIT_DEPTH → child_index p level = child_index q level := by
    intro level hl
    have h1 := path_getD p level hl
    rw [h, path_getD q level hl] at h1
    exact (Option.some.inj h1).symm
  have b0 := bits_of_child_index (by decide) (hidx 0 (by decide))
  have b1 := bits_of_child_index (by decide) (hidx 1 (by decide))
  have b2 := bits_of_child_index (by decide) (hidx 2 (by decide))
  have b3 := bits_of_child_index (by decide) (hidx 3 (by decide))
  have b4 := bits_of_child_index (by decide) (hidx 4 (by decide))
  have b5 := bits_of_child_index (by decide) (hidx 5 (by decide))
  have b6 := bits_of_child_index (by decide) (hidx 6 (by decide))
  have b7 := bits_of_child_index (by decide) (hidx 7 (by decide))
  have hr : p.r = q.r := by
    apply Fin.ext
    rw [byte_of_bits p.r, byte_of_bits q.r, b0.1, b1.1, b2.1, b3.1, b4.1, b5.1, b6.1, b7.1]
  have hg : p.g = q.g := by
    apply Fin.ext
    rw [byte_of_bits p.g, byte_of_bits q.g, b0.2.1, b1.2.1, b2.2.1, b3.2.1, b4.2.1, b5.2.1,
      b6.2.1, b7.2.1]
  have hb : p.b = q.b := by
    apply Fin.ext
    rw [byte_of_bits p.b, byte_of_bits q.b, b0.2.2.1, b1.2.2.1, b2.2.2.1, b3.2.2.1, b4.2.2.1,
      b5.2.2.1, b6.2.2.1, b7.2.2.1]
  have ha : p.a = q.a := by
    apply Fin.ext
    rw [byte_of_bits p.a, byte_of_bits q.a, b0.2.2.2, b1.2.2.2, b2.2.2.2, b3.2.2.2, b4.2.2.2,
      b5.2.2.2, b6.2.2.2, b7.2.2.2]
  cases p; cases q
  simp only [Pixel.mk.injEq]
  exact ⟨hr, hg, hb, ha⟩

theorem path_drop (p : Pixel) (level : Nat) (hl : level < BIT_DEPTH) :
    (path p).drop level = child_index p level :: (path p).drop (level + 1) := by
  have h : level < (path p).length := by rw [path_length]; exact hl
  rw [List.drop_eq_getElem_cons h]
  congr 1
  have := path_getD p level hl
  rw [List.getElem?_eq_getElem h] at this
  exact Option.some.inj this

theorem path_take (p : Pixel) (level : Nat) (hl : level < BIT_DEPTH) :
    (path p).take (level + 1) = (path p).take level ++ [child_index p level] := by
  rw [List.take_succ, path_getD p level hl]
  rfl

/-! ## Trees built by insertion alone -/

theorem channel_exact (n : Nat) (x : uint8_t) (h : 1 ≤ n) : channel (n * x.val) n = x := by
  unfold channel
  rw [Nat.mul_div_cancel_left _ (by omega)]
  apply Fin.ext
  simp [Fin.ofNat, Nat.mod_eq_of_lt x.isLt]

theorem leaf_colors_append (xs ys : List octnode) :
    leaf_colors (xs ++ ys) = leaf_colors xs ++ leaf_colors ys := by
  simp [leaf_colors]

theorem colors_of_null : colors_of .null = [] := by
  simp [colors_of, leaf_colors]

theorem colors_of_fresh (l : Bool) : colors_of (fresh_node l) = [] := by
  unfold colors_of fresh_node
  cases l with
  | true => simp [leaf_colors]
  | false =>
    rw [get_leaf_nodes_internal,
      get_leaf_children_null _ (fun c hc => (List.mem_replicate.1 hc).2)]
    rfl

theorem colors_of_ensure_child (tree : octree) (cs : List octnode) (index level : Nat)
    (self : Ref) :
    colors_of (ensure_child tree cs index level self).2 = colors_of (cs.getD index .null) := by
  rw [ensure_child_node]
  cases h : cs.getD index .null with
  | null => simp only [octnode.isNull_null, if_true, colors_of_fresh, colors_of_null]
  | node => simp only [octnode.isNull_node, Bool.false_eq_true, if_false]

theorem not_held_null (q : Ref) : ¬ held .null q := by
  intro h
  simp [held] at h

theorem not_held_fresh (l : Bool) (q : Ref) : ¬ held (fresh_node l) q := by
  intro h
  cases q with
  | nil => simp [held, fresh_node] at h
  | cons j q =>
    unfold held at h
    rw [find_fresh_node] at h
    simp at h

theorem held_ensure_child (tree : octree) (cs : List octnode) (index level : Nat)
    (self : Ref) (q : Ref) :
    held (ensure_child tree cs index level self).2 q ↔ held (cs.getD index .null) q := by
  rw [ensure_child_node]
  cases h : cs.getD index .null with
  | null =>
    simp only [octnode.isNull_null, if_true]
    exact ⟨fun h => absurd h (not_held_fresh _ _), fun h => absurd h (not_held_null _)⟩
  | node => simp only [octnode.isNull_node, Bool.false_eq_true, if_false]

theorem held_cons (l : Bool) (n r g b a : Nat) (cs : List octnode) (j : Nat) (q : Ref) :
    held (.node l n r g b a cs) (j :: q) ↔ held (cs.getD j .null) q := by
  unfold held
  rw [octnode.find_cons]

theorem colors_of_internal_set (n r g b a : Nat) (cs : List octnode) (j : Nat) (y : octnode)
    (h : j < cs.length) :
    colors_of (.node false n r g b a (cs.set j y)) =
      leaf_colors (octree_get_leaf_children (cs.take j)) ++ colors_of y ++
        leaf_colors (octree_get_leaf_children (cs.drop (j + 1))) := by
  unfold colors_of
  rw [get_leaf_nodes_internal, get_leaf_children_set _ _ _ h, leaf_colors_append,
    leaf_colors_append]

theorem colors_of_internal (n r g b a : Nat) (cs : List octnode) (j : Nat)
    (h : j < cs.length) :
    colors_of (.node false n r g b a cs) =
      leaf_colors (octree_get_leaf_children (cs.take j)) ++ colors_of (cs.getD j .null) ++
        leaf_colors (octree_get_leaf_children (cs.drop (j + 1))) := by
  unfold colors_of
  rw [get_leaf_nodes_internal, get_leaf_children_split _ _ h, leaf_colors_append,
    leaf_colors_append]

/-- An insertion into a tree whose leaves each hold copies of one pixel: the
leaves still do, the pixel is now held, and the colours of the leaves are the
same if the pixel was held before and one more, the pixel, if it was not. -/
theorem add_pixel_to_node_exact (fuel : Nat) :
    ∀ (tree : octree) (node : octnode) (self : Ref) (level : Nat) (pixel : Pixel)
      (tree1 : octree) (node1 : octnode), wide node →
      self = (path pixel).take level → level ≤ BIT_DEPTH →
      (∀ q, exact_at (self ++ q) (node.find q)) →
      octree_add_pixel_to_node fuel tree node self level pixel = .ok (tree1, node1) →
      (∀ q, exact_at (self ++ q) (node1.find q)) ∧
      (∀ q, held node1 q ↔ held node q ∨ q = (path pixel).drop level) ∧
      (held node ((path pixel).drop level) → colors_of node1 = colors_of node) ∧
      (¬ held node ((path pixel).drop level) →
        (colors_of node1).Perm (pixel.bytes :: colors_of node)) := by
  induction fuel with
  | zero =>
    intro tree node self level pixel tree1 node1 _ _ _ _ h
    simp [octree_add_pixel_to_node] at h
  | succ fuel ih =>
    intro tree node self level pixel tree1 node1 hw hself hle hex h
    rcases add_pixel_to_node_cases h with
      ⟨n, r, g, b, a, cs, rfl, _, rfl⟩ | ⟨fuel0, n, r, g, b, a, cs, child1, hf, hl, rfl, rfl, hrec⟩
    · -- at a leaf: the leaf is the one of the pixel
      obtain ⟨p0, hp0, hr, hg, hb, ha⟩ := hex [] rfl
      simp only [octnode.find_nil, octnode.sumRed_node, octnode.sumGreen_node,
        octnode.sumBlue_node, octnode.sumAlpha_node, octnode.count_node, List.append_nil] at hp0 hr hg hb ha
      have hlen : self.length = BIT_DEPTH := by rw [← hp0, path_length]
      have hlevel : level = BIT_DEPTH := by
        have := congrArg List.length hself
        rw [List.length_take, path_length] at this
        omega
      have hpath : self = path pixel := by
        rw [hself, hlevel, List.take_of_length_le (by rw [path_length])]
      have hpp : p0 = pixel := path_injective (hp0.trans hpath)
      subst hpp
      have hdrop : (path p0).drop level = [] := by
        rw [hlevel, List.drop_of_length_le (by rw [path_length])]
      have hquad : quad (.node true (n + 1) (r + p0.r.val) (g + p0.g.val) (b + p0.b.val)
          (a + p0.a.val) cs) = p0.bytes := by
        have e1 : r + p0.r.val = (n + 1) * p0.r.val := by rw [hr]; ring
        have e2 : g + p0.g.val = (n + 1) * p0.g.val := by rw [hg]; ring
        have e3 : b + p0.b.val = (n + 1) * p0.b.val := by rw [hb]; ring
        have e4 : a + p0.a.val = (n + 1) * p0.a.val := by rw [ha]; ring
        simp only [quad, octnode.sumRed_node, octnode.sumGreen_node, octnode.sumBlue_node,
          octnode.sumAlpha_node, octnode.count_node, e1, e2, e3, e4,
          channel_exact _ _ (Nat.succ_le_succ (Nat.zero_le n)), Pixel.bytes]
      refine ⟨?_, ?_, ?_, ?_⟩
      · intro q
        cases q with
        | nil =>
          intro _
          refine ⟨p0, by simpa using hp0, ?_, ?_, ?_, ?_⟩ <;>
            simp only [octnode.find_nil, octnode.sumRed_node, octnode.sumGreen_node,
              octnode.sumBlue_node, octnode.sumAlpha_node, octnode.count_node, hr, hg, hb, ha] <;>
            ring
        | cons j q => exact hex (j :: q)
      · intro q
        rw [hdrop]
        cases q with
        | nil => simp [held]
        | cons j q => simp [held]
      · intro hheld
        rw [hdrop] at hheld
        have hn : 1 ≤ n := hheld.2
        have hquad0 : quad (.node true n r g b a cs) = p0.bytes := by
          simp only [quad, octnode.sumRed_node, octnode.sumGreen_node, octnode.sumBlue_node,
            octnode.sumAlpha_node, octnode.count_node, hr, hg, hb, ha,
            channel_exact _ _ hn, Pixel.bytes]
        simp [colors_of, leaf_colors, hn, hquad, hquad0]
      · intro hheld
        rw [hdrop] at hheld
        have hn : ¬ 1 ≤ n := fun hn => hheld ⟨rfl, hn⟩
        simp [colors_of, leaf_colors, hn, hquad]
    · -- below a node that is not a leaf
      have hf0 : fuel0 = fuel := by omega
      subst hf0
      have h16 : cs.length = 16 := hw [] rfl
      have hidx : child_index pixel level < cs.length := by
        rw [h16]; exact child_index_lt pixel level hl
      generalize hi : child_index pixel level = idx at hidx hrec
      have hself1 : self ++ [idx] = (path pixel).take (level + 1) := by
        rw [path_take pixel level hl, ← hself, hi]
      have hex1 : ∀ q, exact_at (self ++ [idx] ++ q)
          ((ensure_child tree cs idx level self).2.find q) := by
        intro q
        rw [ensure_child_node]
        cases hc : cs.getD idx .null with
        | null =>
          simp only [octnode.isNull_null, if_true]
          cases q with
          | nil =>
            intro hleaf
            have h8 : BIT_DEPTH = level + 1 := by
              by_contra hne
              simp [fresh_node, hne] at hleaf
            refine ⟨pixel, ?_, ?_, ?_, ?_, ?_⟩
            · rw [List.append_nil, hself1, ← h8, List.take_of_length_le (by rw [path_length])]
            all_goals simp [fresh_node]
          | cons j q =>
            rw [find_fresh_node]
            intro hleaf
            simp at hleaf
        | node l2 n2 r2 g2 b2 a2 cs2 =>
          simp only [octnode.isNull_node, Bool.false_eq_true, if_false]
          have := hex (idx :: q)
          rw [octnode.find_cons, hc] at this
          rw [List.append_assoc]
          exact this
      obtain ⟨hA, hB, hC, hD⟩ := ih _ _ _ _ _ _ _ (wide_ensure_child hw idx level self) hself1
        (by omega) hex1 hrec
      have hdrop := path_drop pixel level hl
      rw [hi] at hdrop
      refine ⟨?_, ?_, ?_, ?_⟩
      · intro q
        cases q with
        | nil => intro hleaf; simp at hleaf
        | cons j q =>
          rw [octnode.find_cons]
          by_cases hj : idx = j
          · subst hj
            rw [getD_set_self _ _ _ _ hidx]
            have := hA q
            rw [List.append_assoc] at this
            exact this
          · rw [getD_set_other _ _ _ _ _ hj]
            have := hex (j :: q)
            rw [octnode.find_cons] at this
            exact this
      · intro q
        rw [hdrop]
        cases q with
        | nil => simp [held]
        | cons j q =>
          rw [held_cons, held_cons]
          by_cases hj : idx = j
          · subst hj
            rw [getD_set_self _ _ _ _ hidx, hB q, held_ensure_child]
            simp
          · rw [getD_set_other _ _ _ _ _ hj]
            constructor
            · exact fun h => Or.inl h
            · rintro (h | h)
              · exact h
              · exact absurd (List.cons.inj h).1.symm hj
      · intro hheld
        rw [hdrop, held_cons, ← held_ensure_child tree cs idx level self] at hheld
        rw [colors_of_internal_set _ _ _ _ _ _ _ _ hidx, colors_of_internal _ _ _ _ _ _ _ hidx,
          hC hheld, colors_of_ensure_child]
      · intro hheld
        rw [hdrop, held_cons, ← held_ensure_child tree cs idx level self] at hheld
        rw [colors_of_internal_set _ _ _ _ _ _ _ _ hidx, colors_of_internal _ _ _ _ _ _ _ hidx]
        have := hD hheld
        rw [colors_of_ensure_child] at this
        refine ((List.Perm.append_left _ this).append_right _).trans ?_
        simp only [List.append_assoc, List.cons_append]
        exact List.perm_middle

theorem leaf_colors_of_populated {leaves : List octnode} (h : ∀ m ∈ leaves, 1 ≤ m.count) :
    leaf_colors leaves = leaves.map quad := by
  unfold leaf_colors
  rw [List.filter_eq_self.2 (fun m hm => by simpa using h m hm)]

theorem holds_create : holds octree_create [] := by
  refine ⟨create_consistent, create_unpopulated, fun h => absurd rfl h, ?_, ?_, ?_⟩
  · intro q
    rw [create_root]
    cases q with
    | nil => intro h; simp [fresh_node] at h
    | cons j q => rw [find_fresh_node]; intro h; simp at h
  · intro p
    rw [create_root]
    simp only [List.not_mem_nil, iff_false]
    exact not_held_fresh _ _
  · rw [create_root, colors_of_fresh]
    exact List.Perm.nil

theorem holds_add_pixel {tree : octree} {done : List Pixel} (h : holds tree done)
    (pixel : Pixel) :
    ∃ tree1, octree_add_pixel tree pixel = .ok tree1 ∧ holds tree1 (pixel :: done) := by
  obtain ⟨tree1, hrun, hc1, hp1, _⟩ := add_pixel_spec h.wf h.below pixel
  refine ⟨tree1, hrun, ?_⟩
  unfold octree_add_pixel at hrun
  cases hrec : octree_add_pixel_to_node (BIT_DEPTH + 1) tree tree.root [] 0 pixel with
  | error e => rw [hrec] at hrun; simp at hrun
  | ok p =>
    obtain ⟨t2, r2⟩ := p
    rw [hrec] at hrun
    simp only [Except.ok.injEq] at hrun
    subst hrun
    obtain ⟨hA, hB, hC, hD⟩ := add_pixel_to_node_exact _ _ _ _ _ _ _ _ (consistent_wide h.wf)
      (by simp) (by decide) (fun q => by simpa using h.sums q) hrec
    simp only [List.drop_zero] at hB hC hD
    refine ⟨hc1, fun j q => hp1 (j :: q), fun _ => hp1, fun q => by simpa using hA q, ?_, ?_⟩
    · intro p
      show held r2 (path p) ↔ _
      rw [hB, h.present, List.mem_cons]
      constructor
      · rintro (h1 | h1)
        · exact Or.inr h1
        · exact Or.inl (path_injective h1)
      · rintro (h1 | h1)
        · exact Or.inr (by rw [h1])
        · exact Or.inl h1
    · show (colors_of r2).Perm _
      by_cases hm : pixel ∈ done
      · rw [List.dedup_cons_of_mem hm, hC ((h.present pixel).2 hm)]
        exact h.colours
      · rw [List.dedup_cons_of_not_mem hm, List.map_cons]
        exact (hD (fun hh => hm ((h.present pixel).1 hh))).trans (List.Perm.cons _ h.colours)

theorem holds_add_pixels (pixels : List Pixel) :
    ∀ {tree : octree} {done : List Pixel}, holds tree done →
      ∃ tree1, add_pixels tree pixels = .ok tree1 ∧ holds tree1 (pixels.reverse ++ done) := by
  induction pixels with
  | nil => intro tree done h; exact ⟨tree, rfl, by simpa using h⟩
  | cons p ps ih =>
    intro tree done h
    obtain ⟨t1, hrun, h1⟩ := holds_add_pixel h p
    obtain ⟨t2, hrun2, h2⟩ := ih h1
    refine ⟨t2, by simp [add_pixels, hrun, hrun2], ?_⟩
    simpa using h2

/-- The tree built from a buffer before any reduction: there is one leaf for
each distinct pixel and its colour is that pixel. -/
theorem insertion_tree (pixels : List Pixel) :
    ∃ tree, add_pixels octree_create pixels = .ok tree ∧ consistent tree ∧
      (∀ m ∈ octree_get_leaf_nodes tree.root, m.isNull = false ∧ 1 ≤ m.count) ∧
      ((octree_get_leaf_nodes tree.root).map quad).Perm (pixels.dedup.map Pixel.bytes) ∧
      tree.numLeaves = pixels.dedup.length := by
  obtain ⟨tree, hrun, h⟩ := holds_add_pixels pixels holds_create
  rw [List.append_nil] at h
  have hleaves : ∀ m ∈ octree_get_leaf_nodes tree.root, m.isNull = false ∧ 1 ≤ m.count := by
    cases pixels with
    | nil =>
      simp only [add_pixels, Except.ok.injEq] at hrun
      subst hrun
      rw [get_leaf_nodes_create]
      intro m hm; cases hm
    | cons p ps => exact populated_leaves (h.pop (by simp))
  have hperm : ((octree_get_leaf_nodes tree.root).map quad).Perm
      (pixels.dedup.map Pixel.bytes) := by
    rw [← leaf_colors_of_populated (fun m hm => (hleaves m hm).2)]
    exact h.colours.trans ((List.reverse_perm pixels).dedup.map _)
  refine ⟨tree, hrun, h.wf, hleaves, hperm, ?_⟩
  rw [← consistent_leaves h.wf]
  have := hperm.length_eq
  simpa using this

theorem split_quads_quads (leaves : List octnode) :
    split_quads (quads leaves) = leaves.map quad := by
  induction leaves with
  | nil => rfl
  | cons l ls ih => simp [quads, quad, split_quads, ih]

theorem dedup_replicate (n : Nat) (c : Pixel) (h : 1 ≤ n) : (List.replicate n c).dedup = [c] := by
  induction n with
  | zero => omega
  | succ n ih =>
    cases n with
    | zero => rfl
    | succ n =>
      rw [List.replicate_succ, List.dedup_cons_of_mem (by simp), ih (by omega)]

/-! ## The size of the counters

The totals of a tree built from a buffer stay within the number of pixels (the
counts) and 255 times that number (the sums), so none of them reaches `2^64`
for a buffer of fewer than `2^56` pixels. -/

theorem weight_le (t : tally) (p : Pixel) : t.weight p ≤ 255 := by
  have h1 := p.r.isLt
  have h2 := p.g.isLt
  have h3 := p.b.isLt
  have h4 := p.a.isLt
  cases t <;> simp only [tally.weight] <;> omega

theorem sum_weight_le (t : tally) (pixels : List Pixel) :
    (pixels.map t.weight).sum ≤ 255 * pixels.length := by
  induction pixels with
  | nil => simp
  | cons p ps ih =>
    have := weight_le t p
    rw [List.map_cons, List.sum_cons, List.length_cons]
    omega

/-- No total of a node exceeds the total of the leaves of the tree. -/
theorem tally_le_leaf_total {tree : octree} (hc : consistent tree) (t : tally) (q : Ref) :
    t.of (tree.root.find q) ≤ leaf_total t tree.root := by
  cases hn : (tree.root.find q).isNull with
  | true =>
    cases hf : tree.root.find q with
    | null => rw [tally_of_null]; exact Nat.zero_le _
    | node => rw [hf] at hn; cases hn
  | false =>
    rcases octnode.leaf_or_internal hn with hl | hi
    · obtain ⟨A, B, h1, _⟩ := get_leaf_nodes_replace .null hn (proper_prefix_not_leaf hc hn)
      have hmem : tree.root.find q ∈ octree_get_leaf_nodes tree.root := by
        rw [h1]
        cases hf : tree.root.find q with
        | null => rw [hf] at hn; cases hn
        | node l n r g b a cs =>
          rw [hf] at hl
          simp only [octnode.leaf_node] at hl
          subst hl
          simp
      exact le_total t.of hmem
    · have := (node_ok_internal (hc.nodes_ok q) hi).2.2.2
      rw [this]
      cases t <;> exact Nat.zero_le _

theorem length_le_total (f : octnode → Nat) (nodes : List octnode) (h : ∀ m ∈ nodes, 1 ≤ f m) :
    nodes.length ≤ total f nodes := by
  induction nodes with
  | nil => exact Nat.le_refl _
  | cons m ms ih =>
    have h1 := h m (List.mem_cons_self _ _)
    have h2 := ih (fun m hm => h m (List.mem_cons_of_mem _ hm))
    rw [total_cons, List.length_cons]
    omega

/-- In the tree built from a buffer and reduced any number of times, every
count is at most the number of pixels, every channel sum at most 255 times that
number, and `numLeaves` at most the number of pixels when there is a pixel. -/
theorem totals_bounded (pixels : List Pixel) (k : Nat) :
    ∃ tree0 tree, add_pixels octree_create pixels = .ok tree0 ∧
      reduce_times k tree0 = .ok tree ∧
      (∀ q, (tree.root.find q).count ≤ pixels.length) ∧
      (∀ (t : tally) q, t.of (tree.root.find q) ≤ 255 * pixels.length) ∧
      (pixels ≠ [] → tree.numLeaves ≤ pixels.length) := by
  obtain ⟨tree0, hadd, hc0, hpop0, hpx0⟩ :=
    add_pixels_spec pixels create_consistent create_unpopulated
  obtain ⟨tree, hred, hc, hpx, hpop⟩ := reduce_times_spec k hc0
  have htot : ∀ t : tally, leaf_total t tree.root = (pixels.map t.weight).sum := by
    intro t
    rw [hpx t, hpx0 t, leaf_total_create, Nat.zero_add]
  refine ⟨tree0, tree, hadd, hred, ?_, ?_, ?_⟩
  · intro q
    have := tally_le_leaf_total hc .pixels q
    rw [htot, sum_weight_pixels] at this
    exact this
  · intro t q
    have := tally_le_leaf_total hc t q
    rw [htot] at this
    exact Nat.le_trans this (sum_weight_le t pixels)
  · intro hne
    have hl := populated_leaves (hpop (hpop0 hne))
    have := length_le_total octnode.count _ (fun m hm => (hl m hm).2)
    rw [consistent_leaves hc] at this
    have h2 : leaf_total .pixels tree.root = pixels.length := by
      rw [htot, sum_weight_pixels]
    exact Nat.le_trans this (Nat.le_of_eq h2)

/-- The bytes of the output buffer after the colours `get_palette` reports are
the bytes that were there before the call. -/
theorem get_palette_tail (pixels : List Pixel) (colors : List uint8_t) (numColors : Nat)
    (h8 : 8 ≤ numColors) (hbuf : numColors * 4 ≤ colors.length) :
    ∃ out count, get_palette pixels colors numColors = .ok (out, count) ∧
      out.length = colors.length ∧ out.drop (count * 4) = colors.drop (count * 4) := by
  obtain ⟨tree0, tree, _, _, _, hc, _, hle, _, _, _, _, hrun⟩ :=
    get_palette_spec pixels colors numColors h8 hbuf
  have hlen : (quads (octree_get_leaf_nodes tree.root)).length = tree.numLeaves * 4 := by
    rw [quads_length, consistent_leaves hc]
  refine ⟨_, _, hrun, ?_, ?_⟩
  · rw [List.length_append, hlen, List.length_drop]
    omega
  · rw [List.drop_append_eq_append_drop, List.drop_of_length_le (by rw [hlen]), hlen,
      Nat.sub_self, List.drop_zero, List.nil_append]

/-- On a reachable tree neither `octree_add_pixel` nor `octree_reduce` runs into
a fault, and the trees they return are reachable. -/
theorem reachable_progress {tree : octree} (h : reachable tree) :
    (∀ pixel, ∃ tree1, octree_add_pixel tree pixel = .ok tree1 ∧ reachable tree1) ∧
      ∃ tree1, octree_reduce tree = .ok tree1 ∧ reachable tree1 := by
  have hc := reachable_consistent h
  constructor
  · intro pixel
    obtain ⟨t, ht, _⟩ := add_pixel_consistent hc pixel
    exact ⟨t, ht, reachable.add_pixel pixel h ht⟩
  · obtain ⟨t, ht, _⟩ := reduce_consistent hc
    exact ⟨t, ht, reachable.reduce h ht⟩

/-- When no node is queued `octree_reduce` returns the tree as it is, so a
reduction loop that has used up the queued nodes makes no further progress. -/
theorem reduce_idle (tree : octree) (h : queued tree = 0) : octree_reduce tree = .ok tree := by
  have hz := queued_zero h
  have : ∀ k, octree_reduce_from k tree = .ok tree := by
    intro k
    induction k with
    | zero => rfl
    | succ k ih => rw [octree_reduce_from, hz k]; exact ih
  exact this BIT_DEPTH

theorem add_pixels_reachable (pixels : List Pixel) :
    ∀ {tree tree1 : octree}, reachable tree → add_pixels tree pixels = .ok tree1 →
      reachable tree1 := by
  induction pixels with
  | nil =>
    intro tree tree1 hr h
    simp only [add_pixels, Except.ok.injEq] at h
    rw [← h]; exact hr
  | cons p ps ih =>
    intro tree tree1 hr h
    unfold add_pixels at h
    split at h
    · simp at h
    · rename_i t hrun
      exact ih (add_pixel_reachable hr hrun) h

theorem reduce_times_reachable (k : Nat) :
    ∀ {tree tree1 : octree}, reachable tree → reduce_times k tree = .ok tree1 →
      reachable tree1 := by
  induction k with
  | zero =>
    intro tree tree1 hr h
    simp only [reduce_times, Except.ok.injEq] at h
    rw [← h]; exact hr
  | succ k ih =>
    intro tree tree1 hr h
    unfold reduce_times at h
    split at h
    · simp at h
    · rename_i t hrun
      exact ih (reachable.reduce hr hrun) h

/-- Inserting the pixels of a buffer into a fresh tree and calling
`octree_reduce` any number of times succeeds and gives a reachable tree. -/
theorem built_reachable (pixels : List Pixel) (k : Nat) :
    ∃ tree0 tree, add_pixels octree_create pixels = .ok tree0 ∧
      reduce_times k tree0 = .ok tree ∧ reachable tree0 ∧ reachable tree := by
  obtain ⟨tree0, hadd, hc0, _, _⟩ := add_pixels_spec pixels create_consistent create_unpopulated
  obtain ⟨tree, hrun, _, _, _⟩ := reduce_times_spec k hc0
  have hr0 := add_pixels_reachable pixels reachable.create hadd
  exact ⟨tree0, tree, hadd, hrun, hr0, reduce_times_reachable k hr0 hrun⟩

theorem reduce_while_reachable (fuel : Nat) :
    ∀ {tree tree1 : octree} {bound : Nat}, reachable tree →
      reduce_while fuel tree bound = .ok tree1 → reachable tree1 := by
  induction fuel with
  | zero =>
    intro tree tree1 bound hr h
    unfold reduce_while at h
    split at h
    · simp only [Except.ok.injEq] at h
      rw [← h]; exact hr
    · simp at h
  | succ fuel ih =>
    intro tree tree1 bound hr h
    unfold reduce_while at h
    split at h
    · simp only [Except.ok.injEq] at h
      rw [← h]; exact hr
    · simp only at h
      split at h
      · simp at h
      · rename_i t hrun
        exact ih (reachable.reduce hr hrun) h

/-! ## The claims -/

/-- C1: for a request of at least eight colours and an output buffer with room
for them, `get_palette` returns and sets `*numColors` to a count that is at most
the count requested, and at least one when the pixel buffer is not empty. -/
theorem get_palette_count_bounds (pixels : List Pixel) (colors : List uint8_t)
    (numColors : Nat) (h8 : 8 ≤ numColors) (hbuf : numColors * 4 ≤ colors.length) :
    ∃ out count, get_palette pixels colors numColors = .ok (out, count) ∧
      count ≤ numColors ∧ (1 ≤ pixels.length → 1 ≤ count) := by
  obtain ⟨tree0, tree, _, _, _, _, _, hle, hpos, _, _, _, hrun⟩ :=
    get_palette_spec pixels colors numColors h8 hbuf
  refine ⟨_, _, hrun, hle, fun h => hpos ?_⟩
  intro he
  rw [he] at h
  simp at h

theorem get_palette_count_bounds_witness :
    8 ≤ 8 ∧ 8 * 4 ≤ (List.replicate 32 (0 : uint8_t)).length ∧
      ∃ out count, get_palette twenty_colours (List.replicate 32 0) 8 = .ok (out, count) ∧
        count ≤ 8 ∧ (1 ≤ twenty_colours.length → 1 ≤ count) :=
  ⟨by decide, by decide, get_palette_count_bounds twenty_colours _ 8 (by decide) (by decide)⟩

/-- C2: after the pixels of a buffer have been inserted into a fresh tree and
`octree_reduce` has been called any number `k` of times, the counts of the
leaves that `octree_get_leaf_nodes` collects add up to the number of pixels. -/
theorem leaf_pixels_conserved (pixels : List Pixel) (k : Nat) :
    ∃ tree0 tree, add_pixels octree_create pixels = .ok tree0 ∧
      reduce_times k tree0 = .ok tree ∧
      ((octree_get_leaf_nodes tree.root).map octnode.count).sum = pixels.length := by
  obtain ⟨tree0, hadd, hc0, _, hpx0⟩ :=
    add_pixels_spec pixels create_consistent create_unpopulated
  obtain ⟨tree, hred, _, hpx, _⟩ := reduce_times_spec k hc0
  refine ⟨tree0, tree, hadd, hred, ?_⟩
  have : leaf_total .pixels tree.root = pixels.length := by
    rw [hpx, hpx0, leaf_total_create, Nat.zero_add]
    exact sum_weight_pixels pixels
  exact this

/-- C3, at the buffer of one pixel `(10, 20, 30, 255)` with eight colours
requested and an output buffer of 32 bytes `0xFF`: `get_palette` reports one
colour and leaves the seven quads after it at `0xFF`. -/
theorem get_palette_tail_not_zeroed :
    get_palette [⟨10, 20, 30, 255⟩] (List.replicate 32 255) 8 =
      .ok ([10, 20, 30, 255] ++ List.replicate 28 255, 1) := by
  decide

/-- C4: with fewer than eight colours requested `get_palette` returns at once:
the output buffer and `*numColors` are what they were. -/
theorem get_palette_below_eight (pixels : List Pixel) (colors : List uint8_t)
    (numColors : Nat) (h : numColors < 8) :
    get_palette pixels colors numColors = .ok (colors, numColors) := by
  simp [get_palette, h]

theorem get_palette_below_eight_witness :
    7 < 8 ∧ get_palette [⟨10, 20, 30, 255⟩, ⟨1, 2, 3, 4⟩] (List.replicate 28 9) 7 =
      .ok (List.replicate 28 9, 7) :=
  ⟨by decide, get_palette_below_eight _ _ 7 (by decide)⟩

/-- C5: when the pixels of the buffer take `k` distinct values and `k` is at
most the number of colours requested (at least eight, with room for them in the
output buffer), the tree has `k` leaves after the insertions, the reduction
loop does not run, `get_palette` reports `k` colours, and the `k` quads it
writes are the distinct pixels of the buffer, each once. -/
theorem get_palette_few_colours (pixels : List Pixel) (colors : List uint8_t)
    (numColors : Nat) (h8 : 8 ≤ numColors) (hbuf : numColors * 4 ≤ colors.length)
    (hk : pixels.dedup.length ≤ numColors) :
    ∃ tree out, add_pixels octree_create pixels = .ok tree ∧
      tree.numLeaves = pixels.dedup.length ∧
      reduce_to tree numColors = .ok tree ∧
      get_palette pixels colors numColors = .ok (out, pixels.dedup.length) ∧
      (split_quads (out.take (pixels.dedup.length * 4))).Perm (pixels.dedup.map Pixel.bytes) := by
  obtain ⟨tree0, hadd, _, _, hperm, hn⟩ := insertion_tree pixels
  obtain ⟨tree0', tree, hadd', hred, hc0, _, hsame, _, _, _, _, _, hrun⟩ :=
    get_palette_spec pixels colors numColors h8 hbuf
  rw [hadd] at hadd'
  simp only [Except.ok.injEq] at hadd'
  subst hadd'
  have := hsame (by rw [hn]; exact hk)
  subst this
  refine ⟨tree, _, hadd, hn, hred, by rw [hrun, hn], ?_⟩
  have hlen : (quads (octree_get_leaf_nodes tree.root)).length = pixels.dedup.length * 4 := by
    rw [quads_length, consistent_leaves hc0, hn]
  rw [List.take_append_of_le_length (by rw [hlen]), List.take_of_length_le (by rw [hlen]),
    split_quads_quads]
  exact hperm

set_option maxRecDepth 100000 in
theorem get_palette_few_colours_witness :
    8 ≤ 8 ∧ 8 * 4 ≤ (List.replicate 32 (7 : uint8_t)).length ∧
    two_clusters.dedup.length ≤ 8 ∧
    ∃ tree out, add_pixels octree_create two_clusters = .ok tree ∧
      tree.numLeaves = two_clusters.dedup.length ∧
      reduce_to tree 8 = .ok tree ∧
      get_palette two_clusters (List.replicate 32 7) 8 =
        .ok (out, two_clusters.dedup.length) ∧
      (split_quads (out.take (two_clusters.dedup.length * 4))).Perm
        (two_clusters.dedup.map Pixel.bytes) :=
  ⟨by decide, by decide, by decide,
    get_palette_few_colours two_clusters _ 8 (by decide) (by decide) (by decide)⟩

theorem merge_qsort_perm (compare : octnode → octnode → Int) (nodes : List octnode) :
    (merge_qsort compare nodes).Perm nodes :=
  List.mergeSort_perm _ _

/-- C6: on a buffer of `n ≥ 1` copies of one pixel `c`, `get_palette` (asked for
at least eight colours, with room for them) reports one colour and writes `c`
as the first quad, and `get_dominant_color` returns `c`, whatever rearranging
routine stands for `qsort` and whatever the saturation comparator is. -/
theorem single_colour (qsort : (octnode → octnode → Int) → List octnode → List octnode)
    (compare_node_color : octnode → octnode → Int)
    (hqsort : ∀ compare nodes, (qsort compare nodes).Perm nodes)
    (c : Pixel) (n : Nat) (hn : 1 ≤ n) (colors : List uint8_t) (numColors : Nat)
    (h8 : 8 ≤ numColors) (hbuf : numColors * 4 ≤ colors.length) :
    get_palette (List.replicate n c) colors numColors = .ok (c.bytes ++ colors.drop 4, 1) ∧
      get_dominant_color qsort compare_node_color (List.replicate n c) = .ok c.bytes := by
  obtain ⟨tree0, hadd, hc0, hleaves, hperm, hnum⟩ := insertion_tree (List.replicate n c)
  rw [dedup_replicate n c hn] at hperm hnum
  simp only [List.map_cons, List.map_nil, List.length_singleton] at hperm hnum
  have hmap := List.perm_singleton.1 hperm
  obtain ⟨leaf, hl, hquad⟩ : ∃ leaf, octree_get_leaf_nodes tree0.root = [leaf] ∧
      quad leaf = c.bytes := by
    cases hg : octree_get_leaf_nodes tree0.root with
    | nil => rw [hg] at hmap; simp at hmap
    | cons l ls =>
      rw [hg] at hmap
      cases ls with
      | nil => exact ⟨l, rfl, by simpa using hmap⟩
      | cons l2 ls => simp at hmap
  constructor
  · obtain ⟨tree0', tree, hadd', _, _, _, hsame, _, _, _, _, _, hrun⟩ :=
      get_palette_spec (List.replicate n c) colors numColors h8 hbuf
    rw [hadd] at hadd'
    simp only [Except.ok.injEq] at hadd'
    subst hadd'
    have := hsame (by rw [hnum]; omega)
    subst this
    rw [hrun, hl, hnum]
    simp [quads, hquad]
  · obtain ⟨tree, hred, _, _, _, _, hsame⟩ := reduce_to_spec 16 hc0 (by decide)
    have := hsame (by rw [hnum]; decide)
    subst this
    have hs1 : qsort compare_node_size [leaf] = [leaf] := List.perm_singleton.1 (hqsort _ _)
    have hs0 : qsort compare_node_color [] = [] := List.perm_nil.1 (hqsort _ _)
    obtain ⟨h1, h2⟩ := hleaves leaf (by rw [hl]; exact List.mem_singleton_self _)
    unfold get_dominant_color
    simp only [hadd, hred, hl, hnum, List.length_singleton, Nat.lt_irrefl, if_false, hs1]
    simp [hs0, leaf_color_eq h1 h2, hquad]

theorem single_colour_witness :
    (∀ compare nodes, (merge_qsort compare nodes).Perm nodes) ∧ 1 ≤ 5 ∧ 8 ≤ 8 ∧
      8 * 4 ≤ (List.replicate 32 (0 : uint8_t)).length ∧
      get_palette (List.replicate 5 ⟨10, 20, 30, 255⟩) (List.replicate 32 0) 8 =
        .ok ((⟨10, 20, 30, 255⟩ : Pixel).bytes ++ (List.replicate 32 0).drop 4, 1) ∧
      get_dominant_color merge_qsort (fun _ _ => 0) (List.replicate 5 ⟨10, 20, 30, 255⟩) =
        .ok (⟨10, 20, 30, 255⟩ : Pixel).bytes :=
  ⟨merge_qsort_perm, by decide, by decide, by decide,
    single_colour merge_qsort (fun _ _ => 0) merge_qsort_perm ⟨10, 20, 30, 255⟩ 5 (by decide)
      (List.replicate 32 0) 8 (by decide) (by decide)⟩

/-- C7 fails: in the fresh tree the queue of level 0 holds the root, and
`octree_reduce` raises `numLeaves` from 0 to 1; in the tree that holds the one
pixel `(0, 0, 0, 0)` every level has a queued node, and `octree_reduce` leaves
`numLeaves` at 1. -/
theorem reduce_not_decreasing :
    (reachable octree_create ∧ octree_create.heads.getD 0 [] ≠ [] ∧
      octree_create.numLeaves = 0 ∧
      (octree_reduce octree_create).map octree.numLeaves = .ok 1) ∧
    (∃ tree, octree_add_pixel octree_create ⟨0, 0, 0, 0⟩ = .ok tree ∧ reachable tree ∧
      tree.heads.getD 7 [] ≠ [] ∧ tree.numLeaves = 1 ∧
      (octree_reduce tree).map octree.numLeaves = .ok 1) := by
  refine ⟨⟨reachable.create, by decide, rfl, by decide⟩, ?_⟩
  have h1 : (octree_add_pixel octree_create ⟨0, 0, 0, 0⟩).map
      (fun t => (t.heads.getD 7 [], t.numLeaves)) = .ok ([[0, 0, 0, 0, 0, 0, 0]], 1) := by
    decide
  have h2 : (octree_add_pixel octree_create ⟨0, 0, 0, 0⟩ >>= octree_reduce).map
      octree.numLeaves = .ok 1 := by decide
  cases h : octree_add_pixel octree_create ⟨0, 0, 0, 0⟩ with
  | error e => rw [h] at h1; simp [Except.map] at h1
  | ok tree =>
    have hr : reachable tree := reachable.add_pixel _ reachable.create h
    rw [h] at h1 h2
    simp only [Except.map, Except.ok.injEq, Prod.mk.injEq] at h1
    refine ⟨tree, rfl, hr, by rw [h1.1]; simp, h1.2, ?_⟩
    exact h2

theorem occupied_le_leaves {tree : octree} (hc : consistent tree) {i : Nat} {self : Ref}
    {next : List Ref} (hsel : tree.heads.getD i [] = self :: next)
    (habove : ∀ l, i < l → tree.heads.getD l [] = []) :
    occupied (tree.root.find self).kids ≤ tree.numLeaves := by
  have hmem : self ∈ tree.heads.getD i [] := by rw [hsel]; exact List.mem_cons_self _ _
  obtain ⟨hform, _, _, _, hkids⟩ := selected_children hc hmem habove
  have h2 : count_leaves (tree.root.find self) = occupied (tree.root.find self).kids := by
    conv_lhs => rw [hform]
    rw [count_leaves_node, count_leaves_children_occupied _ hkids]
    simp
  rw [← h2, hc.leaves_counted]
  exact count_leaves_find_le _ _

/-- C7 as amended: in a reachable tree with a queue that is not empty,
`octree_reduce` collapses the node at the head of the deepest such queue, and
`numLeaves` afterwards is `numLeaves` before plus one minus the number of
occupied child slots of that node; it is strictly smaller exactly when the node
has two or more children. -/
theorem reduce_leaf_count (tree : octree) (h : reachable tree)
    (hq : ∃ l, tree.heads.getD l [] ≠ []) :
    ∃ i self tree1, selected BIT_DEPTH tree = some (i, self) ∧
      octree_reduce tree = .ok tree1 ∧
      tree1.numLeaves + occupied (tree.root.find self).kids = tree.numLeaves + 1 ∧
      (tree1.numLeaves < tree.numLeaves ↔ 2 ≤ occupied (tree.root.find self).kids) := by
  have hc := reachable_consistent h
  cases hs : selected BIT_DEPTH tree with
  | none =>
    obtain ⟨l, hl⟩ := hq
    exact absurd (selected_none hs (heads_beyond hc.heads_length) l) hl
  | some p =>
    obtain ⟨i, self⟩ := p
    obtain ⟨_, ⟨next, hsel⟩, habove⟩ := selected_some hs (heads_beyond hc.heads_length)
    have hle := occupied_le_leaves hc hsel habove
    have hrun := reduce_eq hc
    rw [hs] at hrun
    refine ⟨i, self, _, rfl, hrun, ?_, ?_⟩
    · show tree.numLeaves - occupied (tree.root.find self).kids + 1 +
        occupied (tree.root.find self).kids = tree.numLeaves + 1
      omega
    · show tree.numLeaves - occupied (tree.root.find self).kids + 1 < tree.numLeaves ↔ _
      omega

set_option maxRecDepth 100000 in
theorem reduce_leaf_count_witness :
    (reachable octree_create ∧ (∃ l, octree_create.heads.getD l [] ≠ []) ∧
      ∃ i self tree1, selected BIT_DEPTH octree_create = some (i, self) ∧
        octree_reduce octree_create = .ok tree1 ∧
        tree1.numLeaves + occupied (octree_create.root.find self).kids =
          octree_create.numLeaves + 1 ∧
        (tree1.numLeaves < octree_create.numLeaves ↔
          2 ≤ occupied (octree_create.root.find self).kids)) ∧
      ∃ tree, add_pixels octree_create [⟨0, 0, 0, 0⟩, ⟨0, 0, 0, 1⟩, ⟨0, 0, 0, 0⟩] = .ok tree ∧
        reachable tree ∧ (∃ l, tree.heads.getD l [] ≠ []) ∧ tree.numLeaves = 2 ∧
        ∃ i self tree1, selected BIT_DEPTH tree = some (i, self) ∧
          octree_reduce tree = .ok tree1 ∧ occupied (tree.root.find self).kids = 2 ∧
          tree1.numLeaves = 1 ∧
          tree1.numLeaves + occupied (tree.root.find self).kids = tree.numLeaves + 1 ∧
          (tree1.numLeaves < tree.numLeaves ↔ 2 ≤ occupied (tree.root.find self).kids) := by
  refine ⟨⟨reachable.create, ⟨0, by decide⟩,
    reduce_leaf_count octree_create reachable.create ⟨0, by decide⟩⟩, ?_⟩
  obtain ⟨tree, _, hadd, _, hreach, _⟩ :=
    built_reachable [⟨0, 0, 0, 0⟩, ⟨0, 0, 0, 1⟩, ⟨0, 0, 0, 0⟩] 0
  have hd : (match add_pixels octree_create [⟨0, 0, 0, 0⟩, ⟨0, 0, 0, 1⟩, ⟨0, 0, 0, 0⟩] with
      | .ok t => decide (t.heads.getD 7 [] ≠ [] ∧ t.numLeaves = 2 ∧
          (selected BIT_DEPTH t).map (fun s => occupied (t.root.find s.2).kids) = some 2)
      | .error _ => false) = true := by decide
  rw [hadd] at hd
  simp only [decide_eq_true_eq] at hd
  obtain ⟨h7, h2, hocc⟩ := hd
  obtain ⟨i, self, tree1, hs, hrun, hsum, hiff⟩ := reduce_leaf_count tree hreach ⟨7, h7⟩
  rw [hs] at hocc
  simp only [Option.map_some', Option.some.injEq] at hocc
  exact ⟨tree, hadd, hreach, ⟨7, h7⟩, h2, i, self, tree1, hs, hrun, hocc, by omega, hsum, hiff⟩

/-- C8: in every tree that `octree_create`, `octree_add_pixel` and
`octree_reduce` can produce, `numLeaves` is the number of nodes below the root
with `isLeaf` set, and `octree_get_leaf_nodes` collects exactly `numLeaves`
nodes, each of them a leaf. -/
theorem leaf_count_invariant (tree : octree) (h : reachable tree) :
    tree.numLeaves = count_leaves tree.root ∧
      (octree_get_leaf_nodes tree.root).length = tree.numLeaves ∧
      ∀ m ∈ octree_get_leaf_nodes tree.root, m.leaf = true := by
  have hc := reachable_consistent h
  exact ⟨hc.leaves_counted, consistent_leaves hc,
    fun m hm => (get_leaf_nodes_leaf_at tree.root m hm).1⟩

set_option maxRecDepth 100000 in
theorem leaf_count_invariant_witness :
    (∃ tree0 tree,
      add_pixels octree_create [⟨0, 0, 0, 0⟩, ⟨0, 0, 0, 1⟩, ⟨0, 0, 0, 0⟩] = .ok tree0 ∧
      octree_reduce tree0 = .ok tree ∧ reachable tree ∧
      tree0.numLeaves = 2 ∧ tree.numLeaves = 1 ∧ count_leaves tree.root = 1 ∧
      (octree_get_leaf_nodes tree.root).length = 1 ∧
      ∀ m ∈ octree_get_leaf_nodes tree.root, m.leaf = true) ∧
    ∃ tree0 tree, add_pixels octree_create twenty_colours = .ok tree0 ∧
      reduce_to tree0 8 = .ok tree ∧ reachable tree ∧
      tree0.numLeaves = 20 ∧ 1 ≤ tree.numLeaves ∧ tree.numLeaves ≤ 8 ∧
      tree.numLeaves = count_leaves tree.root ∧
      (octree_get_leaf_nodes tree.root).length = tree.numLeaves ∧
      ∀ m ∈ octree_get_leaf_nodes tree.root, m.leaf = true := by
  constructor
  · obtain ⟨tree0, _, hadd, _, hreach0, _⟩ :=
      built_reachable [⟨0, 0, 0, 0⟩, ⟨0, 0, 0, 1⟩, ⟨0, 0, 0, 0⟩] 0
    have hd : (match add_pixels octree_create [⟨0, 0, 0, 0⟩, ⟨0, 0, 0, 1⟩, ⟨0, 0, 0, 0⟩] with
        | .ok t => decide (t.numLeaves = 2 ∧
            (selected BIT_DEPTH t).map (fun s => occupied (t.root.find s.2).kids) = some 2)
        | .error _ => false) = true := by decide
    rw [hadd] at hd
    simp only [decide_eq_true_eq] at hd
    obtain ⟨h2, hocc⟩ := hd
    have hrun := reduce_eq (reachable_consistent hreach0)
    cases hs : selected BIT_DEPTH tree0 with
    | none => rw [hs] at hocc; simp at hocc
    | some sel =>
      obtain ⟨i, self⟩ := sel
      rw [hs] at hocc hrun
      simp only [Option.map_some', Option.some.injEq] at hocc
      have hnum : (collapse tree0 i self).numLeaves = 1 := by
        show tree0.numLeaves - occupied (tree0.root.find self).kids + 1 = 1
        omega
      obtain ⟨h3, h4, h5⟩ :=
        leaf_count_invariant (collapse tree0 i self) (reachable.reduce hreach0 hrun)
      exact ⟨tree0, _, hadd, hrun, reachable.reduce hreach0 hrun, h2, hnum,
        by rw [← h3, hnum], by rw [h4, hnum], h5⟩
  · obtain ⟨tree0, tree, hadd, hred, _, _, _, hle, hone, _, _, _, _⟩ :=
      get_palette_spec twenty_colours (List.replicate 32 0) 8 (by decide) (by decide)
    obtain ⟨t0, hadd1, _, _, _, hnum⟩ := insertion_tree twenty_colours
    have e0 : t0 = tree0 := by
      rw [hadd] at hadd1
      simp only [Except.ok.injEq] at hadd1
      exact hadd1.symm
    subst e0
    have h20 : twenty_colours.dedup.length = 20 := by decide
    have hreach : reachable tree :=
      reduce_while_reachable _ (add_pixels_reachable _ reachable.create hadd) hred
    obtain ⟨h3, h4, h5⟩ := leaf_count_invariant tree hreach
    exact ⟨t0, tree, hadd, hred, hreach, by rw [hnum, h20], hone (by decide), hle, h3, h4, h5⟩

/-- C9, at the empty buffer: `get_dominant_color` builds a tree without leaves
and then reads `leaves[0]` from an array of no elements, whatever rearranging
routine stands for `qsort`. -/
theorem get_dominant_color_empty
    (qsort : (octnode → octnode → Int) → List octnode → List octnode)
    (compare_node_color : octnode → octnode → Int)
    (hqsort : ∀ compare nodes, (qsort compare nodes).Perm nodes) :
    get_dominant_color qsort compare_node_color [] = .error .out_of_bounds := by
  have hred : reduce_to octree_create 16 = .ok octree_create := by
    simp [reduce_to, reduce_while, create_numLeaves]
  have hs1 : qsort compare_node_size [] = [] := List.perm_nil.1 (hqsort _ _)
  have hs0 : qsort compare_node_color [] = [] := List.perm_nil.1 (hqsort _ _)
  unfold get_dominant_color
  simp only [add_pixels, hred, get_leaf_nodes_create, create_numLeaves, List.length_nil,
    Nat.lt_irrefl, if_false, hs1]
  simp [hs0]

theorem get_dominant_color_empty_witness :
    (∀ compare nodes, (merge_qsort compare nodes).Perm nodes) ∧
      get_dominant_color merge_qsort (fun _ _ => 0) [] = .error .out_of_bounds :=
  ⟨merge_qsort_perm, get_dominant_color_empty merge_qsort (fun _ _ => 0) merge_qsort_perm⟩

/-- C10: on the empty buffer, with at least eight colours requested,
`get_palette` builds a tree without leaves, does not reduce it, divides for no
leaf, reports zero colours and leaves the output buffer as it was. -/
theorem get_palette_empty (colors : List uint8_t) (numColors : Nat) (h8 : 8 ≤ numColors) :
    add_pixels octree_create [] = .ok octree_create ∧
      reduce_to octree_create numColors = .ok octree_create ∧
      octree_get_leaf_nodes octree_create.root = [] ∧
      get_palette [] colors numColors = .ok (colors, 0) := by
  have hred : reduce_to octree_create numColors = .ok octree_create := by
    simp [reduce_to, reduce_while, create_numLeaves]
  refine ⟨rfl, hred, get_leaf_nodes_create, ?_⟩
  have hnot : ¬ numColors < 8 := by omega
  unfold get_palette
  simp only [hnot, if_false, add_pixels, hred, create_numLeaves]
  simp [store, octree_get_colors, get_leaf_nodes_create, write_colors]

theorem get_palette_empty_witness :
    8 ≤ 8 ∧ add_pixels octree_create [] = .ok octree_create ∧
      reduce_to octree_create 8 = .ok octree_create ∧
      octree_get_leaf_nodes octree_create.root = [] ∧
      get_palette [] (List.replicate 32 9) 8 = .ok (List.replicate 32 9, 0) :=
  ⟨by decide, get_palette_empty (List.replicate 32 9) 8 (by decide)⟩

/-! ## The level queues are stacks -/

theorem ensure_child_pushes (tree : octree) (cs : List octnode) (index level : Nat) (self : Ref)
    (l : Nat) :
    ∃ new, (ensure_child tree cs index level self).1.heads.getD l [] =
      new ++ tree.heads.getD l [] := by
  unfold ensure_child octree_create_node
  split
  · split
    · exact ⟨[], rfl⟩
    · by_cases hl : level + 1 = l
      · subst hl
        by_cases hlen : level + 1 < tree.heads.length
        · exact ⟨[self ++ [index]], by rw [getD_set_self _ _ _ _ hlen]; rfl⟩
        · exact ⟨[], by rw [List.set_eq_of_length_le (by omega)]; rfl⟩
      · exact ⟨[], by rw [getD_set_other _ _ _ _ _ hl]; rfl⟩
  · exact ⟨[], rfl⟩

/-- An insertion only pushes onto the level queues: each queue afterwards is
the queue before with the references of the new nodes in front of it. -/
theorem add_pixel_to_node_pushes (fuel : Nat) :
    ∀ (tree : octree) (node : octnode) (self : Ref) (level : Nat) (pixel : Pixel)
      (tree1 : octree) (node1 : octnode),
      octree_add_pixel_to_node fuel tree node self level pixel = .ok (tree1, node1) →
      ∀ l, ∃ new, tree1.heads.getD l [] = new ++ tree.heads.getD l [] := by
  induction fuel with
  | zero =>
    intro tree node self level pixel tree1 node1 h
    simp [octree_add_pixel_to_node] at h
  | succ fuel ih =>
    intro tree node self level pixel tree1 node1 h l
    rcases add_pixel_to_node_cases h with
      ⟨n, r, g, b, a, cs, _, h1, _⟩ | ⟨fuel0, n, r, g, b, a, cs, child1, hf, _, _, _, hrec⟩
    · subst h1
      exact ⟨[], rfl⟩
    · have hf0 : fuel0 = fuel := by omega
      subst hf0
      obtain ⟨new1, h1⟩ := ih _ _ _ _ _ _ _ hrec l
      obtain ⟨new0, h0⟩ := ensure_child_pushes tree cs (child_index pixel level) level self l
      exact ⟨new1 ++ new0, by rw [h1, h0, List.append_assoc]⟩

/-- A call of `octree_add_pixel` only pushes onto the level queues. -/
theorem add_pixel_pushes {tree tree1 : octree} {pixel : Pixel}
    (h : octree_add_pixel tree pixel = .ok tree1) (l : Nat) :
    ∃ new, tree1.heads.getD l [] = new ++ tree.heads.getD l [] := by
  unfold octree_add_pixel at h
  split at h
  · simp at h
  · rename_i tree2 root hrun
    have h2 : tree1 = { tree2 with root := root } := by
      simp only [Except.ok.injEq] at h
      exact h.symm
    subst h2
    exact add_pixel_to_node_pushes _ _ _ _ _ _ _ _ hrun l

/-! ## Accesses of an insertion -/

theorem create_node_accesses_in_bounds (level : Nat) (h : level ≤ BIT_DEPTH) :
    ∀ x ∈ create_node_accesses level, x.in_bounds = true := by
  intro x hx
  unfold create_node_accesses at hx
  split at hx
  · simp at hx
  · simp only [List.mem_singleton] at hx
    subst hx
    simp only [access.in_bounds, decide_eq_true_eq]
    omega

/-- Below a node all of whose descendants that are not leaves lie above level
`BIT_DEPTH`, an insertion indexes `mask`, `heads` and the child slots inside
their bounds. -/
theorem add_pixel_accesses_in_bounds (fuel : Nat) :
    ∀ (node : octnode) (level : Nat) (pixel : Pixel),
      (∀ q, (node.find q).internal = true → level + q.length < BIT_DEPTH) →
      ∀ x ∈ add_pixel_accesses fuel node level pixel, x.in_bounds = true := by
  induction fuel with
  | zero =>
    intro node level pixel _ x hx
    simp [add_pixel_accesses] at hx
  | succ fuel ih =>
    intro node level pixel hint x hx
    cases node with
    | null => simp [add_pixel_accesses] at hx
    | node l n r g b a cs =>
      unfold add_pixel_accesses at hx
      by_cases hl : l = true
      · simp [hl] at hx
      · have hlev : level < BIT_DEPTH := by
          have := hint [] (by simp [octnode.find_nil, hl])
          simpa using this
        have hnot : ¬ BIT_DEPTH ≤ level := by omega
        simp only [hl, hnot, if_false, Bool.false_eq_true] at hx
        rw [List.mem_append] at hx
        rcases hx with hx | hx
        · simp only [List.mem_cons, List.mem_singleton, List.not_mem_nil, or_false] at hx
          rcases hx with hx | hx
          · subst hx
            simp only [access.in_bounds, decide_eq_true_eq]
            exact hlev
          · subst hx
            simp only [access.in_bounds, decide_eq_true_eq]
            exact child_index_lt pixel level hlev
        · split at hx
          · rw [List.mem_append] at hx
            rcases hx with hx | hx
            · exact create_node_accesses_in_bounds (level + 1) (by omega) x hx
            · refine ih _ (level + 1) pixel ?_ x hx
              intro q hq
              cases q with
              | nil =>
                simp only [octnode.find_nil, fresh_node, octnode.internal_node,
                  Bool.not_eq_true', decide_eq_false_iff_not] at hq
                simp only [List.length_nil]
                omega
              | cons j q =>
                rw [find_fresh_node] at hq
                simp at hq
          · refine ih _ (level + 1) pixel ?_ x hx
            intro q hq
            have := hint (child_index pixel level :: q) (by rw [octnode.find_cons]; exact hq)
            simp only [List.length_cons] at this
            omega

/-- On a well-formed tree `octree_add_pixel` indexes `mask`, `heads` and the
child slots inside their bounds. -/
theorem add_pixel_in_bounds {tree : octree} (hc : consistent tree) (pixel : Pixel) :
    ∀ x ∈ add_pixel_accesses (BIT_DEPTH + 1) tree.root 0 pixel, x.in_bounds = true := by
  refine add_pixel_accesses_in_bounds _ _ _ _ ?_
  intro q hq
  have := (node_ok_internal (hc.nodes_ok q) hq).2.1
  omega

/-! ## The queues hold as many nodes as the tree has nodes that are not leaves -/

@[simp]
theorem count_internal_null : count_internal .null = 0 := by
  simp [count_internal]

@[simp]
theorem count_internal_node (l : Bool) (n r g b a : Nat) (cs : List octnode) :
    count_internal (.node l n r g b a cs) =
      (if l then 0 else 1) + count_internal_children cs := by
  simp [count_internal]

@[simp]
theorem count_internal_children_nil : count_internal_children [] = 0 := by
  simp [count_internal_children]

@[simp]
theorem count_internal_children_cons (c : octnode) (cs : List octnode) :
    count_internal_children (c :: cs) = count_internal c + count_internal_children cs := by
  simp [count_internal_children]

theorem count_internal_children_null (cs : List octnode) (h : ∀ c ∈ cs, c = .null) :
    count_internal_children cs = 0 := by
  induction cs with
  | nil => simp
  | cons c cs ih =>
    have hc : c = .null := h c (List.mem_cons_self _ _)
    subst hc
    simp [ih (fun c hc => h c (List.mem_cons_of_mem _ hc))]

theorem count_internal_children_set (cs : List octnode) (j : Nat) (x : octnode)
    (h : j < cs.length) :
    count_internal_children (cs.set j x) + count_internal (cs.getD j .null) =
      count_internal_children cs + count_internal x := by
  induction cs generalizing j with
  | nil => simp at h
  | cons c cs ih =>
    cases j with
    | zero => simp; omega
    | succ j =>
      have := ih j (by simpa using h)
      simp only [List.set_cons_succ, count_internal_children_cons, List.getD_cons_succ]
      omega

theorem count_internal_fresh (l : Bool) :
    count_internal (fresh_node l) = if l then 0 else 1 := by
  simp [fresh_node, count_internal_children_null _ (fun _ hc => (List.mem_replicate.1 hc).2)]

theorem count_internal_replace {n : octnode} {s : Ref} (x : octnode)
    (h : (n.find s).isNull = false) :
    count_internal (n.replace s x) + count_internal (n.find s) =
      count_internal n + count_internal x := by
  induction s generalizing n with
  | nil => simp; omega
  | cons j s ih =>
    cases n with
    | null => simp at h
    | node l n r g b a cs =>
      rw [octnode.find_cons] at h ⊢
      have hj : j < cs.length := by
        by_contra hlt
        rw [List.getD_eq_default _ _ (by omega)] at h
        simp at h
      have h1 := ih h
      have h2 := count_internal_children_set cs j ((cs.getD j .null).replace s x) hj
      simp only [octnode.replace_cons, count_internal_node]
      omega

theorem count_internal_children_leaves (cs : List octnode)
    (h : ∀ c ∈ cs, c.isNull = true ∨ (c.leaf = true ∧ c.kids = List.replicate 16 .null)) :
    count_internal_children cs = 0 := by
  induction cs with
  | nil => simp
  | cons c cs ih =>
    rw [count_internal_children_cons, ih (fun c hc => h c (List.mem_cons_of_mem _ hc))]
    rcases h c (List.mem_cons_self _ _) with h1 | ⟨h1, h2⟩
    · cases c with
      | null => simp
      | node l n r g b a ks => simp at h1
    · cases c with
      | null => simp at h1
      | node l n r g b a ks =>
        simp only [octnode.leaf_node] at h1
        simp only [octnode.kids_node] at h2
        subst h1 h2
        simp [count_internal_children_null _ (fun _ hc => (List.mem_replicate.1 hc).2)]

theorem ensure_child_queued (tree : octree) (cs : List octnode) (index level : Nat) (self : Ref)
    (hlen : tree.heads.length = BIT_DEPTH) (hl : level < BIT_DEPTH) :
    (ensure_child tree cs index level self).1.heads.length = BIT_DEPTH ∧
      queued (ensure_child tree cs index level self).1 + count_internal (cs.getD index .null) =
        queued tree + count_internal (ensure_child tree cs index level self).2 := by
  unfold ensure_child octree_create_node
  split
  · rename_i hnull
    have hzero : count_internal (cs.getD index .null) = 0 := by
      cases hg : cs.getD index .null with
      | null => simp
      | node l n r g b a ks => rw [hg] at hnull; simp at hnull
    rw [hzero]
    split
    · rename_i h8
      refine ⟨hlen, ?_⟩
      simp [queued, count_internal_fresh]
    · rename_i h8
      have hlt : level + 1 < tree.heads.length := by omega
      refine ⟨by simp [hlen], ?_⟩
      have := sum_length_set tree.heads (level + 1)
        ((self ++ [index]) :: tree.heads.getD (level + 1) []) hlt
      simp only [queued, count_internal_fresh, List.length_cons] at this ⊢
      simp only [Bool.false_eq_true, if_false]
      omega
  · exact ⟨hlen, rfl⟩

/-- An insertion puts exactly the nodes it creates that are not leaves into
the queues. -/
theorem add_pixel_to_node_queued (fuel : Nat) :
    ∀ (tree : octree) (node : octnode) (self : Ref) (level : Nat) (pixel : Pixel)
      (tree1 : octree) (node1 : octnode), wide node → tree.heads.length = BIT_DEPTH →
      octree_add_pixel_to_node fuel tree node self level pixel = .ok (tree1, node1) →
      tree1.heads.length = BIT_DEPTH ∧
        queued tree1 + count_internal node = queued tree + count_internal node1 := by
  induction fuel with
  | zero =>
    intro tree node self level pixel tree1 node1 _ _ h
    simp [octree_add_pixel_to_node] at h
  | succ fuel ih =>
    intro tree node self level pixel tree1 node1 hw hlen h
    rcases add_pixel_to_node_cases h with
      ⟨n, r, g, b, a, cs, rfl, h1, rfl⟩ | ⟨fuel0, n, r, g, b, a, cs, child1, hf, hl, rfl, rfl, hrec⟩
    · subst h1
      exact ⟨hlen, by simp⟩
    · have hf0 : fuel0 = fuel := by omega
      subst hf0
      have h16 : cs.length = 16 := hw [] rfl
      have hidx : child_index pixel level < cs.length := by
        rw [h16]; exact child_index_lt pixel level hl
      obtain ⟨he1, he2⟩ := ensure_child_queued tree cs (child_index pixel level) level self hlen hl
      obtain ⟨h1, h2⟩ := ih _ _ _ _ _ _ _ (wide_ensure_child hw _ level self) he1 hrec
      refine ⟨h1, ?_⟩
      have h3 := count_internal_children_set cs (child_index pixel level) child1 hidx
      simp only [count_internal_node]
      omega

theorem add_pixel_queued {tree tree1 : octree} {pixel : Pixel} (hc : consistent tree)
    (hq : queued tree = count_internal tree.root)
    (h : octree_add_pixel tree pixel = .ok tree1) :
    queued tree1 = count_internal tree1.root := by
  unfold octree_add_pixel at h
  split at h
  · simp at h
  · rename_i tree2 root hrun
    have h2 : tree1 = { tree2 with root := root } := by
      simp only [Except.ok.injEq] at h
      exact h.symm
    subst h2
    have := (add_pixel_to_node_queued _ _ _ _ _ _ _ _ (consistent_wide hc) hc.heads_length hrun).2
    show queued tree2 = count_internal root
    have hq2 : queued { tree2 with root := root } = queued tree2 := rfl
    omega

theorem collapse_queued {tree : octree} (hc : consistent tree) {i : Nat} {self : Ref}
    {next : List Ref} (hsel : tree.heads.getD i [] = self :: next)
    (habove : ∀ l, i < l → tree.heads.getD l [] = [])
    (hq : queued tree = count_internal tree.root) :
    queued (collapse tree i self) = count_internal (collapse tree i self).root := by
  have hmem : self ∈ tree.heads.getD i [] := by rw [hsel]; exact List.mem_cons_self _ _
  obtain ⟨hform, _, _, hi, hkids⟩ := selected_children hc hmem habove
  have hint := (hc.queued_internal i self hmem).2
  have h1 := queued_collapse (by rw [hc.heads_length]; exact hi) hsel
  have h2 := count_internal_replace (merged_leaf (tree.root.find self).kids)
    (octnode.internal_not_null hint)
  have h3 : count_internal (tree.root.find self) = 1 := by
    rw [hform, count_internal_node, count_internal_children_leaves _ hkids]
    rfl
  have h4 : count_internal (merged_leaf (tree.root.find self).kids) = 0 := by
    simp [merged_leaf, count_internal_children_null _ (fun _ hc => (List.mem_replicate.1 hc).2)]
  show queued (collapse tree i self) =
    count_internal (tree.root.replace self (merged_leaf (tree.root.find self).kids))
  omega

/-- On every reachable tree the level queues hold as many nodes as the tree has
nodes that are not leaves. -/
theorem reachable_queued {tree : octree} (h : reachable tree) :
    queued tree = count_internal tree.root := by
  induction h with
  | create => decide
  | add_pixel pixel hr hrun ih => exact add_pixel_queued (reachable_consistent hr) ih hrun
  | reduce hr hrun ih =>
    rename_i tree tree1
    have hc := reachable_consistent hr
    have hbeyond := heads_beyond hc.heads_length
    have heq := reduce_eq hc
    rw [hrun] at heq
    simp only [Except.ok.injEq] at heq
    cases hs : selected BIT_DEPTH tree with
    | none =>
      rw [hs] at heq
      rw [heq]; exact ih
    | some sel =>
      obtain ⟨i, self⟩ := sel
      rw [hs] at heq
      obtain ⟨_, ⟨next, hsel⟩, habove⟩ := selected_some hs hbeyond
      rw [heq]
      exact collapse_queued hc hsel habove ih

/-- The loop `while (numLeaves > bound) octree_reduce(tree)` ends, with the
same tree as `reduce_while` computes, after at most `queued tree` calls. -/
theorem reduce_calls_spec (fuel : Nat) :
    ∀ (tree : octree) (bound : Nat), consistent tree → 1 ≤ bound → queued tree ≤ fuel →
      ∃ tree1 calls, reduce_calls fuel tree bound = .ok (tree1, calls) ∧
        reduce_while fuel tree bound = .ok tree1 ∧ calls ≤ queued tree ∧
        reduce_times calls tree = .ok tree1 ∧ tree1.numLeaves ≤ bound ∧
        (calls = 0 ↔ tree.numLeaves ≤ bound) := by
  induction fuel with
  | zero =>
    intro tree bound hc hb hf
    have hq : queued tree = 0 := by omega
    have h1 := leaves_le_one hc hq
    have hle : tree.numLeaves ≤ bound := by omega
    refine ⟨tree, 0, ?_, ?_, by omega, rfl, hle, by simp [hle]⟩
    · unfold reduce_calls; simp [hle]
    · unfold reduce_while; simp [hle]
  | succ fuel ih =>
    intro tree bound hc hb hf
    by_cases hle : tree.numLeaves ≤ bound
    · refine ⟨tree, 0, ?_, ?_, by omega, rfl, hle, by simp [hle]⟩
      · unfold reduce_calls; simp [hle]
      · unfold reduce_while; simp [hle]
    · obtain ⟨t1, hrun, hc1, _, _, hz, hnz⟩ := reduce_spec hc
      have hq : queued tree ≠ 0 := by
        intro hq
        have := leaves_le_one hc hq
        omega
      have hq1 := hnz hq
      obtain ⟨t2, calls, h1, h2, h3, h4, h5, _⟩ := ih t1 bound hc1 hb (by omega)
      refine ⟨t2, calls + 1, ?_, ?_, by omega, ?_, h5, ?_⟩
      · rw [reduce_calls]; simp only [hle, if_false, hrun, h1]
      · rw [reduce_while]; simp only [hle, if_false, hrun, h2]
      · simp only [reduce_times, hrun, h4]
      · simp [hle]

/-! ## The references of the leaves -/

@[simp]
theorem leaf_paths_null : leaf_paths .null = [] := by
  simp [leaf_paths]

@[simp]
theorem leaf_paths_leaf (n r g b a : Nat) (cs : List octnode) :
    leaf_paths (.node true n r g b a cs) = [[]] := by
  simp [leaf_paths]

@[simp]
theorem leaf_paths_internal (n r g b a : Nat) (cs : List octnode) :
    leaf_paths (.node false n r g b a cs) = leaf_paths_children cs 0 := by
  simp [leaf_paths]

@[simp]
theorem leaf_paths_children_nil (j : Nat) : leaf_paths_children [] j = [] := by
  simp [leaf_paths_children]

@[simp]
theorem leaf_paths_children_cons (c : octnode) (cs : List octnode) (j : Nat) :
    leaf_paths_children (c :: cs) j =
      (leaf_paths c).map (fun q => j :: q) ++ leaf_paths_children cs (j + 1) := by
  simp [leaf_paths_children]

theorem mem_leaf_paths_children {cs : List octnode} {k : Nat} {q : Ref} :
    q ∈ leaf_paths_children cs k ↔
      ∃ j r, j < cs.length ∧ r ∈ leaf_paths (cs.getD j .null) ∧ q = (k + j) :: r := by
  induction cs generalizing k with
  | nil => simp
  | cons c cs ih =>
    rw [leaf_paths_children_cons, List.mem_append, ih]
    constructor
    · rintro (h | ⟨j, r, hj, hr, rfl⟩)
      · obtain ⟨r, hr, rfl⟩ := List.mem_map.1 h
        exact ⟨0, r, by simp, by simpa using hr, rfl⟩
      · exact ⟨j + 1, r, by simpa using hj, by simpa using hr, by
          rw [show k + (j + 1) = k + 1 + j by omega]⟩
    · rintro ⟨j, r, hj, hr, rfl⟩
      cases j with
      | zero =>
        left
        exact List.mem_map.2 ⟨r, by simpa using hr, rfl⟩
      | succ j =>
        right
        exact ⟨j, r, by simpa using hj, by simpa using hr, by
          rw [show k + (j + 1) = k + 1 + j by omega]⟩

/-- The leaves that `octree_get_leaf_nodes` collects are the nodes at the
references `leaf_paths`, in the same order. -/
theorem get_leaf_nodes_paths (n : octnode) :
    octree_get_leaf_nodes n = (leaf_paths n).map n.find := by
  refine octnode.induct (P := fun n => octree_get_leaf_nodes n = (leaf_paths n).map n.find)
    ?_ ?_ n
  · simp [get_leaf_nodes_null]
  · intro l n r g b a cs ih
    cases l with
    | true => simp [get_leaf_nodes_leaf, octnode.find_nil]
    | false =>
      rw [get_leaf_nodes_internal, leaf_paths_internal]
      have aux : ∀ (rest pre : List octnode), pre ++ rest = cs →
          octree_get_leaf_children rest =
            (leaf_paths_children rest pre.length).map
              (octnode.node false n r g b a cs).find := by
        intro rest
        induction rest with
        | nil => intro pre _; simp [get_leaf_children_nil]
        | cons c rest ihr =>
          intro pre hpre
          rw [get_leaf_children_cons, leaf_paths_children_cons, List.map_append, List.map_map]
          have hc : c ∈ cs := by rw [← hpre]; simp
          have hget : cs.getD pre.length .null = c := by
            rw [← hpre, List.getD_eq_getElem _ _ (by simp)]
            exact List.getElem_append_right (Nat.le_refl _) |>.trans (by simp)
          congr 1
          · rw [ih c hc]
            apply List.map_congr_left
            intro q _
            simp only [Function.comp, octnode.find_cons, hget]
          · have := ihr (pre ++ [c]) (by simpa using hpre)
            simpa using this
      exact aux cs [] rfl

theorem leaf_paths_leaf_at (n : octnode) : ∀ q ∈ leaf_paths n, (n.find q).leaf = true := by
  refine octnode.induct (P := fun n => ∀ q ∈ leaf_paths n, (n.find q).leaf = true) ?_ ?_ n
  · simp
  · intro l n r g b a cs ih q hq
    cases l with
    | true =>
      simp only [leaf_paths_leaf, List.mem_singleton] at hq
      subst hq
      simp [octnode.find_nil]
    | false =>
      rw [leaf_paths_internal, mem_leaf_paths_children] at hq
      obtain ⟨j, r1, hj, hr, rfl⟩ := hq
      rw [Nat.zero_add, octnode.find_cons]
      have hmem : cs.getD j .null ∈ cs := by
        rcases getD_mem_or_default cs j .null with h | h
        · exact h
        · rw [List.getD_eq_getElem _ _ hj] at h ⊢
          exact List.getElem_mem _
      exact ih _ hmem r1 hr

/-- A leaf with no leaf above it is among the references `leaf_paths`. -/
theorem mem_leaf_paths (q : Ref) :
    ∀ n : octnode, (n.find q).leaf = true →
      (∀ p j r, q = p ++ j :: r → (n.find p).leaf = false) → q ∈ leaf_paths n := by
  induction q with
  | nil =>
    intro n h _
    cases n with
    | null => simp [octnode.find_nil] at h
    | node l n r g b a cs =>
      simp only [octnode.find_nil, octnode.leaf_node] at h
      subst h
      simp
  | cons j q ih =>
    intro n h habove
    cases n with
    | null => simp [octnode.find_null] at h
    | node l n r g b a cs =>
      have hl : l = false := by simpa [octnode.find_nil] using habove [] j q rfl
      subst hl
      rw [octnode.find_cons] at h
      rw [leaf_paths_internal, mem_leaf_paths_children]
      have hj : j < cs.length := by
        by_contra hlt
        rw [List.getD_eq_default _ _ (by omega)] at h
        simp [octnode.find_null] at h
      refine ⟨j, q, hj, ih _ h ?_, by rw [Nat.zero_add]⟩
      intro p j1 r1 hq
      have := habove (j :: p) j1 r1 (by rw [hq]; rfl)
      rwa [octnode.find_cons] at this

theorem leaf_paths_children_sorted (cs : List octnode)
    (h : ∀ c ∈ cs, (leaf_paths c).Pairwise (List.Lex (fun a b : Nat => a < b))) (k : Nat) :
    (leaf_paths_children cs k).Pairwise (List.Lex (fun a b : Nat => a < b)) := by
  induction cs generalizing k with
  | nil => simp
  | cons c cs ih =>
    rw [leaf_paths_children_cons, List.pairwise_append]
    refine ⟨?_, ih (fun c hc => h c (List.mem_cons_of_mem _ hc)) (k + 1), ?_⟩
    · rw [List.pairwise_map]
      exact (h c (List.mem_cons_self _ _)).imp (fun hab => List.Lex.cons hab)
    · intro x hx y hy
      obtain ⟨r, _, rfl⟩ := List.mem_map.1 hx
      obtain ⟨j, r1, _, _, rfl⟩ := mem_leaf_paths_children.1 hy
      exact List.Lex.rel (by omega)

/-- The references of the leaves come in lexicographic order: depth first, the
child slots in ascending order. -/
theorem leaf_paths_sorted (n : octnode) :
    (leaf_paths n).Pairwise (List.Lex (fun a b : Nat => a < b)) := by
  refine octnode.induct
    (P := fun n => (leaf_paths n).Pairwise (List.Lex (fun a b : Nat => a < b))) ?_ ?_ n
  · simp
  · intro l n r g b a cs ih
    cases l with
    | true => simp
    | false =>
      rw [leaf_paths_internal]
      exact leaf_paths_children_sorted cs ih 0

theorem lex_irrefl (q : Ref) : ¬ List.Lex (fun a b : Nat => a < b) q q := by
  induction q with
  | nil => intro h; cases h
  | cons j q ih =>
    intro h
    cases h with
    | cons h1 => exact ih h1
    | rel h1 => exact Nat.lt_irrefl _ h1

theorem leaf_paths_nodup (n : octnode) : (leaf_paths n).Nodup :=
  (leaf_paths_sorted n).imp (fun {a b} hab heq => by subst heq; exact lex_irrefl a hab)

/-! ## Insertions and the classes behind the leaves -/

theorem class_total_nil (t : tally) (q : Ref) : class_total t [] q = 0 := rfl

theorem class_total_cons (t : tally) (p : Pixel) (ps : List Pixel) (q : Ref) :
    class_total t (p :: ps) q =
      (if q <+: path p then t.weight p else 0) + class_total t ps q := by
  unfold class_total class_of
  by_cases h : q <+: path p
  · simp [List.filter_cons, h]
  · simp [List.filter_cons, h]

theorem class_total_append (t : tally) (ps qs : List Pixel) (q : Ref) :
    class_total t (ps ++ qs) q = class_total t ps q + class_total t qs q := by
  unfold class_total class_of
  simp [List.filter_append]

theorem class_total_zero (t : tally) (pixels : List Pixel) (q : Ref)
    (h : ∀ p ∈ pixels, ¬ q <+: path p) : class_total t pixels q = 0 := by
  unfold class_total class_of
  rw [List.filter_eq_nil_iff.2]
  · rfl
  · intro p hp
    simpa using h p hp

theorem class_total_pixels (pixels : List Pixel) (q : Ref) :
    class_total .pixels pixels q = (class_of pixels q).length := by
  unfold class_total
  exact sum_weight_pixels _

theorem tally_find_ensure_child (t : tally) (tree : octree) (cs : List octnode)
    (index level : Nat) (self : Ref) (q : Ref) :
    t.of ((ensure_child tree cs index level self).2.find q) =
      t.of ((cs.getD index .null).find q) := by
  rw [ensure_child_node]
  cases hc : cs.getD index .null with
  | null =>
    simp only [octnode.isNull_null, if_true]
    cases q with
    | nil => cases t <;> rfl
    | cons j q => rw [find_fresh_node, octnode.find_null]
  | node l n r g b a ks => simp

theorem leaf_find_fresh {l : Bool} {q : Ref} (h : ((fresh_node l).find q).leaf = true) :
    q = [] ∧ l = true := by
  cases q with
  | nil => simpa [octnode.find_nil, fresh_node] using h
  | cons j q => rw [find_fresh_node] at h; simp at h

/-- What an insertion does to the leaves below a node: a leaf stays a leaf,
the leaf on the path of the pixel gains the pixel and no other leaf changes,
the path of the pixel leads to a leaf, and a new leaf sits at the end of the
path. -/
theorem add_pixel_to_node_classes (fuel : Nat) :
    ∀ (tree : octree) (node : octnode) (self : Ref) (level : Nat) (pixel : Pixel)
      (tree1 : octree) (node1 : octnode), wide node → level ≤ BIT_DEPTH →
      (∀ q, (node.find q).leaf = true → ∀ j r, node.find (q ++ j :: r) = .null) →
      octree_add_pixel_to_node fuel tree node self level pixel = .ok (tree1, node1) →
      (∀ (t : tally) (q : Ref), (node1.find q).leaf = true →
        t.of (node1.find q) = t.of (node.find q) +
          if q <+: (path pixel).drop level then t.weight pixel else 0) ∧
      (∀ q, (node.find q).leaf = true → (node1.find q).leaf = true) ∧
      (∃ L, (node1.find (((path pixel).drop level).take L)).leaf = true) ∧
      (∀ q, (node1.find q).leaf = true → (node.find q).leaf = false →
        q = (path pixel).drop level) := by
  induction fuel with
  | zero =>
    intro tree node self level pixel tree1 node1 _ _ _ h
    simp [octree_add_pixel_to_node] at h
  | succ fuel ih =>
    intro tree node self level pixel tree1 node1 hw hlev hH h
    rcases add_pixel_to_node_cases h with
      ⟨n, r, g, b, a, cs, rfl, _, rfl⟩ | ⟨fuel0, n, r, g, b, a, cs, child1, hf, hl, rfl, rfl, hrec⟩
    · have hbelow : ∀ j r1, (octnode.node true n r g b a cs).find (j :: r1) = .null :=
        fun j r1 => hH [] rfl j r1
      have hsame : ∀ j r1, (octnode.node true (n + 1) (r + pixel.r.val) (g + pixel.g.val)
          (b + pixel.b.val) (a + pixel.a.val) cs).find (j :: r1) = .null := by
        intro j r1
        have := hbelow j r1
        rw [octnode.find_cons] at this ⊢
        exact this
      refine ⟨?_, ?_, ⟨0, rfl⟩, ?_⟩
      · intro t q hq
        cases q with
        | nil => cases t <;> simp [octnode.find_nil, tally.of, tally.weight]
        | cons j r1 => rw [hsame] at hq; simp at hq
      · intro q hq
        cases q with
        | nil => rfl
        | cons j r1 => rw [hbelow] at hq; simp at hq
      · intro q hq hnq
        cases q with
        | nil => simp [octnode.find_nil] at hnq
        | cons j r1 => rw [hsame] at hq; simp at hq
    · have hf0 : fuel0 = fuel := by omega
      subst hf0
      have h16 : cs.length = 16 := hw [] rfl
      have hidx : child_index pixel level < cs.length := by
        rw [h16]; exact child_index_lt pixel level hl
      have hdrop := path_drop pixel level hl
      have hH0 : ∀ q, ((ensure_child tree cs (child_index pixel level) level self).2.find
          q).leaf = true → ∀ j r1,
          (ensure_child tree cs (child_index pixel level) level self).2.find (q ++ j :: r1) =
            .null := by
        intro q hq j r1
        rw [ensure_child_node] at hq ⊢
        by_cases hnull : (cs.getD (child_index pixel level) .null).isNull = true
        · simp only [hnull, if_true] at hq ⊢
          obtain ⟨hq0, _⟩ := leaf_find_fresh hq
          subst hq0
          exact find_fresh_node _ _ _
        · simp only [hnull, if_false, Bool.false_eq_true] at hq ⊢
          have := hH (child_index pixel level :: q) (by rw [octnode.find_cons]; exact hq) j r1
          rw [List.cons_append, octnode.find_cons] at this
          exact this
      obtain ⟨hA, hB, ⟨L, hC⟩, hD⟩ :=
        ih _ _ _ _ _ _ _ (wide_ensure_child hw _ level self) (by omega) hH0 hrec
      have hat : ∀ r1, (octnode.node false n r g b a
          (cs.set (child_index pixel level) child1)).find (child_index pixel level :: r1) =
          child1.find r1 := by
        intro r1
        rw [octnode.find_cons, getD_set_self _ _ _ _ hidx]
      have hoff : ∀ j r1, j ≠ child_index pixel level → (octnode.node false n r g b a
          (cs.set (child_index pixel level) child1)).find (j :: r1) =
          (octnode.node false n r g b a cs).find (j :: r1) := by
        intro j r1 hj
        rw [octnode.find_cons, octnode.find_cons, getD_set_other _ _ _ _ _ (Ne.symm hj)]
      refine ⟨?_, ?_, ⟨L + 1, ?_⟩, ?_⟩
      · intro t q hq
        cases q with
        | nil => simp [octnode.find_nil] at hq
        | cons j r1 =>
          by_cases hj : j = child_index pixel level
          · subst hj
            rw [hat] at hq ⊢
            rw [hA t r1 hq, tally_find_ensure_child, hdrop, octnode.find_cons]
            simp only [List.cons_prefix_cons, true_and]
          · rw [hoff j r1 hj] at hq ⊢
            rw [hdrop]
            simp [List.cons_prefix_cons, hj]
      · intro q hq
        cases q with
        | nil => simp [octnode.find_nil] at hq
        | cons j r1 =>
          by_cases hj : j = child_index pixel level
          · subst hj
            rw [hat]
            rw [octnode.find_cons] at hq
            apply hB
            rw [ensure_child_node]
            have hnn : (cs.getD (child_index pixel level) .null).isNull = false := by
              cases hg : cs.getD (child_index pixel level) .null with
              | null => rw [hg] at hq; simp [octnode.find_null] at hq
              | node _ _ _ _ _ _ _ => rfl
            simp only [hnn, Bool.false_eq_true, if_false]
            exact hq
          · rw [hoff j r1 hj]; exact hq
      · rw [hdrop, List.take_succ_cons, hat]
        exact hC
      · intro q hq hnq
        cases q with
        | nil => simp [octnode.find_nil] at hq
        | cons j r1 =>
          by_cases hj : j = child_index pixel level
          · subst hj
            rw [hat] at hq
            rw [octnode.find_cons] at hnq
            rw [hdrop]
            congr 1
            by_cases hc0 : ((ensure_child tree cs (child_index pixel level) level self).2.find
                r1).leaf = true
            · rw [ensure_child_node] at hc0
              by_cases hnull : (cs.getD (child_index pixel level) .null).isNull = true
              · simp only [hnull, if_true] at hc0
                obtain ⟨hr, h8⟩ := leaf_find_fresh hc0
                subst hr
                have h8a : BIT_DEPTH = level + 1 := by simpa using h8
                have hlen := path_length pixel
                symm
                apply List.drop_eq_nil_of_le
                omega
              · simp only [hnull, if_false, Bool.false_eq_true] at hc0
                rw [hc0] at hnq
                simp at hnq
            · exact hD r1 hq (by simpa using hc0)
          · rw [hoff j r1 hj] at hq
            rw [hq] at hnq
            simp at hnq

theorem classes_create : classes octree_create [] := by
  constructor
  · intro t q hq
    rw [create_root] at hq
    obtain ⟨_, h⟩ := leaf_find_fresh hq
    simp at h
  · intro p hp
    simp at hp

theorem consistent_below_leaf {tree : octree} (hc : consistent tree) :
    ∀ q, (tree.root.find q).leaf = true → ∀ j r, tree.root.find (q ++ j :: r) = .null := by
  intro q hq j r
  have hk := node_ok_leaf (hc.nodes_ok q) hq
  rw [octnode.find_append, octnode.find_cons_kids, hk]
  have : (List.replicate 16 octnode.null).getD j .null = .null := by
    rcases getD_mem_or_default (List.replicate 16 octnode.null) j .null with h | h
    · exact List.eq_of_mem_replicate h
    · exact h
  rw [this, octnode.find_null]

theorem tally_of_not_leaf {tree : octree} (hc : consistent tree) (t : tally) (q : Ref)
    (h : (tree.root.find q).leaf = false) : t.of (tree.root.find q) = 0 := by
  by_cases hn : (tree.root.find q).isNull = true
  · cases hf : tree.root.find q with
    | null => exact tally_of_null t
    | node _ _ _ _ _ _ _ => rw [hf] at hn; simp at hn
  · rcases octnode.leaf_or_internal (by simpa using hn) with h1 | h1
    · rw [h1] at h; simp at h
    · have := (node_ok_internal (hc.nodes_ok q) h1).2.2.2
      rw [this]
      cases t <;> rfl

/-- After `octree_add_pixel` the leaves stand for the classes of the buffer
with the new pixel at its end. -/
theorem classes_add_pixel {tree tree1 : octree} {done : List Pixel} {pixel : Pixel}
    (hc : consistent tree) (hcl : classes tree done)
    (h : octree_add_pixel tree pixel = .ok tree1) : classes tree1 (done ++ [pixel]) := by
  obtain ⟨tree1a, hrun1, hc1⟩ := add_pixel_consistent hc pixel
  have heq : tree1a = tree1 := by
    rw [h] at hrun1
    simp only [Except.ok.injEq] at hrun1
    exact hrun1.symm
  subst heq
  unfold octree_add_pixel at h
  split at h
  · simp at h
  · rename_i tree2 root hrun
    have h2 : tree1a = { tree2 with root := root } := by
      simp only [Except.ok.injEq] at h
      exact h.symm
    have hroot : tree1a.root = root := by rw [h2]
    obtain ⟨hA, hB, ⟨L, hC⟩, hD⟩ := add_pixel_to_node_classes _ _ _ _ _ _ _ _
      (consistent_wide hc) (Nat.zero_le _) (consistent_below_leaf hc) hrun
    rw [← hroot] at hA hB hC hD
    simp only [List.drop_zero] at hA hC hD
    constructor
    · intro t q hq
      rw [class_total_append, class_total_cons, class_total_nil, Nat.add_zero, hA t q hq]
      congr 1
      by_cases hold : (tree.root.find q).leaf = true
      · exact hcl.sums t q hold
      · have hold1 : (tree.root.find q).leaf = false := by simpa using hold
        have hqp := hD q hq hold1
        rw [tally_of_not_leaf hc t q hold1]
        symm
        apply class_total_zero
        intro p hp hpre
        have hpath : path p = q := by
          have h1 : q.length = (path p).length := by
            rw [hqp, path_length, path_length]
          exact (List.IsPrefix.eq_of_length hpre h1).symm
        obtain ⟨L1, hL1⟩ := hcl.reached p hp
        have hL2 := hB _ hL1
        by_cases hlen : L1 < BIT_DEPTH
        · have hsplit : q = (path p).take L1 ++ (path p).drop L1 := by
            rw [List.take_append_drop, hpath]
          have hne : (path p).drop L1 ≠ [] := by
            intro h0
            have := List.drop_eq_nil_iff.1 h0
            rw [path_length] at this
            omega
          obtain ⟨j, r, hjr⟩ := List.exists_cons_of_ne_nil hne
          have hnull := consistent_below_leaf hc1 _ hL2 j r
          rw [← hjr, ← hsplit] at hnull
          rw [hnull] at hq
          simp at hq
        · have htake : (path p).take L1 = q := by
            rw [List.take_of_length_le (by rw [path_length]; omega), hpath]
          rw [htake] at hL1
          rw [hL1] at hold1
          simp at hold1
    · intro p hp
      rw [List.mem_append, List.mem_singleton] at hp
      rcases hp with hp | hp
      · obtain ⟨L1, hL1⟩ := hcl.reached p hp
        exact ⟨L1, hB _ hL1⟩
      · subst hp
        exact ⟨L, hC⟩

theorem classes_add_pixels (pixels : List Pixel) :
    ∀ {tree tree1 : octree} {done : List Pixel}, consistent tree → classes tree done →
      add_pixels tree pixels = .ok tree1 → classes tree1 (done ++ pixels) := by
  induction pixels with
  | nil =>
    intro tree tree1 done _ hcl h
    simp only [add_pixels, Except.ok.injEq] at h
    subst h
    simpa using hcl
  | cons p ps ih =>
    intro tree tree1 done hc hcl h
    unfold add_pixels at h
    split at h
    · simp at h
    · rename_i t hrun
      obtain ⟨t1, hrun1, hc1⟩ := add_pixel_consistent hc p
      have heq : t1 = t := by
        rw [hrun] at hrun1
        simp only [Except.ok.injEq] at hrun1
        exact hrun1.symm
      subst heq
      have := ih hc1 (classes_add_pixel hc hcl hrun) h
      simpa using this

/-! ## Reductions and the classes behind the leaves -/

theorem total_eq_range (f : octnode → Nat) (cs : List octnode) :
    total f cs = ((List.range cs.length).map (fun j => f (cs.getD j .null))).sum := by
  induction cs with
  | nil => rfl
  | cons c cs ih =>
    rw [total_cons, ih, List.length_cons, List.range_succ_eq_map, List.map_cons, List.sum_cons,
      List.map_map]
    rfl

theorem sum_ite_eq_range (k j0 w : Nat) (h : j0 < k) :
    ((List.range k).map (fun j => if j = j0 then w else 0)).sum = w := by
  induction k with
  | zero => omega
  | succ k ih =>
    rw [List.range_succ, List.map_append, List.sum_append]
    by_cases hj : j0 = k
    · subst hj
      have hz : ((List.range j0).map (fun j => if j = j0 then w else 0)).sum = 0 := by
        apply List.sum_eq_zero
        intro x hx
        obtain ⟨j, hj, rfl⟩ := List.mem_map.1 hx
        have := List.mem_range.1 hj
        simp only [ite_eq_right_iff]
        omega
      simp [hz]
    · simp only [List.map_cons, List.map_nil, List.sum_cons, List.sum_nil]
      rw [ih (by omega), if_neg (Ne.symm hj)]
      omega

theorem pixel_split (t : tally) (p : Pixel) (q : Ref) (hq : q.length < BIT_DEPTH) :
    ((List.range 16).map (fun j => if q ++ [j] <+: path p then t.weight p else 0)).sum =
      if q <+: path p then t.weight p else 0 := by
  by_cases hpre : q <+: path p
  · rw [if_pos hpre]
    obtain ⟨rest, hrest⟩ := hpre
    have hlen := path_length p
    cases rest with
    | nil =>
      rw [List.append_nil] at hrest
      rw [← hrest] at hlen
      omega
    | cons j0 rest =>
      have hj0 : j0 < 16 := by
        have h1 := path_getD p q.length hq
        rw [← hrest] at h1
        simp only [List.getElem?_append_right (Nat.le_refl _), Nat.sub_self,
          List.getElem?_cons_zero, Option.some.injEq] at h1
        rw [h1]
        exact child_index_lt p q.length hq
      have hiff : ∀ j, (q ++ [j] <+: path p) ↔ j = j0 := by
        intro j
        rw [← hrest, List.prefix_append_right_inj, List.cons_prefix_cons]
        simp
      simp only [hiff]
      exact sum_ite_eq_range 16 j0 _ hj0
  · rw [if_neg hpre]
    apply List.sum_eq_zero
    intro x hx
    obtain ⟨j, _, rfl⟩ := List.mem_map.1 hx
    rw [if_neg]
    intro h
    exact hpre ((List.prefix_append q [j]).trans h)

/-- A class is the disjoint union of the sixteen classes one level deeper. -/
theorem class_split (t : tally) (pixels : List Pixel) (q : Ref) (hq : q.length < BIT_DEPTH) :
    ((List.range 16).map (fun j => class_total t pixels (q ++ [j]))).sum =
      class_total t pixels q := by
  induction pixels with
  | nil => simp [class_total_nil]
  | cons p ps ih =>
    simp only [class_total_cons]
    rw [List.sum_map_add, ih, pixel_split t p q hq]

/-- Collapsing the head of the deepest queue keeps the leaves standing for
classes: the new leaf stands for the union of the classes of its children. -/
theorem classes_collapse {tree : octree} {pixels : List Pixel} (hc : consistent tree)
    (hcl : classes tree pixels) {i : Nat} {self : Ref} {next : List Ref}
    (hsel : tree.heads.getD i [] = self :: next)
    (habove : ∀ l, i < l → tree.heads.getD l [] = []) :
    classes (collapse tree i self) pixels := by
  have hmem : self ∈ tree.heads.getD i [] := by rw [hsel]; exact List.mem_cons_self _ _
  obtain ⟨hform, h16, hlen, hi, hkids⟩ := selected_children hc hmem habove
  have hint := (hc.queued_internal i self hmem).2
  have hnn := octnode.internal_not_null hint
  have hnotleaf := octnode.internal_not_leaf hint
  have habv := proper_prefix_not_leaf hc hnn
  have hroot : (collapse tree i self).root =
      tree.root.replace self (merged_leaf (tree.root.find self).kids) := rfl
  -- a pixel whose path goes through `self` has its leaf in a child slot of `self`
  have hthrough : ∀ p ∈ pixels, self <+: path p →
      ∃ j r, path p = self ++ j :: r ∧ ((tree.root.find self).kids.getD j .null).leaf = true := by
    intro p hp hpre
    obtain ⟨L, hL⟩ := hcl.reached p hp
    obtain ⟨rest, hrest⟩ := hpre
    by_cases hLs : L ≤ self.length
    · exfalso
      have htk : (path p).take L = self.take L := by
        rw [← hrest, List.take_append_of_le_length hLs]
      rw [htk] at hL
      by_cases hLe : L = self.length
      · rw [hLe, List.take_length] at hL
        rw [hL] at hnotleaf
        simp at hnotleaf
      · have hsplit : self = self.take L ++ self.drop L := (List.take_append_drop L self).symm
        have hne : self.drop L ≠ [] := by
          intro h0
          have := List.drop_eq_nil_iff.1 h0
          omega
        obtain ⟨j, r, hjr⟩ := List.exists_cons_of_ne_nil hne
        rw [hjr] at hsplit
        have := habv _ j r hsplit
        rw [hL] at this
        simp at this
    · have hlenp := path_length p
      cases rest with
      | nil =>
        rw [List.append_nil] at hrest
        rw [← hrest] at hlenp
        omega
      | cons j r =>
        refine ⟨j, r, hrest.symm, ?_⟩
        have htk : (path p).take L = self ++ j :: r.take (L - self.length - 1) := by
          rw [← hrest, List.take_append_eq_append_take,
            List.take_of_length_le (by omega : self.length ≤ L)]
          congr 1
          obtain ⟨m, hm⟩ : ∃ m, L - self.length = m + 1 := ⟨L - self.length - 1, by omega⟩
          rw [hm, List.take_succ_cons, Nat.add_sub_cancel]
        rw [htk, octnode.find_append, octnode.find_cons_kids] at hL
        rcases hkids _ (by
          rcases getD_mem_or_default (tree.root.find self).kids j .null with h | h
          · exact h
          · rw [h, octnode.find_null] at hL; simp at hL) with h1 | h1
        · cases hg : (tree.root.find self).kids.getD j .null with
          | null => rw [hg, octnode.find_null] at hL; simp at hL
          | node _ _ _ _ _ _ _ => rw [hg] at h1; simp at h1
        · exact h1.1
  constructor
  · intro t q hq
    rw [hroot] at hq ⊢
    rcases prefix_cases self q with ⟨q1, rfl⟩ | ⟨j, r, hs⟩ | ⟨h1, h2⟩
    · rw [octnode.find_replace_self _ _ hnn] at hq ⊢
      cases q1 with
      | nil =>
        rw [octnode.find_nil, tally_of_merged_leaf, List.append_nil, total_eq_range, h16,
          ← class_split t pixels self (by omega)]
        congr 1
        apply List.map_congr_left
        intro j hj
        have hj16 := List.mem_range.1 hj
        have hfind : tree.root.find (self ++ [j]) = (tree.root.find self).kids.getD j .null := by
          rw [octnode.find_append, octnode.find_cons_kids, octnode.find_nil]
        by_cases hleaf : ((tree.root.find self).kids.getD j .null).leaf = true
        · rw [← hfind] at hleaf ⊢
          exact hcl.sums t _ hleaf
        · have hnull : (tree.root.find self).kids.getD j .null = .null := by
            have hm : (tree.root.find self).kids.getD j .null ∈ (tree.root.find self).kids := by
              rw [List.getD_eq_getElem _ _ (by omega)]
              exact List.getElem_mem _
            rcases hkids _ hm with h1 | h1
            · cases hg : (tree.root.find self).kids.getD j .null with
              | null => rfl
              | node _ _ _ _ _ _ _ => rw [hg] at h1; simp at h1
            · exact absurd h1.1 hleaf
          rw [hnull, tally_of_null]
          symm
          apply class_total_zero
          intro p hp hpre
          obtain ⟨j1, r1, hpath, hl1⟩ :=
            hthrough p hp ((List.prefix_append self [j]).trans hpre)
          rw [hpath, List.prefix_append_right_inj, List.cons_prefix_cons] at hpre
          rw [← hpre.1, hnull] at hl1
          simp at hl1
      | cons j r =>
        rw [find_merged_leaf] at hq
        simp at hq
    · exfalso
      have hhead := octnode.find_replace_above (n := tree.root) (s := self) (q := q)
        (merged_leaf (tree.root.find self).kids) (by
          rintro ⟨x, hx⟩
          have := congrArg List.length hx
          rw [hs] at this
          simp at this)
      rw [octnode.head_leaf hhead, habv q j r hs] at hq
      simp at hq
    · rw [octnode.find_replace_apart _ h1 h2] at hq ⊢
      exact hcl.sums t q hq
  · intro p hp
    obtain ⟨L, hL⟩ := hcl.reached p hp
    rw [hroot]
    by_cases hpre : self <+: path p
    · refine ⟨self.length, ?_⟩
      have htk : (path p).take self.length = self := by
        obtain ⟨rest, hrest⟩ := hpre
        rw [← hrest, List.take_left' rfl]
      rw [htk]
      have := octnode.find_replace_self (merged_leaf (tree.root.find self).kids) [] hnn
      rw [List.append_nil] at this
      rw [this]
      rfl
    · refine ⟨L, ?_⟩
      rcases prefix_cases self ((path p).take L) with ⟨q1, hq1⟩ | ⟨j, r, hs⟩ | ⟨h1, h2⟩
      · exfalso
        apply hpre
        have : self <+: (path p).take L := ⟨q1, hq1.symm⟩
        exact this.trans (List.take_prefix _ _)
      · exfalso
        have := habv _ j r hs
        rw [hL] at this
        simp at this
      · rw [octnode.find_replace_apart _ h1 h2]
        exact hL

/-- A call of `octree_reduce` keeps the leaves standing for classes of the
same pixels. -/
theorem classes_reduce {tree tree1 : octree} {pixels : List Pixel} (hc : consistent tree)
    (hcl : classes tree pixels) (h : octree_reduce tree = .ok tree1) : classes tree1 pixels := by
  have hbeyond := heads_beyond hc.heads_length
  have heq := reduce_eq hc
  rw [h] at heq
  simp only [Except.ok.injEq] at heq
  cases hs : selected BIT_DEPTH tree with
  | none =>
    rw [hs] at heq
    rw [heq]; exact hcl
  | some sel =>
    obtain ⟨i, self⟩ := sel
    rw [hs] at heq
    obtain ⟨_, ⟨next, hsel⟩, habove⟩ := selected_some hs hbeyond
    rw [heq]
    exact classes_collapse hc hcl hsel habove

theorem classes_reduce_times (k : Nat) :
    ∀ {tree tree1 : octree} {pixels : List Pixel}, consistent tree → classes tree pixels →
      reduce_times k tree = .ok tree1 → classes tree1 pixels := by
  induction k with
  | zero =>
    intro tree tree1 pixels _ hcl h
    simp only [reduce_times, Except.ok.injEq] at h
    subst h
    exact hcl
  | succ k ih =>
    intro tree tree1 pixels hc hcl h
    unfold reduce_times at h
    split at h
    · simp at h
    · rename_i t hrun
      obtain ⟨t1, hrun1, hc1⟩ := reduce_consistent hc
      have heq : t1 = t := by
        rw [hrun] at hrun1
        simp only [Except.ok.injEq] at hrun1
        exact hrun1.symm
      subst heq
      exact ih hc1 (classes_reduce hc hcl hrun) h

/-! ## The palette as the mean colours of classes -/

theorem quad_of_class {tree : octree} {pixels : List Pixel} (hcl : classes tree pixels)
    {q : Ref} (hq : (tree.root.find q).leaf = true) :
    quad (tree.root.find q) = mean_color (class_of pixels q) := by
  have h0 := hcl.sums .pixels q hq
  have h1 := hcl.sums .red q hq
  have h2 := hcl.sums .green q hq
  have h3 := hcl.sums .blue q hq
  have h4 := hcl.sums .alpha q hq
  rw [class_total_pixels] at h0
  simp only [tally.of] at h0 h1 h2 h3 h4
  unfold quad mean_color
  rw [h0, h1, h2, h3, h4]
  rfl

theorem mean_channel_le (t : tally) (ps : List Pixel) :
    (ps.map t.weight).sum / ps.length ≤ 255 := by
  have := sum_weight_le t ps
  by_cases h : ps.length = 0
  · rw [h, Nat.div_zero]; omega
  · exact Nat.div_le_of_le_mul (by rw [Nat.mul_comm]; exact this)

theorem consistent_depth {tree : octree} (hc : consistent tree) {q : Ref}
    (hq : (tree.root.find q).isNull = false) : q.length ≤ BIT_DEPTH := by
  rcases List.eq_nil_or_concat q with h | ⟨p, j, h⟩
  · rw [h]; simp
  · rw [List.concat_eq_append] at h
    subst h
    have hint := above_internal (n := tree.root) (p := p) (j := j) (r := [])
      (fun hl => node_ok_leaf (hc.nodes_ok p) hl) hq
    have := (node_ok_internal (hc.nodes_ok p) hint).2.1
    simp only [List.length_append, List.length_singleton]
    omega

/-- Every pixel has exactly one of the references of the leaves at the start
of its path. -/
theorem classes_partition {tree : octree} {pixels : List Pixel} (hc : consistent tree)
    (hcl : classes tree pixels) :
    ∀ p ∈ pixels, ∃ q ∈ leaf_paths tree.root, q <+: path p ∧
      ∀ q1 ∈ leaf_paths tree.root, q1 <+: path p → q1 = q := by
  intro p hp
  obtain ⟨L, hL⟩ := hcl.reached p hp
  have hnn := octnode.leaf_not_null hL
  refine ⟨(path p).take L, mem_leaf_paths _ _ hL (proper_prefix_not_leaf hc hnn),
    List.take_prefix _ _, ?_⟩
  intro q1 hq1 hpre
  have hl1 := leaf_paths_leaf_at _ q1 hq1
  rcases List.prefix_or_prefix_of_prefix hpre (List.take_prefix L (path p)) with h | h
  · obtain ⟨rest, hrest⟩ := h
    cases rest with
    | nil => rw [List.append_nil] at hrest; exact hrest
    | cons j r =>
      have := proper_prefix_not_leaf hc hnn q1 j r hrest.symm
      rw [hl1] at this
      simp at this
  · obtain ⟨rest, hrest⟩ := h
    cases rest with
    | nil => rw [List.append_nil] at hrest; exact hrest.symm
    | cons j r =>
      have := proper_prefix_not_leaf hc (octnode.leaf_not_null hl1) _ j r hrest.symm
      rw [hL] at this
      simp at this

/-- Two pixels have the same child indices at the levels below `L` exactly when
they agree on the top `L` bits of each channel. -/
theorem same_class_iff_bits (p1 p2 : Pixel) (L : Nat) (hL : L ≤ BIT_DEPTH) :
    (path p1).take L = (path p2).take L ↔
      ∀ level, level < L → bit_at p1.r level = bit_at p2.r level ∧
        bit_at p1.g level = bit_at p2.g level ∧ bit_at p1.b level = bit_at p2.b level ∧
        bit_at p1.a level = bit_at p2.a level := by
  constructor
  · intro h level hlev
    have hl8 : level < BIT_DEPTH := by omega
    apply bits_of_child_index hl8
    have h1 := path_getD p1 level hl8
    have h2 := path_getD p2 level hl8
    have h3 : ((path p1).take L)[level]? = ((path p2).take L)[level]? := by rw [h]
    rw [List.getElem?_take_of_lt hlev, List.getElem?_take_of_lt hlev, h1, h2] at h3
    exact Option.some.inj h3
  · intro h
    apply List.ext_getElem?
    intro level
    by_cases hlev : level < L
    · have hl8 : level < BIT_DEPTH := by omega
      rw [List.getElem?_take_of_lt hlev, List.getElem?_take_of_lt hlev, path_getD p1 level hl8,
        path_getD p2 level hl8]
      obtain ⟨h1, h2, h3, h4⟩ := h level hlev
      rw [child_index_eq p1 level hl8, child_index_eq p2 level hl8, h1, h2, h3, h4]
    · rw [List.getElem?_eq_none (by rw [List.length_take]; omega),
        List.getElem?_eq_none (by rw [List.length_take]; omega)]

theorem mem_class_of {pixels : List Pixel} {q : Ref} {p : Pixel} :
    p ∈ class_of pixels q ↔ p ∈ pixels ∧ (path p).take q.length = q := by
  unfold class_of
  rw [List.mem_filter, decide_eq_true_eq, List.prefix_iff_eq_take]
  constructor
  · rintro ⟨h1, h2⟩
    exact ⟨h1, h2.symm⟩
  · rintro ⟨h1, h2⟩
    exact ⟨h1, h2.symm⟩

/-- The tree that `get_palette` and `get_dominant_color` build for a buffer and
a bound: it is well formed, its leaves stand for classes of the pixels and
hold at least one pixel each, and it has at most `bound` leaves. -/
theorem built_tree (pixels : List Pixel) (bound : Nat) (hb : 1 ≤ bound) :
    ∃ tree0 tree, add_pixels octree_create pixels = .ok tree0 ∧
      reduce_to tree0 bound = .ok tree ∧ consistent tree0 ∧ consistent tree ∧
      classes tree0 pixels ∧ classes tree pixels ∧
      (pixels ≠ [] → populated tree0.root) ∧ (pixels ≠ [] → populated tree.root) ∧
      tree.numLeaves ≤ bound ∧ (tree0.numLeaves ≤ bound → tree = tree0) ∧
      (∀ t : tally, leaf_total t tree.root = (pixels.map t.weight).sum) := by
  obtain ⟨tree0, hadd, hc0, hpop0, htot0⟩ :=
    add_pixels_spec pixels create_consistent create_unpopulated
  obtain ⟨tree, hred, hc, hle, htot, hpop, hsame⟩ := reduce_to_spec bound hc0 hb
  obtain ⟨t1, calls, _, hw, _, htimes, _, _⟩ :=
    reduce_calls_spec (queued tree0) tree0 bound hc0 hb (Nat.le_refl _)
  have ht1 : t1 = tree := by
    have : reduce_to tree0 bound = .ok t1 := hw
    rw [hred] at this
    simp only [Except.ok.injEq] at this
    exact this.symm
  subst ht1
  have hcl0 : classes tree0 pixels := by
    have := classes_add_pixels pixels create_consistent classes_create hadd
    simpa using this
  refine ⟨tree0, t1, hadd, hred, hc0, hc, hcl0, classes_reduce_times calls hc0 hcl0 htimes,
    hpop0, fun hne => hpop (hpop0 hne), hle, hsame, ?_⟩
  intro t
  rw [htot t, htot0 t, leaf_total_create, Nat.zero_add]

/-! ## Insertion sort meets what is taken of `qsort` -/

theorem ordered_insert_perm (compare : octnode → octnode → Int) (x : octnode)
    (nodes : List octnode) : (ordered_insert compare x nodes).Perm (x :: nodes) := by
  induction nodes with
  | nil => exact List.Perm.refl _
  | cons y ys ih =>
    unfold ordered_insert
    split
    · exact List.Perm.refl _
    · exact (List.Perm.cons y ih).trans (List.Perm.swap x y ys)

theorem insertion_qsort_perm (compare : octnode → octnode → Int) (nodes : List octnode) :
    (insertion_qsort compare nodes).Perm nodes := by
  induction nodes with
  | nil => exact List.Perm.refl _
  | cons x xs ih =>
    unfold insertion_qsort
    exact (ordered_insert_perm compare x _).trans (List.Perm.cons x ih)

theorem ordered_insert_ordered (compare : octnode → octnode → Int) (x : octnode)
    (nodes : List octnode)
    (htotal : ∀ b ∈ nodes, compare x b ≤ 0 ∨ compare b x ≤ 0)
    (htrans : ∀ b ∈ nodes, ∀ c ∈ nodes, compare x b ≤ 0 → compare b c ≤ 0 → compare x c ≤ 0)
    (h : nodes.Pairwise (fun a b => compare a b ≤ 0)) :
    (ordered_insert compare x nodes).Pairwise (fun a b => compare a b ≤ 0) := by
  induction nodes with
  | nil => simp [ordered_insert]
  | cons y ys ih =>
    rw [List.pairwise_cons] at h
    unfold ordered_insert
    split
    · rename_i hxy
      rw [List.pairwise_cons, List.pairwise_cons]
      refine ⟨?_, h.1, h.2⟩
      intro b hb
      rcases List.mem_cons.1 hb with rfl | hb
      · exact hxy
      · exact htrans y (List.mem_cons_self _ _) b (List.mem_cons_of_mem _ hb) hxy (h.1 b hb)
    · rename_i hxy
      rw [List.pairwise_cons]
      refine ⟨?_, ih (fun b hb => htotal b (List.mem_cons_of_mem _ hb))
        (fun b hb c hc => htrans b (List.mem_cons_of_mem _ hb) c (List.mem_cons_of_mem _ hc))
        h.2⟩
      intro b hb
      rcases List.mem_cons.1 ((ordered_insert_perm compare x ys).mem_iff.1 hb) with rfl | hb
      · rcases htotal y (List.mem_cons_self _ _) with h1 | h1
        · exact absurd h1 hxy
        · exact h1
      · exact h.1 b hb

theorem insertion_qsort_ordered (compare : octnode → octnode → Int) (nodes : List octnode)
    (htotal : ∀ a ∈ nodes, ∀ b ∈ nodes, compare a b ≤ 0 ∨ compare b a ≤ 0)
    (htrans : ∀ a ∈ nodes, ∀ b ∈ nodes, ∀ c ∈ nodes, compare a b ≤ 0 → compare b c ≤ 0 →
      compare a c ≤ 0) :
    (insertion_qsort compare nodes).Pairwise (fun a b => compare a b ≤ 0) := by
  induction nodes with
  | nil => simp [insertion_qsort]
  | cons x xs ih =>
    unfold insertion_qsort
    have hmem : ∀ b, b ∈ insertion_qsort compare xs → b ∈ x :: xs := fun b hb =>
      List.mem_cons_of_mem _ ((insertion_qsort_perm compare xs).mem_iff.1 hb)
    apply ordered_insert_ordered
    · intro b hb
      exact htotal x (List.mem_cons_self _ _) b (hmem b hb)
    · intro b hb c hc
      exact htrans x (List.mem_cons_self _ _) b (hmem b hb) c (hmem c hc)
    · exact ih (fun a ha b hb => htotal a (List.mem_cons_of_mem _ ha) b
          (List.mem_cons_of_mem _ hb))
        (fun a ha b hb c hc => htrans a (List.mem_cons_of_mem _ ha) b
          (List.mem_cons_of_mem _ hb) c (List.mem_cons_of_mem _ hc))

theorem insertion_qsort_stable (compare : octnode → octnode → Int) (nodes : List octnode)
    (h : nodes.Pairwise (fun a b => compare a b ≤ 0)) : insertion_qsort compare nodes = nodes := by
  induction nodes with
  | nil => rfl
  | cons x xs ih =>
    rw [List.pairwise_cons] at h
    unfold insertion_qsort
    rw [ih h.2]
    cases xs with
    | nil => rfl
    | cons y ys =>
      unfold ordered_insert
      rw [if_pos (h.1 y (List.mem_cons_self _ _))]

/-- Insertion sort has the three properties that are taken of `qsort`. -/
theorem insertion_qsort_sorts : sorts insertion_qsort :=
  ⟨insertion_qsort_perm, insertion_qsort_ordered, insertion_qsort_stable⟩

/-! ## The population comparator where it does not overflow -/

theorem compare_node_size_eq (a b : octnode) :
    compare_node_size a b = size_order a.count b.count := rfl

/-- On counts below `2^31` the comparator returns the difference of the
counts. -/
theorem size_order_exact (a b : Nat) (ha : a < 2 ^ 31) (hb : b < 2 ^ 31) :
    size_order a b = (b : Int) - (a : Int) := by
  unfold size_order to_int
  have h1 : a % 2 ^ 64 = a := Nat.mod_eq_of_lt (by omega)
  rw [h1]
  by_cases hab : a ≤ b
  · have h2 : (b + 2 ^ 64 - a) % 2 ^ 64 = b - a := by
      rw [show b + 2 ^ 64 - a = (b - a) + 2 ^ 64 by omega, Nat.add_mod_right]
      exact Nat.mod_eq_of_lt (by omega)
    rw [h2]
    have h3 : (b - a) % 2 ^ 32 = b - a := Nat.mod_eq_of_lt (by omega)
    rw [h3]
    rw [if_pos (by omega)]
    omega
  · have h2 : (b + 2 ^ 64 - a) % 2 ^ 64 = b + 2 ^ 64 - a := Nat.mod_eq_of_lt (by omega)
    rw [h2]
    have h3 : (b + 2 ^ 64 - a) % 2 ^ 32 = 2 ^ 32 - (a - b) := by
      rw [show b + 2 ^ 64 - a = (2 ^ 32 - (a - b)) + 2 ^ 32 * (2 ^ 32 - 1) by omega,
        Nat.add_mul_mod_self_left]
      exact Nat.mod_eq_of_lt (by omega)
    rw [h3]
    rw [if_neg (by omega)]
    omega

/-! ## The leaf that `get_dominant_color` returns -/

theorem built_leaves_nonempty {tree : octree} (hc : consistent tree)
    (hpop : populated tree.root) : 1 ≤ tree.numLeaves := by
  rw [hc.leaves_counted]
  exact populated_count_leaves _ hpop hc.root_node

/-- On a well-formed tree with a pixel in every leaf, `get_dominant_color`
returns the colour of the first leaf of the array after the two calls of
`qsort`. -/
theorem get_dominant_color_eq
    {qsort : (octnode → octnode → Int) → List octnode → List octnode}
    (compare_node_color : octnode → octnode → Int) {pixels : List Pixel} {tree0 tree : octree}
    (hadd : add_pixels octree_create pixels = .ok tree0) (hred : reduce_to tree0 16 = .ok tree)
    (hc : consistent tree) (hpop : populated tree.root)
    (hperm : ∀ compare nodes, (qsort compare nodes).Perm nodes) :
    ∃ leaf rest,
      qsort compare_node_color
          ((qsort compare_node_size (octree_get_leaf_nodes tree.root)).take
            (tree.numLeaves / 4)) ++
        (qsort compare_node_size (octree_get_leaf_nodes tree.root)).drop
          (tree.numLeaves / 4) = leaf :: rest ∧
      leaf ∈ octree_get_leaf_nodes tree.root ∧ 1 ≤ leaf.count ∧
      get_dominant_color qsort compare_node_color pixels = .ok (quad leaf) := by
  have hlen := consistent_leaves hc
  have hone := built_leaves_nonempty hc hpop
  have hranked : (qsort compare_node_color
      ((qsort compare_node_size (octree_get_leaf_nodes tree.root)).take (tree.numLeaves / 4)) ++
      (qsort compare_node_size (octree_get_leaf_nodes tree.root)).drop
        (tree.numLeaves / 4)).Perm (octree_get_leaf_nodes tree.root) := by
    refine ((hperm _ _).append_right _).trans ?_
    rw [List.take_append_drop]
    exact hperm _ _
  cases hr : qsort compare_node_color
      ((qsort compare_node_size (octree_get_leaf_nodes tree.root)).take (tree.numLeaves / 4)) ++
      (qsort compare_node_size (octree_get_leaf_nodes tree.root)).drop
        (tree.numLeaves / 4) with
  | nil =>
    rw [hr] at hranked
    have := hranked.length_eq
    simp only [List.length_nil] at this
    omega
  | cons leaf rest =>
    rw [hr] at hranked
    have hmem : leaf ∈ octree_get_leaf_nodes tree.root :=
      hranked.mem_iff.1 (List.mem_cons_self _ _)
    obtain ⟨h1, h2⟩ := populated_leaves hpop leaf hmem
    refine ⟨leaf, rest, rfl, hmem, h2, ?_⟩
    unfold get_dominant_color
    simp only [hadd, hred, hlen, Nat.lt_irrefl, if_false, false_and, hr]
    exact leaf_color_eq h1 h2

theorem leaf_count_le {tree : octree} {pixels : List Pixel}
    (htot : ∀ t : tally, leaf_total t tree.root = (pixels.map t.weight).sum) :
    ∀ m ∈ octree_get_leaf_nodes tree.root, m.count ≤ pixels.length := by
  intro m hm
  have h1 := le_total octnode.count hm
  have h2 := htot .pixels
  rw [sum_weight_pixels] at h2
  unfold leaf_total at h2
  simp only [tally.of] at h2
  omega

/-- With fewer than `2^31` pixels in the buffer, the first call of `qsort`
puts the leaves in descending order of `numPixels`. -/
theorem sorted_by_count {qsort : (octnode → octnode → Int) → List octnode → List octnode}
    (hq : sorts qsort) {nodes : List octnode} {bound : Nat} (hb : bound < 2 ^ 31)
    (hle : ∀ m ∈ nodes, m.count ≤ bound) :
    (qsort compare_node_size nodes).Pairwise (fun a b => b.count ≤ a.count) := by
  have hexact : ∀ a ∈ nodes, ∀ b ∈ nodes,
      compare_node_size a b = (b.count : Int) - (a.count : Int) := by
    intro a ha b hb1
    rw [compare_node_size_eq]
    exact size_order_exact _ _ (by have := hle a ha; omega) (by have := hle b hb1; omega)
  have hord := hq.ordered compare_node_size nodes
    (by
      intro a ha b hb1
      rw [hexact a ha b hb1, hexact b hb1 a ha]
      omega)
    (by
      intro a ha b hb1 c hc
      rw [hexact a ha b hb1, hexact b hb1 c hc, hexact a ha c hc]
      omega)
  refine hord.imp_of_mem ?_
  intro a b ha hb1 hab
  rw [hexact a ((hq.perm _ _).mem_iff.1 ha) b ((hq.perm _ _).mem_iff.1 hb1)] at hab
  omega

/-! ## The saturation comparator -/

theorem saturation_ok {F : Type} [LinearOrder F] (ops : float_ops F) {m : octnode}
    (h1 : m.isNull = false) (h2 : 1 ≤ m.count) : ∃ s, saturation ops m = .ok s := by
  cases m with
  | null => simp at h1
  | node l n r g b a cs =>
    simp only [octnode.count_node] at h2
    have hn : n ≠ 0 := by omega
    refine ⟨get_saturation ops (ops.div_255 (ops.of_size (r / n)))
      (ops.div_255 (ops.of_size (g / n))) (ops.div_255 (ops.of_size (b / n))), ?_⟩
    simp [saturation, get_rgb, hn]

theorem get_rgb_ok {F : Type} (ops : float_ops F) {m : octnode}
    (h1 : m.isNull = false) (h2 : 1 ≤ m.count) :
    get_rgb ops m = .ok (ops.div_255 (ops.of_size (m.sumRed / m.count)),
      ops.div_255 (ops.of_size (m.sumGreen / m.count)),
      ops.div_255 (ops.of_size (m.sumBlue / m.count))) := by
  cases m with
  | null => simp at h1
  | node l n r g b a cs =>
    simp only [octnode.count_node] at h2
    have hn : n ≠ 0 := by omega
    simp [get_rgb, hn]

theorem compare_node_color_le {F : Type} [LinearOrder F] (ops : float_ops F) {a b : octnode}
    {sa sb : F} (ha : saturation ops a = .ok sa) (hb : saturation ops b = .ok sb) :
    compare_node_color ops a b ≤ 0 ↔ sb ≤ sa := by
  unfold compare_node_color
  rw [ha, hb]
  simp only
  by_cases h1 : sa > sb
  · rw [if_pos h1]
    exact ⟨fun _ => le_of_lt h1, fun _ => by decide⟩
  · rw [if_neg h1]
    by_cases h2 : sa < sb
    · rw [if_pos h2]
      exact ⟨fun h => absurd h (by decide), fun h => absurd h (not_le.2 h2)⟩
    · rw [if_neg h2]
      exact ⟨fun _ => not_lt.1 h2, fun _ => le_refl _⟩

/-- On leaves that hold pixels the second call of `qsort` puts its part of the
array in descending order of saturation. -/
theorem sorted_by_saturation {F : Type} [LinearOrder F] (ops : float_ops F)
    {qsort : (octnode → octnode → Int) → List octnode → List octnode} (hq : sorts qsort)
    {nodes : List octnode} (hp : ∀ m ∈ nodes, m.isNull = false ∧ 1 ≤ m.count) :
    (qsort (compare_node_color ops) nodes).Pairwise
      (fun a b => ∀ sa sb, saturation ops a = .ok sa → saturation ops b = .ok sb → sb ≤ sa) := by
  have hord := hq.ordered (compare_node_color ops) nodes
    (by
      intro a ha b hb
      obtain ⟨sa, hsa⟩ := saturation_ok ops (hp a ha).1 (hp a ha).2
      obtain ⟨sb, hsb⟩ := saturation_ok ops (hp b hb).1 (hp b hb).2
      rw [compare_node_color_le ops hsa hsb, compare_node_color_le ops hsb hsa]
      exact LinearOrder.le_total sb sa)
    (by
      intro a ha b hb c hc
      obtain ⟨sa, hsa⟩ := saturation_ok ops (hp a ha).1 (hp a ha).2
      obtain ⟨sb, hsb⟩ := saturation_ok ops (hp b hb).1 (hp b hb).2
      obtain ⟨sc, hsc⟩ := saturation_ok ops (hp c hc).1 (hp c hc).2
      rw [compare_node_color_le ops hsa hsb, compare_node_color_le ops hsb hsc,
        compare_node_color_le ops hsa hsc]
      exact fun h1 h2 => le_trans h2 h1)
  refine hord.imp ?_
  intro a b hab sa sb hsa hsb
  exact (compare_node_color_le ops hsa hsb).1 hab

/-- A node whose three colour sums are equal has saturation 0: `get_saturation`
returns at `minv == maxv`. -/
theorem saturation_gray {F : Type} [LinearOrder F] (ops : float_ops F) {m : octnode}
    (h1 : m.isNull = false) (h2 : 1 ≤ m.count) (hrg : m.sumRed = m.sumGreen)
    (hgb : m.sumGreen = m.sumBlue) : saturation ops m = .ok ops.zero := by
  unfold saturation
  rw [get_rgb_ok ops h1 h2, ← hgb, ← hrg]
  simp [get_saturation]

/-- In a buffer of pixels with `R = G = B` every class has equal sums of red,
green and blue. -/
theorem gray_sums {tree : octree} {pixels : List Pixel} (hcl : classes tree pixels)
    (hg : ∀ p ∈ pixels, p.r = p.g ∧ p.g = p.b) {q : Ref}
    (hq : (tree.root.find q).leaf = true) :
    (tree.root.find q).sumRed = (tree.root.find q).sumGreen ∧
      (tree.root.find q).sumGreen = (tree.root.find q).sumBlue := by
  have h1 := hcl.sums .red q hq
  have h2 := hcl.sums .green q hq
  have h3 := hcl.sums .blue q hq
  simp only [tally.of] at h1 h2 h3
  have e1 : class_total .red pixels q = class_total .green pixels q := by
    unfold class_total
    congr 1
    apply List.map_congr_left
    intro p hp
    have := (hg p (mem_class_of.1 hp).1).1
    simp only [tally.weight, this]
  have e2 : class_total .green pixels q = class_total .blue pixels q := by
    unfold class_total
    congr 1
    apply List.map_congr_left
    intro p hp
    have := (hg p (mem_class_of.1 hp).1).2
    simp only [tally.weight, this]
  omega

/-! ## The leaves of the tree before any reduction, with their counts -/

theorem bytes_injective {p q : Pixel} (h : p.bytes = q.bytes) : p = q := by
  cases p; cases q
  simp only [Pixel.bytes, List.cons.injEq, and_true] at h
  obtain ⟨h1, h2, h3, h4⟩ := h
  subst h1 h2 h3 h4
  rfl

theorem class_of_path (pixels : List Pixel) (p : Pixel) :
    (class_of pixels (path p)).length = pixels.count p := by
  unfold class_of
  rw [List.count, List.countP_eq_length_filter]
  congr 1
  apply List.filter_congr
  intro x _
  by_cases hx : x = p
  · subst hx
    simp
  · have h1 : ¬ path p <+: path x := by
      intro hpre
      have := List.IsPrefix.eq_of_length hpre (by rw [path_length, path_length])
      exact hx (path_injective this).symm
    simp [h1, hx]

/-- The tree built from a buffer before any reduction has one leaf for each
distinct pixel of the buffer; the leaf has the colour of the pixel and counts
its occurrences. -/
theorem insertion_counts (pixels : List Pixel) :
    ∃ tree, add_pixels octree_create pixels = .ok tree ∧ consistent tree ∧
      tree.numLeaves = pixels.dedup.length ∧
      (pixels ≠ [] → populated tree.root) ∧
      (∀ m ∈ octree_get_leaf_nodes tree.root, ∃ p ∈ pixels,
        quad m = p.bytes ∧ m.count = pixels.count p) ∧
      (∀ p ∈ pixels, ∃ m ∈ octree_get_leaf_nodes tree.root, quad m = p.bytes) := by
  obtain ⟨tree, hrun, h⟩ := holds_add_pixels pixels holds_create
  rw [List.append_nil] at h
  obtain ⟨tree1, hrun1, hc, hleaves, hperm, hnum⟩ := insertion_tree pixels
  have heq : tree1 = tree := by
    rw [hrun] at hrun1
    simp only [Except.ok.injEq] at hrun1
    exact hrun1.symm
  subst heq
  have hcl : classes tree1 pixels := by
    have := classes_add_pixels pixels create_consistent classes_create hrun
    simpa using this
  have hpop : pixels ≠ [] → populated tree1.root := by
    intro hne
    apply h.pop
    intro h0
    exact hne (List.reverse_eq_nil_iff.1 h0)
  refine ⟨tree1, hrun, hc, hnum, hpop, ?_, ?_⟩
  · intro m hm
    obtain ⟨hleaf, q, hq⟩ := get_leaf_nodes_leaf_at _ m hm
    obtain ⟨hnn, hcount⟩ := hleaves m hm
    obtain ⟨p, hp, hr, hg, hb, ha⟩ := h.sums q (by rw [← hq]; exact hleaf)
    rw [← hq] at hr hg hb ha
    have hcnt : m.count = pixels.count p := by
      have := hcl.sums .pixels q (by rw [← hq]; exact hleaf)
      rw [← hq, class_total_pixels, ← hp, class_of_path] at this
      exact this
    refine ⟨p, ?_, ?_, hcnt⟩
    · apply List.count_pos_iff.1
      omega
    · unfold quad Pixel.bytes
      rw [hr, hg, hb, ha, channel_exact _ _ hcount, channel_exact _ _ hcount,
        channel_exact _ _ hcount, channel_exact _ _ hcount]
  · intro p hp
    have : p.bytes ∈ (octree_get_leaf_nodes tree1.root).map quad :=
      hperm.mem_iff.2 (List.mem_map.2 ⟨p, List.mem_dedup.2 hp, rfl⟩)
    obtain ⟨m, hm, hmq⟩ := List.mem_map.1 this
    exact ⟨m, hm, hmq⟩

theorem dedup_replicate_append (n : Nat) (c : Pixel) (rest : List Pixel) (hn : 1 ≤ n)
    (hc : c ∉ rest) : (List.replicate n c ++ rest).dedup = c :: rest.dedup := by
  induction n with
  | zero => omega
  | succ n ih =>
    rw [List.replicate_succ, List.cons_append]
    by_cases h0 : n = 0
    · subst h0
      simp only [List.replicate_zero, List.nil_append]
      exact List.dedup_cons_of_not_mem hc
    · rw [List.dedup_cons_of_mem (by
        rw [List.mem_append]
        left
        exact List.mem_replicate.2 ⟨h0, rfl⟩)]
      exact ih (by omega)

/-- The colour `get_dominant_color` returns on a buffer of at most seven
distinct colours, when the values of the population comparator on the counts
of the colours rank the colours: the colour ranked first. -/
theorem dominant_of_ranking
    (qsort : (octnode → octnode → Int) → List octnode → List octnode)
    (compare_node_color : octnode → octnode → Int) (hq : sorts qsort) (pixels : List Pixel)
    (hne : pixels ≠ []) (hfew : pixels.dedup.length < 8) (rank : Pixel → Nat)
    (hrank : ∀ p1 ∈ pixels, ∀ p2 ∈ pixels,
      (size_order (pixels.count p1) (pixels.count p2) ≤ 0 ↔ rank p1 ≤ rank p2))
    (winner : Pixel)
    (hw : ∀ p ∈ pixels, p ≠ winner → ∃ p1 ∈ pixels, ¬ rank p ≤ rank p1) :
    get_dominant_color qsort compare_node_color pixels = .ok winner.bytes := by
  obtain ⟨tree, hadd, hc, hnum, hpop, hleaf, hcol⟩ := insertion_counts pixels
  obtain ⟨tree1, hred, _, _, _, _, hsame⟩ := reduce_to_spec 16 hc (by decide)
  have := hsame (by omega)
  subst this
  obtain ⟨leaf, rest, hranked, hmem, _, hrun⟩ :=
    get_dominant_color_eq compare_node_color hadd hred hc (hpop hne) hq.perm
  rw [hrun]
  congr 1
  -- the comparator ranks the leaves as `rank` ranks their colours
  have hcmp : ∀ a ∈ octree_get_leaf_nodes tree1.root, ∀ b ∈ octree_get_leaf_nodes tree1.root,
      ∀ pa pb, quad a = pa.bytes → quad b = pb.bytes →
        (compare_node_size a b ≤ 0 ↔ rank pa ≤ rank pb) := by
    intro a ha b hb pa pb hqa hqb
    obtain ⟨p1, hp1, hq1, hc1⟩ := hleaf a ha
    obtain ⟨p2, hp2, hq2, hc2⟩ := hleaf b hb
    have e1 : p1 = pa := bytes_injective (hq1.symm.trans hqa)
    have e2 : p2 = pb := bytes_injective (hq2.symm.trans hqb)
    subst e1 e2
    rw [compare_node_size_eq, hc1, hc2]
    exact hrank p1 hp1 p2 hp2
  have hord := hq.ordered compare_node_size (octree_get_leaf_nodes tree1.root)
    (by
      intro a ha b hb
      obtain ⟨p1, _, hq1, _⟩ := hleaf a ha
      obtain ⟨p2, _, hq2, _⟩ := hleaf b hb
      rw [hcmp a ha b hb p1 p2 hq1 hq2, hcmp b hb a ha p2 p1 hq2 hq1]
      omega)
    (by
      intro a ha b hb c hc1
      obtain ⟨p1, _, hq1, _⟩ := hleaf a ha
      obtain ⟨p2, _, hq2, _⟩ := hleaf b hb
      obtain ⟨p3, _, hq3, _⟩ := hleaf c hc1
      rw [hcmp a ha b hb p1 p2 hq1 hq2, hcmp b hb c hc1 p2 p3 hq2 hq3,
        hcmp a ha c hc1 p1 p3 hq1 hq3]
      omega)
  have hpermS := hq.perm compare_node_size (octree_get_leaf_nodes tree1.root)
  -- the array after the second call of `qsort` is the array after the first
  have hsorted : qsort compare_node_size (octree_get_leaf_nodes tree1.root) = leaf :: rest := by
    rw [← hranked]
    have hk : tree1.numLeaves / 4 ≤ 1 := by omega
    rcases Nat.le_one_iff_eq_zero_or_eq_one.1 hk with h0 | h1
    · rw [h0, List.take_zero, List.drop_zero, List.perm_nil.1 (hq.perm compare_node_color []),
        List.nil_append]
    · rw [h1]
      cases hs : qsort compare_node_size (octree_get_leaf_nodes tree1.root) with
      | nil => simp [List.perm_nil.1 (hq.perm compare_node_color [])]
      | cons x xs =>
        simp only [List.take_succ_cons, List.take_zero, List.drop_succ_cons, List.drop_zero]
        rw [List.perm_singleton.1 (hq.perm compare_node_color [x])]
        rfl
  rw [hsorted] at hord hpermS
  rw [List.pairwise_cons] at hord
  obtain ⟨p, hp, hqp, _⟩ := hleaf leaf hmem
  rw [hqp]
  by_contra hneq
  have hpw : p ≠ winner := fun h => hneq (by rw [h])
  obtain ⟨p1, hp1, hr1⟩ := hw p hp hpw
  obtain ⟨m1, hm1, hq1⟩ := hcol p1 hp1
  have hm1s : m1 ∈ leaf :: rest := hpermS.mem_iff.2 hm1
  rcases List.mem_cons.1 hm1s with h1 | h1
  · subst h1
    have : p1 = p := bytes_injective (hq1.symm.trans hqp)
    subst this
    exact hr1 (Nat.le_refl _)
  · exact hr1 ((hcmp leaf hmem m1 hm1 p p1 hqp hq1).1 (hord.1 m1 h1))

/-! ## Buffers made of runs -/

theorem mem_runs {colours : List (Pixel × Nat)} {p : Pixel} (h : p ∈ runs colours) :
    ∃ x ∈ colours, x.1 = p := by
  induction colours with
  | nil => simp [runs] at h
  | cons x rest ih =>
    obtain ⟨c, n⟩ := x
    unfold runs at h
    rcases List.mem_append.1 h with h | h
    · exact ⟨(c, n), List.mem_cons_self _ _, (List.eq_of_mem_replicate h).symm⟩
    · obtain ⟨y, hy, hyp⟩ := ih h
      exact ⟨y, List.mem_cons_of_mem _ hy, hyp⟩

theorem runs_mem {colours : List (Pixel × Nat)} (hpos : ∀ x ∈ colours, 1 ≤ x.2)
    {x : Pixel × Nat} (hx : x ∈ colours) : x.1 ∈ runs colours := by
  induction colours with
  | nil => cases hx
  | cons y rest ih =>
    obtain ⟨c, n⟩ := y
    unfold runs
    rw [List.mem_append]
    rcases List.mem_cons.1 hx with h | h
    · left
      subst h
      have := hpos (c, n) (List.mem_cons_self _ _)
      exact List.mem_replicate.2 ⟨by simp only at this; omega, rfl⟩
    · right
      exact ih (fun z hz => hpos z (List.mem_cons_of_mem _ hz)) h

theorem count_runs {colours : List (Pixel × Nat)} (hnd : (colours.map Prod.fst).Nodup)
    {x : Pixel × Nat} (hx : x ∈ colours) : (runs colours).count x.1 = x.2 := by
  induction colours with
  | nil => cases hx
  | cons y rest ih =>
    obtain ⟨c, n⟩ := y
    rw [List.map_cons, List.nodup_cons] at hnd
    unfold runs
    rw [List.count_append]
    have hzero : ∀ p, p ∉ rest.map Prod.fst → (runs rest).count p = 0 := by
      intro p hp
      apply List.count_eq_zero.2
      intro hmem
      obtain ⟨z, hz, hzp⟩ := mem_runs hmem
      exact hp (List.mem_map.2 ⟨z, hz, hzp⟩)
    rcases List.mem_cons.1 hx with h | h
    · subst h
      rw [List.count_replicate_self, hzero c hnd.1]
      rfl
    · have hne : c ≠ x.1 := by
        intro hcx
        exact hnd.1 (by rw [hcx]; exact List.mem_map.2 ⟨x, h, rfl⟩)
      rw [List.count_replicate, ih hnd.2 h]
      have : (c == x.1) = false := by simpa using hne
      rw [this]
      simp

theorem dedup_runs {colours : List (Pixel × Nat)} (hnd : (colours.map Prod.fst).Nodup)
    (hpos : ∀ x ∈ colours, 1 ≤ x.2) : (runs colours).dedup = colours.map Prod.fst := by
  induction colours with
  | nil => rfl
  | cons y rest ih =>
    obtain ⟨c, n⟩ := y
    rw [List.map_cons, List.nodup_cons] at hnd
    unfold runs
    rw [dedup_replicate_append n c _ (hpos (c, n) (List.mem_cons_self _ _)) (by
      intro hmem
      obtain ⟨z, hz, hzp⟩ := mem_runs hmem
      exact hnd.1 (List.mem_map.2 ⟨z, hz, hzp⟩)),
      ih hnd.2 (fun z hz => hpos z (List.mem_cons_of_mem _ hz))]
    rfl

/-- The colour `get_dominant_color` returns on a buffer made of runs of fewer
than eight distinct colours, when the values of the population comparator on
the lengths of the runs rank the colours: the colour ranked first.  With the
tree it has built: one leaf for each run, with the colour of the run and its
length as count. -/
theorem dominant_of_runs
    (qsort : (octnode → octnode → Int) → List octnode → List octnode)
    (compare_node_color : octnode → octnode → Int) (hq : sorts qsort)
    (colours : List (Pixel × Nat)) (hne : colours ≠ [])
    (hnd : (colours.map Prod.fst).Nodup) (hpos : ∀ x ∈ colours, 1 ≤ x.2)
    (hfew : colours.length < 8) (rank : Pixel → Nat)
    (hrank : ∀ x ∈ colours, ∀ y ∈ colours, (size_order x.2 y.2 ≤ 0 ↔ rank x.1 ≤ rank y.1))
    (winner : Pixel)
    (hw : ∀ x ∈ colours, x.1 ≠ winner → ∃ y ∈ colours, ¬ rank x.1 ≤ rank y.1) :
    ∃ tree0 tree, add_pixels octree_create (runs colours) = .ok tree0 ∧
      reduce_to tree0 16 = .ok tree ∧ tree.numLeaves = colours.length ∧
      (∀ x ∈ colours, ∃ m ∈ octree_get_leaf_nodes tree.root,
        quad m = x.1.bytes ∧ m.count = x.2) ∧
      get_dominant_color qsort compare_node_color (runs colours) = .ok winner.bytes := by
  obtain ⟨tree, hadd, hc, hnum, hpop, hleaf, hcol⟩ := insertion_counts (runs colours)
  obtain ⟨tree1, hred, _, _, _, _, hsame⟩ := reduce_to_spec 16 hc (by decide)
  rw [dedup_runs hnd hpos, List.length_map] at hnum
  have := hsame (by omega)
  subst this
  refine ⟨tree1, tree1, hadd, hred, hnum, ?_, ?_⟩
  · intro x hx
    obtain ⟨m, hm, hmq⟩ := hcol x.1 (runs_mem hpos hx)
    obtain ⟨p, hp, hpq, hpc⟩ := hleaf m hm
    have : p = x.1 := bytes_injective (hpq.symm.trans hmq)
    subst this
    exact ⟨m, hm, hmq, by rw [hpc, count_runs hnd hx]⟩
  · apply dominant_of_ranking qsort compare_node_color hq (runs colours) _ _ rank _ winner
    · intro p hp hpw
      obtain ⟨x, hx, hxp⟩ := mem_runs hp
      subst hxp
      obtain ⟨y, hy, hr⟩ := hw x hx hpw
      exact ⟨y.1, runs_mem hpos hy, hr⟩
    · obtain ⟨x, rest, hx⟩ := List.exists_cons_of_ne_nil hne
      intro h0
      have := runs_mem hpos (show x ∈ colours by rw [hx]; exact List.mem_cons_self _ _)
      rw [h0] at this
      cases this
    · rw [dedup_runs hnd hpos, List.length_map]
      exact hfew
    · intro p1 h1 p2 h2
      obtain ⟨x, hx, hxp⟩ := mem_runs h1
      obtain ⟨y, hy, hyp⟩ := mem_runs h2
      subst hxp hyp
      rw [count_runs hnd hx, count_runs hnd hy]
      exact hrank x hx y hy

/-! ## The dominant colour of a buffer of fewer than `2^31` pixels -/

/-- The array of leaves after the first call of `qsort`, for a buffer of fewer
than `2^31` pixels: the leaves of the tree in descending order of `numPixels`. -/
theorem first_sort {qsort : (octnode → octnode → Int) → List octnode → List octnode}
    (hq : sorts qsort) {pixels : List Pixel} (hsmall : pixels.length < 2 ^ 31) {tree : octree}
    (htot : ∀ t : tally, leaf_total t tree.root = (pixels.map t.weight).sum) :
    (qsort compare_node_size (octree_get_leaf_nodes tree.root)).Perm
        (octree_get_leaf_nodes tree.root) ∧
      (qsort compare_node_size (octree_get_leaf_nodes tree.root)).Pairwise
        (fun a b => b.count ≤ a.count) :=
  ⟨hq.perm _ _, sorted_by_count hq hsmall (leaf_count_le htot)⟩

theorem head_is_greatest {sorted : List octnode} {leaf : octnode} {rest : List octnode}
    (h : sorted = leaf :: rest) (hs : sorted.Pairwise (fun a b => b.count ≤ a.count)) :
    ∀ m ∈ sorted, m.count ≤ leaf.count := by
  subst h
  rw [List.pairwise_cons] at hs
  intro m hm
  rcases List.mem_cons.1 hm with h1 | h1
  · rw [h1]
  · exact hs.1 m h1

/-- With fewer than four leaves (and fewer than `2^31` pixels)
`get_dominant_color` returns the colour of a leaf with the greatest count:
the saturation comparator is not consulted. -/
theorem dominant_few_leaves
    (qsort : (octnode → octnode → Int) → List octnode → List octnode)
    (compare_node_color : octnode → octnode → Int) (hq : sorts qsort) (pixels : List Pixel)
    (hne : pixels ≠ []) (hsmall : pixels.length < 2 ^ 31) :
    ∃ tree0 tree, add_pixels octree_create pixels = .ok tree0 ∧
      reduce_to tree0 16 = .ok tree ∧
      (tree.numLeaves < 4 → ∃ leaf ∈ octree_get_leaf_nodes tree.root,
        (∀ m ∈ octree_get_leaf_nodes tree.root, m.count ≤ leaf.count) ∧
        get_dominant_color qsort compare_node_color pixels = .ok (quad leaf)) := by
  obtain ⟨tree0, tree, hadd, hred, _, hc, _, _, _, hpop, _, _, htot⟩ :=
    built_tree pixels 16 (by decide)
  refine ⟨tree0, tree, hadd, hred, ?_⟩
  intro h4
  obtain ⟨leaf, rest, hranked, hmem, _, hrun⟩ :=
    get_dominant_color_eq compare_node_color hadd hred hc (hpop hne) hq.perm
  obtain ⟨hperm, hsorted⟩ := first_sort hq hsmall htot
  have hk : tree.numLeaves / 4 = 0 := by omega
  rw [hk, List.take_zero, List.drop_zero, List.perm_nil.1 (hq.perm compare_node_color []),
    List.nil_append] at hranked
  refine ⟨leaf, hmem, ?_, hrun⟩
  intro m hm
  exact head_is_greatest hranked hsorted m (hperm.mem_iff.2 hm)

/-- With four leaves or more (and fewer than `2^31` pixels)
`get_dominant_color` returns the colour of a leaf that is among the first
`numLeaves / 4` leaves in descending order of count and has the greatest
saturation among them. -/
theorem dominant_top_quarter {F : Type} [LinearOrder F] (ops : float_ops F)
    (qsort : (octnode → octnode → Int) → List octnode → List octnode) (hq : sorts qsort)
    (pixels : List Pixel) (hne : pixels ≠ []) (hsmall : pixels.length < 2 ^ 31) :
    ∃ (tree0 tree : octree) (sorted : List octnode),
      add_pixels octree_create pixels = .ok tree0 ∧
      reduce_to tree0 16 = .ok tree ∧
      sorted.Perm (octree_get_leaf_nodes tree.root) ∧
      sorted.Pairwise (fun a b => b.count ≤ a.count) ∧
      (4 ≤ tree.numLeaves → ∃ leaf ∈ sorted.take (tree.numLeaves / 4),
        (∃ sl, saturation ops leaf = .ok sl ∧
          ∀ m ∈ sorted.take (tree.numLeaves / 4), ∃ s, saturation ops m = .ok s ∧ s ≤ sl) ∧
        get_dominant_color qsort (compare_node_color ops) pixels = .ok (quad leaf)) := by
  obtain ⟨tree0, tree, hadd, hred, _, hc, _, _, _, hpop, _, _, htot⟩ :=
    built_tree pixels 16 (by decide)
  obtain ⟨hperm, hsorted⟩ := first_sort hq hsmall htot
  refine ⟨tree0, tree, _, hadd, hred, hperm, hsorted, ?_⟩
  intro h4
  obtain ⟨leaf, rest, hranked, hmem, _, hrun⟩ :=
    get_dominant_color_eq (compare_node_color ops) hadd hred hc (hpop hne) hq.perm
  have hleaves := populated_leaves (hpop hne)
  have hpre : ∀ m ∈ (qsort compare_node_size (octree_get_leaf_nodes tree.root)).take
      (tree.numLeaves / 4), m.isNull = false ∧ 1 ≤ m.count := fun m hm =>
    hleaves m (hperm.mem_iff.1 (List.mem_of_mem_take hm))
  have hsat := sorted_by_saturation ops hq hpre
  have hp2 := hq.perm (compare_node_color ops)
    ((qsort compare_node_size (octree_get_leaf_nodes tree.root)).take (tree.numLeaves / 4))
  have hlen := consistent_leaves hc
  cases hs : qsort (compare_node_color ops)
      ((qsort compare_node_size (octree_get_leaf_nodes tree.root)).take
        (tree.numLeaves / 4)) with
  | nil =>
    rw [hs] at hp2
    have h0 := hp2.length_eq
    rw [List.length_nil, List.length_take, hperm.length_eq, hlen] at h0
    have : 1 ≤ tree.numLeaves / 4 := by omega
    omega
  | cons x xs =>
    rw [hs] at hranked hsat hp2
    simp only [List.cons_append, List.cons.injEq] at hranked
    obtain ⟨hx, _⟩ := hranked
    subst hx
    rw [List.pairwise_cons] at hsat
    obtain ⟨sl, hsl⟩ := saturation_ok ops (hleaves x hmem).1 (hleaves x hmem).2
    refine ⟨x, hp2.mem_iff.1 (List.mem_cons_self _ _), ⟨sl, hsl, ?_⟩, hrun⟩
    intro m hm
    obtain ⟨s, hsm⟩ := saturation_ok ops (hpre m hm).1 (hpre m hm).2
    refine ⟨s, hsm, ?_⟩
    rcases List.mem_cons.1 (hp2.mem_iff.2 hm) with h1 | h1
    · subst h1
      rw [hsl] at hsm
      simp only [Except.ok.injEq] at hsm
      rw [hsm]
    · exact hsat.1 m h1 sl s hsl hsm

/-- On a buffer of pixels with `R = G = B` (and fewer than `2^31` of them)
every leaf, after the insertions and after any number of reductions, has equal
averaged red, green and blue and saturation 0, and `get_dominant_color`
returns the colour of a leaf with the greatest count. -/
theorem dominant_gray {F : Type} [LinearOrder F] (ops : float_ops F)
    (qsort : (octnode → octnode → Int) → List octnode → List octnode) (hq : sorts qsort)
    (pixels : List Pixel) (hne : pixels ≠ []) (hsmall : pixels.length < 2 ^ 31)
    (hgray : ∀ p ∈ pixels, p.r = p.g ∧ p.g = p.b) :
    ∃ tree0 tree, add_pixels octree_create pixels = .ok tree0 ∧
      reduce_to tree0 16 = .ok tree ∧
      (∀ k, ∃ stage, reduce_times k tree0 = .ok stage ∧
        ∀ m ∈ octree_get_leaf_nodes stage.root,
          m.sumRed / m.count = m.sumGreen / m.count ∧
          m.sumGreen / m.count = m.sumBlue / m.count ∧ saturation ops m = .ok ops.zero) ∧
      ∃ leaf ∈ octree_get_leaf_nodes tree.root,
        (∀ m ∈ octree_get_leaf_nodes tree.root, m.count ≤ leaf.count) ∧
        get_dominant_color qsort (compare_node_color ops) pixels = .ok (quad leaf) := by
  obtain ⟨tree0, tree, hadd, hred, hc0, hc, hcl0, hcl, hpop0, hpop, _, _, htot⟩ :=
    built_tree pixels 16 (by decide)
  have hstage : ∀ {stage : octree}, classes stage pixels → populated stage.root →
      ∀ m ∈ octree_get_leaf_nodes stage.root,
        m.sumRed = m.sumGreen ∧ m.sumGreen = m.sumBlue ∧ saturation ops m = .ok ops.zero := by
    intro stage hcls hpops m hm
    obtain ⟨hleaf, q, hmq⟩ := get_leaf_nodes_leaf_at _ m hm
    obtain ⟨h1, h2⟩ := gray_sums hcls hgray (q := q) (by rw [← hmq]; exact hleaf)
    rw [← hmq] at h1 h2
    obtain ⟨h3, h4⟩ := populated_leaves hpops m hm
    exact ⟨h1, h2, saturation_gray ops h3 h4 h1 h2⟩
  refine ⟨tree0, tree, hadd, hred, ?_, ?_⟩
  · intro k
    obtain ⟨stage, hrun, _, _, hp⟩ := reduce_times_spec k hc0
    refine ⟨stage, hrun, ?_⟩
    intro m hm
    obtain ⟨h1, h2, h3⟩ :=
      hstage (classes_reduce_times k hc0 hcl0 hrun) (hp (hpop0 hne)) m hm
    exact ⟨by rw [h1], by rw [h2], h3⟩
  · obtain ⟨leaf, rest, hranked, hmem, _, hrun⟩ :=
      get_dominant_color_eq (compare_node_color ops) hadd hred hc (hpop hne) hq.perm
    obtain ⟨hperm, hsorted⟩ := first_sort hq hsmall htot
    have hzero : ∀ a ∈ octree_get_leaf_nodes tree.root,
        ∀ b ∈ octree_get_leaf_nodes tree.root, compare_node_color ops a b ≤ 0 := by
      intro a ha b hb
      rw [compare_node_color_le ops (hstage hcl (hpop hne) a ha).2.2
        (hstage hcl (hpop hne) b hb).2.2]
    have hpw : ((qsort compare_node_size (octree_get_leaf_nodes tree.root)).take
        (tree.numLeaves / 4)).Pairwise (fun a b => compare_node_color ops a b ≤ 0) := by
      have htrue : ((qsort compare_node_size (octree_get_leaf_nodes tree.root)).take
          (tree.numLeaves / 4)).Pairwise (fun _ _ => True) :=
        List.pairwise_of_forall (fun _ _ => trivial)
      refine htrue.imp_of_mem ?_
      intro a b ha hb _
      exact hzero a (hperm.mem_iff.1 (List.mem_of_mem_take ha)) b
        (hperm.mem_iff.1 (List.mem_of_mem_take hb))
    rw [hq.stable _ _ hpw, List.take_append_drop] at hranked
    refine ⟨leaf, hmem, ?_, hrun⟩
    intro m hm
    exact head_is_greatest hranked hsorted m (hperm.mem_iff.2 hm)

theorem two_clusters_runs :
    two_clusters = runs [(⟨255, 0, 0, 255⟩, 100), (⟨0, 255, 0, 255⟩, 10)] := by
  unfold two_clusters
  rw [runs, runs, runs, List.append_nil]

/-- On the two-cluster image, 100 pixels `(255, 0, 0, 255)` and 10 pixels
`(0, 255, 0, 255)`, `get_dominant_color` returns `(255, 0, 0, 255)`, for every
`qsort` that sorts and every saturation comparator. -/
theorem dominant_two_clusters
    (qsort : (octnode → octnode → Int) → List octnode → List octnode)
    (compare_node_color : octnode → octnode → Int) (hq : sorts qsort) :
    get_dominant_color qsort compare_node_color two_clusters = .ok [255, 0, 0, 255] := by
  rw [two_clusters_runs]
  obtain ⟨_, _, _, _, _, _, h⟩ := dominant_of_runs qsort compare_node_color hq
    [(⟨255, 0, 0, 255⟩, 100), (⟨0, 255, 0, 255⟩, 10)] (by decide) (by decide) (by decide)
    (by decide) (fun p => if p = ⟨255, 0, 0, 255⟩ then 0 else 1) (by decide)
    ⟨255, 0, 0, 255⟩ (by decide)
  exact h

/-! ## The child index -/

/-- C14: for every pixel and every level `0 .. 7` the child index that
`octree_add_pixel_to_node` computes is `8 * bit r + 4 * bit g + 2 * bit b +
bit a`, where `bit x = (x >> (7 - level)) & 1`, and it lies in `0 .. 15`. -/
theorem child_index_bits (pixel : Pixel) (level : Nat) (h : level < BIT_DEPTH) :
    child_index pixel level =
      8 * ((pixel.r.val >>> (7 - level)) &&& 1) + 4 * ((pixel.g.val >>> (7 - level)) &&& 1) +
        2 * ((pixel.b.val >>> (7 - level)) &&& 1) + ((pixel.a.val >>> (7 - level)) &&& 1) ∧
      child_index pixel level < 16 :=
  ⟨child_index_eq pixel level h, child_index_lt pixel level h⟩

theorem child_index_bits_witness :
    (3 : Nat) < BIT_DEPTH ∧ child_index ⟨0x1F, 0xE0, 0x10, 0xEF⟩ 3 = 10 ∧
      child_index ⟨0x1F, 0xE0, 0x10, 0xEF⟩ 3 < 16 :=
  ⟨by decide,
    (child_index_bits ⟨0x1F, 0xE0, 0x10, 0xEF⟩ 3 (by decide)).1.trans (by decide),
    (child_index_bits ⟨0x1F, 0xE0, 0x10, 0xEF⟩ 3 (by decide)).2⟩

/-! ## One reduction step -/

/-- C15: on a reachable tree with a queue that is not empty, `octree_reduce`
takes the head `self` of the queue of the deepest level `i` whose queue is not
empty (the queues are stacks, so the head is the node of that level created
last among those that are not leaves); `self` is a node of level `i` that is
not a leaf and whose children are leaves.  Afterwards `self` is a leaf without
children that holds, in `numPixels` and in each channel sum, the sum over its
former children; queue `i` has lost its head and no longer holds `self`;
`numLeaves` plus the number of children merged is the old `numLeaves` plus 1;
every other queue and the fields of every node that is not `self` or below it
are as before. -/
theorem reduce_collapses_deepest (tree : octree) (h : reachable tree) (l0 : Nat)
    (hq : tree.heads.getD l0 [] ≠ []) :
    ∃ i self next tree1,
      i < BIT_DEPTH ∧ tree.heads.getD i [] = self :: next ∧
      (∀ l, i < l → tree.heads.getD l [] = []) ∧
      self.length = i ∧ (tree.root.find self).internal = true ∧
      (∀ c ∈ (tree.root.find self).kids, c.isNull = true ∨ c.leaf = true) ∧
      octree_reduce tree = .ok tree1 ∧
      (tree1.root.find self).leaf = true ∧
      (∀ t : tally, t.of (tree1.root.find self) = total t.of (tree.root.find self).kids) ∧
      (∀ c ∈ (tree1.root.find self).kids, c = .null) ∧
      (∀ j q, tree1.root.find (self ++ j :: q) = .null) ∧
      tree1.heads.getD i [] = next ∧ self ∉ next ∧
      (∀ l, l ≠ i → tree1.heads.getD l [] = tree.heads.getD l []) ∧
      tree1.numLeaves + occupied (tree.root.find self).kids = tree.numLeaves + 1 ∧
      (∀ q, ¬ self <+: q → (tree1.root.find q).head = (tree.root.find q).head) ∧
      (∀ q, ¬ self <+: q → ¬ q <+: self → tree1.root.find q = tree.root.find q) := by
  have hc := reachable_consistent h
  have hbeyond := heads_beyond hc.heads_length
  cases hs : selected BIT_DEPTH tree with
  | none => exact absurd (selected_none hs hbeyond l0) hq
  | some sel =>
    obtain ⟨i, self⟩ := sel
    obtain ⟨hi, ⟨next, hsel⟩, habove⟩ := selected_some hs hbeyond
    have hmem : self ∈ tree.heads.getD i [] := by rw [hsel]; exact List.mem_cons_self _ _
    obtain ⟨hform, _, hlen, _, hkids⟩ := selected_children hc hmem habove
    have hint := (hc.queued_internal i self hmem).2
    have hnn := octnode.internal_not_null hint
    have hle := occupied_le_leaves hc hsel habove
    have hrun := reduce_eq hc
    rw [hs] at hrun
    have hfind : (collapse tree i self).root.find self =
        merged_leaf (tree.root.find self).kids := by
      have := octnode.find_replace_self (merged_leaf (tree.root.find self).kids) [] hnn
      simpa [collapse, octnode.find_nil] using this
    have hnd := hc.queues_nodup i
    rw [hsel, List.nodup_cons] at hnd
    refine ⟨i, self, next, _, hi, hsel, habove, hlen, hint, ?_, hrun, ?_, ?_, ?_, ?_, ?_,
      hnd.1, ?_, ?_, ?_, ?_⟩
    · intro c hcm
      rcases hkids c hcm with h1 | h1
      · exact Or.inl h1
      · exact Or.inr h1.1
    · rw [hfind]; rfl
    · intro t
      rw [hfind]
      exact tally_of_merged_leaf t _
    · rw [hfind]
      intro c hcm
      simp only [merged_leaf, octnode.kids_node] at hcm
      exact List.eq_of_mem_replicate hcm
    · intro j q
      have := octnode.find_replace_self (merged_leaf (tree.root.find self).kids) (j :: q) hnn
      rw [find_merged_leaf] at this
      exact this
    · show (tree.heads.set i (tree.heads.getD i []).tail).getD i [] = next
      rw [getD_set_self _ _ _ _ (by rw [hc.heads_length]; exact hi), hsel]
      rfl
    · intro l hl
      show (tree.heads.set i (tree.heads.getD i []).tail).getD l [] = _
      exact getD_set_other _ _ _ _ _ (Ne.symm hl)
    · show tree.numLeaves - occupied (tree.root.find self).kids + 1 +
        occupied (tree.root.find self).kids = tree.numLeaves + 1
      omega
    · intro q hq1
      exact octnode.find_replace_above _ hq1
    · intro q hq1 hq2
      exact octnode.find_replace_apart _ hq1 hq2

set_option maxRecDepth 100000 in
theorem reduce_collapses_deepest_witness :
    ∃ tree : octree, reachable tree ∧ tree.heads.getD 7 [] ≠ [] ∧
      ∃ i self next tree1, i < BIT_DEPTH ∧ tree.heads.getD i [] = self :: next ∧
        octree_reduce tree = .ok tree1 ∧ (tree1.root.find self).leaf = true ∧
        tree1.numLeaves + occupied (tree.root.find self).kids = tree.numLeaves + 1 := by
  obtain ⟨tree, hrun, hreach⟩ := (reachable_progress reachable.create).1 ⟨1, 2, 3, 4⟩
  have h7 : tree.heads.getD 7 [] ≠ [] := by
    have hd : (match octree_add_pixel octree_create ⟨1, 2, 3, 4⟩ with
        | .ok t => decide (t.heads.getD 7 [] ≠ [])
        | .error _ => false) = true := by decide
    rw [hrun] at hd
    simpa using hd
  obtain ⟨i, self, next, tree1, h1, h2, _, _, _, _, h3, h4, _, _, _, _, _, _, h5, _⟩ :=
    reduce_collapses_deepest tree hreach 7 h7
  exact ⟨tree, hreach, h7, i, self, next, tree1, h1, h2, h3, h4, h5⟩

/-! ## The population comparator -/

/-- C18: `compare_node_size` on leaves with 3221225473 and 1 pixels returns
the positive number 1073741824 although the first leaf holds more pixels, and
on leaves with 4294967297 and 1 pixels it returns 0 although the counts
differ: narrowing the `size_t` difference to `int` loses its sign. -/
theorem compare_node_size_narrowed :
    compare_node_size (.node true 3221225473 0 0 0 0 []) (.node true 1 0 0 0 0 []) =
        1073741824 ∧
      compare_node_size (.node true 1 0 0 0 0 []) (.node true 3221225473 0 0 0 0 []) =
        -1073741824 ∧
      compare_node_size (.node true 4294967297 0 0 0 0 []) (.node true 1 0 0 0 0 []) = 0 := by
  decide

/-! ## Accesses past the end of `heads` -/

set_option maxRecDepth 100000 in
/-- C19: on the tree that holds the single pixel `(0, 0, 0, 0)`, a reachable
tree, both `octree_reduce` and `octree_destroy` read `tree->heads[8]`, one
past the end of the array: `octree_destroy_node` is called on a node of level
`BIT_DEPTH` and compares `tree->heads[level]` with it. -/
theorem reduce_reads_past_heads :
    ∃ tree, octree_add_pixel octree_create ⟨0, 0, 0, 0⟩ = .ok tree ∧ reachable tree ∧
      access.heads BIT_DEPTH ∈ reduce_accesses BIT_DEPTH tree ∧
      access.heads BIT_DEPTH ∈ destroy_accesses tree ∧
      (access.heads BIT_DEPTH).in_bounds = false := by
  obtain ⟨tree, hrun, hreach⟩ := (reachable_progress reachable.create).1 ⟨0, 0, 0, 0⟩
  have hd : (match octree_add_pixel octree_create ⟨0, 0, 0, 0⟩ with
      | .ok t => decide (access.heads BIT_DEPTH ∈ reduce_accesses BIT_DEPTH t ∧
          access.heads BIT_DEPTH ∈ destroy_accesses t)
      | .error _ => false) = true := by decide
  rw [hrun] at hd
  simp only [decide_eq_true_eq] at hd
  exact ⟨tree, hrun, hreach, hd.1, hd.2, by decide⟩

/-! ## The reduction loop ends -/

theorem reduce_calls_mono (fuel : Nat) :
    ∀ (tree : octree) (bound : Nat) (out : octree × Nat) (k : Nat),
      reduce_calls fuel tree bound = .ok out → reduce_calls (fuel + k) tree bound = .ok out := by
  induction fuel with
  | zero =>
    intro tree bound out k h
    unfold reduce_calls at h
    split at h
    · rename_i hle
      unfold reduce_calls
      rw [if_pos hle]
      exact h
    · simp at h
  | succ fuel ih =>
    intro tree bound out k h
    unfold reduce_calls at h
    split at h
    · rename_i hle
      unfold reduce_calls
      rw [if_pos hle]
      exact h
    · rename_i hle
      rw [show fuel + 1 + k = (fuel + k) + 1 by omega]
      rw [reduce_calls, if_neg hle]
      simp only at h ⊢
      split at h
      · simp at h
      · rename_i t1 hrun
        split at h
        · simp at h
        · rename_i t2 calls hrec
          rw [ih _ _ _ k hrec]
          exact h

/-- C16: for every pixel buffer and every bound of at least 8 (the
`max_colors` of `get_palette`, the 16 of `get_dominant_color`) the loop
`while (numLeaves > bound) octree_reduce(tree)` on the tree built from the
buffer ends: allowed as many iterations as the tree has nodes that are not
leaves, or more, it comes to `numLeaves ≤ bound` after `calls` calls of
`octree_reduce`, where `calls` is at most the number of those nodes; the tree
it ends with is the one `get_palette` and `get_dominant_color` go on with. -/
theorem reduce_loop_terminates (pixels : List Pixel) (bound : Nat) (h8 : 8 ≤ bound) :
    ∃ tree0 tree calls, add_pixels octree_create pixels = .ok tree0 ∧
      (∀ fuel, count_internal tree0.root ≤ fuel →
        reduce_calls fuel tree0 bound = .ok (tree, calls)) ∧
      reduce_to tree0 bound = .ok tree ∧ reduce_times calls tree0 = .ok tree ∧
      calls ≤ count_internal tree0.root ∧ tree.numLeaves ≤ bound := by
  obtain ⟨tree0, hadd, hc0, _, _⟩ := add_pixels_spec pixels create_consistent create_unpopulated
  have hq := reachable_queued (add_pixels_reachable pixels reachable.create hadd)
  obtain ⟨tree, calls, h1, h2, h3, h4, h5, _⟩ :=
    reduce_calls_spec (queued tree0) tree0 bound hc0 (by omega) (Nat.le_refl _)
  refine ⟨tree0, tree, calls, hadd, ?_, h2, h4, by omega, h5⟩
  intro fuel hf
  have := reduce_calls_mono _ _ _ _ (fuel - queued tree0) h1
  rwa [show queued tree0 + (fuel - queued tree0) = fuel by omega] at this

theorem reduce_loop_terminates_witness :
    (8 : Nat) ≤ 8 ∧ ∃ tree0 tree calls, add_pixels octree_create twenty_colours = .ok tree0 ∧
      (∀ fuel, count_internal tree0.root ≤ fuel →
        reduce_calls fuel tree0 8 = .ok (tree, calls)) ∧
      reduce_to tree0 8 = .ok tree ∧ reduce_times calls tree0 = .ok tree ∧
      calls ≤ count_internal tree0.root ∧ tree.numLeaves ≤ 8 :=
  ⟨by decide, reduce_loop_terminates twenty_colours 8 (by decide)⟩

/-! ## The palette as the means of a partition -/

/-- C17: for every pixel buffer and `max_colors ≥ 8` (and an output buffer with
room for `max_colors` colours) `get_palette` emits, for the references `refs`
of the leaves of the final tree in the order in which `octree_get_leaf_nodes`
collects them (depth first, child slots ascending: lexicographic order), the
truncated mean colours of the classes `class_of pixels q`, `q` in `refs`,
where the class of `q` holds all pixels of the buffer whose child indices at
the levels `0 .. q.length - 1` are the entries of `q`, that is, all pixels
that agree with a pixel of the class on the top `q.length` bits of each
channel.  Each class is non-empty, `q.length ≤ 8`, the means fit a byte, and
the classes partition the buffer: every pixel lies in the class of exactly one
reference of `refs`. -/
theorem get_palette_class_means (pixels : List Pixel) (colors : List uint8_t) (numColors : Nat)
    (h8 : 8 ≤ numColors) (hlen : numColors * 4 ≤ colors.length) :
    ∃ (tree0 tree : octree) (refs : List Ref) (out : List uint8_t),
      add_pixels octree_create pixels = .ok tree0 ∧ reduce_to tree0 numColors = .ok tree ∧
      refs = leaf_paths tree.root ∧
      octree_get_leaf_nodes tree.root = refs.map tree.root.find ∧
      refs.Pairwise (List.Lex (fun a b : Nat => a < b)) ∧
      get_palette pixels colors numColors = .ok (out, refs.length) ∧
      split_quads (out.take (refs.length * 4)) =
        refs.map (fun q => mean_color (class_of pixels q)) ∧
      (∀ q ∈ refs, q.length ≤ BIT_DEPTH ∧ class_of pixels q ≠ [] ∧
        (∀ t : tally, ((class_of pixels q).map t.weight).sum / (class_of pixels q).length ≤ 255) ∧
        ∀ p1 ∈ class_of pixels q, ∀ p2 ∈ pixels, (p2 ∈ class_of pixels q ↔
          ∀ level, level < q.length → bit_at p1.r level = bit_at p2.r level ∧
            bit_at p1.g level = bit_at p2.g level ∧ bit_at p1.b level = bit_at p2.b level ∧
            bit_at p1.a level = bit_at p2.a level)) ∧
      (∀ p ∈ pixels, ∃ q ∈ refs, p ∈ class_of pixels q ∧
        ∀ q1 ∈ refs, p ∈ class_of pixels q1 → q1 = q) := by
  obtain ⟨tree0, tree, hadd, hred, _, hc, _, hcl, _, hpop, _, _, _⟩ :=
    built_tree pixels numColors (by omega)
  obtain ⟨tree0a, treea, hadd1, hred1, _, _, _, _, _, _, _, hleaves, hrun⟩ :=
    get_palette_spec pixels colors numColors h8 hlen
  have e0 : tree0a = tree0 := by
    rw [hadd] at hadd1
    simp only [Except.ok.injEq] at hadd1
    exact hadd1.symm
  subst e0
  have e1 : treea = tree := by
    rw [hred] at hred1
    simp only [Except.ok.injEq] at hred1
    exact hred1.symm
  subst e1
  have hgl := get_leaf_nodes_paths treea.root
  have hnum : (leaf_paths treea.root).length = treea.numLeaves := by
    rw [← consistent_leaves hc, hgl, List.length_map]
  have hquads : (octree_get_leaf_nodes treea.root).map quad =
      (leaf_paths treea.root).map (fun q => mean_color (class_of pixels q)) := by
    rw [hgl, List.map_map]
    apply List.map_congr_left
    intro q hq
    exact quad_of_class hcl (leaf_paths_leaf_at _ q hq)
  refine ⟨tree0a, treea, leaf_paths treea.root, _, hadd, hred, rfl, hgl, leaf_paths_sorted _,
    by rw [hnum]; exact hrun, ?_, ?_, ?_⟩
  · rw [hnum, List.take_append_of_le_length (by rw [quads_length, consistent_leaves hc]),
      ← consistent_leaves hc, ← quads_length, List.take_length, split_quads_quads, hquads]
  · intro q hq
    have hleaf := leaf_paths_leaf_at _ q hq
    have hmem : treea.root.find q ∈ octree_get_leaf_nodes treea.root := by
      rw [hgl]
      exact List.mem_map.2 ⟨q, hq, rfl⟩
    have hcount := (hleaves _ hmem).2
    have hsum := hcl.sums .pixels q hleaf
    rw [class_total_pixels] at hsum
    simp only [tally.of] at hsum
    have hqlen := consistent_depth hc (octnode.leaf_not_null hleaf)
    refine ⟨hqlen, ?_, fun t => mean_channel_le t _, ?_⟩
    · intro h0
      rw [h0, List.length_nil] at hsum
      omega
    · intro p1 hp1 p2 hp2
      rw [mem_class_of, ← same_class_iff_bits p1 p2 q.length hqlen, (mem_class_of.1 hp1).2]
      constructor
      · intro h
        exact h.2.symm
      · intro h
        exact ⟨hp2, h.symm⟩
  · intro p hp
    obtain ⟨q, hq, hpre, huniq⟩ := classes_partition hc hcl p hp
    have hin : ∀ q1, p ∈ class_of pixels q1 ↔ q1 <+: path p := by
      intro q1
      unfold class_of
      rw [List.mem_filter, decide_eq_true_eq]
      exact ⟨fun h => h.2, fun h => ⟨hp, h⟩⟩
    refine ⟨q, hq, (hin q).2 hpre, ?_⟩
    intro q1 hq1 hp1
    exact huniq q1 hq1 ((hin q1).1 hp1)

set_option maxRecDepth 100000 in
theorem get_palette_class_means_witness :
    (8 : Nat) ≤ 8 ∧ 8 * 4 ≤ (List.replicate 32 (0 : uint8_t)).length ∧
      ∃ (tree0 tree : octree) (refs : List Ref) (out : List uint8_t),
        add_pixels octree_create twenty_colours = .ok tree0 ∧
        reduce_to tree0 8 = .ok tree ∧ refs = leaf_paths tree.root ∧
        get_palette twenty_colours (List.replicate 32 0) 8 = .ok (out, refs.length) ∧
        split_quads (out.take (refs.length * 4)) =
          refs.map (fun q => mean_color (class_of twenty_colours q)) := by
  obtain ⟨tree0, tree, refs, out, h1, h2, h3, _, _, h4, h5, _⟩ :=
    get_palette_class_means twenty_colours (List.replicate 32 0) 8 (by decide) (by decide)
  exact ⟨by decide, by decide, tree0, tree, refs, out, h1, h2, h3, h4, h5⟩

/-! ## The dominant colour of buffers of more than `2^31` pixels -/

/-- C11: on the buffer of 3221225473 pixels `(255, 0, 0, 255)` followed by one
pixel `(0, 255, 0, 255)` the tree has two leaves, fewer than four, and the
leaf of colour `(255, 0, 0, 255)` holds 3221225473 pixels; yet
`get_dominant_color` returns `(0, 255, 0, 255)`, the colour of the leaf with
one pixel, for every `qsort` that sorts and every saturation comparator.  The
population comparator narrows the difference 3221225472 of the counts to the
negative `int` -1073741824 and so puts the leaf with one pixel first. -/
theorem few_leaves_overflow
    (qsort : (octnode → octnode → Int) → List octnode → List octnode)
    (compare_node_color : octnode → octnode → Int) (hq : sorts qsort) :
    ∃ tree0 tree, add_pixels octree_create (runs lopsided) = .ok tree0 ∧
      reduce_to tree0 16 = .ok tree ∧ tree.numLeaves = 2 ∧
      (∃ m ∈ octree_get_leaf_nodes tree.root,
        quad m = [255, 0, 0, 255] ∧ m.count = 3221225473) ∧
      get_dominant_color qsort compare_node_color (runs lopsided) = .ok [0, 255, 0, 255] := by
  obtain ⟨tree0, tree, h1, h2, h3, h4, h5⟩ := dominant_of_runs qsort compare_node_color hq
    lopsided (by decide) (by decide) (by decide) (by decide)
    (fun p => if p = ⟨0, 255, 0, 255⟩ then 0 else 1) (by decide) ⟨0, 255, 0, 255⟩ (by decide)
  exact ⟨tree0, tree, h1, h2, h3, h4 (⟨255, 0, 0, 255⟩, 3221225473) (by decide), h5⟩

theorem few_leaves_overflow_witness :
    sorts insertion_qsort ∧
      ∃ tree0 tree, add_pixels octree_create (runs lopsided) = .ok tree0 ∧
        reduce_to tree0 16 = .ok tree ∧ tree.numLeaves = 2 ∧
        (∃ m ∈ octree_get_leaf_nodes tree.root,
          quad m = [255, 0, 0, 255] ∧ m.count = 3221225473) ∧
        get_dominant_color insertion_qsort (fun _ _ => 0) (runs lopsided) =
          .ok [0, 255, 0, 255] :=
  ⟨insertion_qsort_sorts,
    few_leaves_overflow insertion_qsort (fun _ _ => 0) insertion_qsort_sorts⟩

/-- C12: on the buffer of 3221225475 pixels `(255, 0, 0, 255)`, 3 pixels
`(0, 255, 0, 255)`, 2 pixels `(0, 0, 255, 255)` and one pixel
`(255, 255, 0, 255)` the tree has four leaves, so that the quarter of most
populous leaves is the one leaf of colour `(255, 0, 0, 255)` with 3221225475
pixels; yet `get_dominant_color` returns `(0, 255, 0, 255)`, the colour of the
leaf with 3 pixels, for every `qsort` that sorts and every saturation
comparator.  The population comparator narrows the differences 3221225472,
3221225473 and 3221225474 to negative `int`s and so puts the most populous
leaf last. -/
theorem top_quarter_overflow
    (qsort : (octnode → octnode → Int) → List octnode → List octnode)
    (compare_node_color : octnode → octnode → Int) (hq : sorts qsort) :
    ∃ tree0 tree, add_pixels octree_create (runs lopsided_four) = .ok tree0 ∧
      reduce_to tree0 16 = .ok tree ∧ tree.numLeaves = 4 ∧
      (∃ m ∈ octree_get_leaf_nodes tree.root,
        quad m = [255, 0, 0, 255] ∧ m.count = 3221225475) ∧
      (∃ m ∈ octree_get_leaf_nodes tree.root, quad m = [0, 255, 0, 255] ∧ m.count = 3) ∧
      get_dominant_color qsort compare_node_color (runs lopsided_four) =
        .ok [0, 255, 0, 255] := by
  obtain ⟨tree0, tree, h1, h2, h3, h4, h5⟩ := dominant_of_runs qsort compare_node_color hq
    lopsided_four (by decide) (by decide) (by decide) (by decide)
    (fun p => if p = ⟨0, 255, 0, 255⟩ then 0 else if p = ⟨0, 0, 255, 255⟩ then 1
      else if p = ⟨255, 255, 0, 255⟩ then 2 else 3) (by decide) ⟨0, 255, 0, 255⟩ (by decide)
  exact ⟨tree0, tree, h1, h2, h3, h4 (⟨255, 0, 0, 255⟩, 3221225475) (by decide),
    h4 (⟨0, 255, 0, 255⟩, 3) (by decide), h5⟩

theorem top_quarter_overflow_witness :
    sorts insertion_qsort ∧
      ∃ tree0 tree, add_pixels octree_create (runs lopsided_four) = .ok tree0 ∧
        reduce_to tree0 16 = .ok tree ∧ tree.numLeaves = 4 ∧
        (∃ m ∈ octree_get_leaf_nodes tree.root,
          quad m = [255, 0, 0, 255] ∧ m.count = 3221225475) ∧
        (∃ m ∈ octree_get_leaf_nodes tree.root, quad m = [0, 255, 0, 255] ∧ m.count = 3) ∧
        get_dominant_color insertion_qsort (compare_node_color exact_ops)
          (runs lopsided_four) = .ok [0, 255, 0, 255] :=
  ⟨insertion_qsort_sorts,
    top_quarter_overflow insertion_qsort (compare_node_color exact_ops)
      insertion_qsort_sorts⟩

/-- C13: on the grayscale buffer of 3221225473 pixels `(0, 0, 0, 255)` followed
by one pixel `(255, 255, 255, 255)` (every pixel has `R = G = B`) the tree has
two leaves and the leaf of colour `(0, 0, 0, 255)` holds 3221225473 pixels;
yet `get_dominant_color` returns `(255, 255, 255, 255)`, the colour of the
leaf with one pixel, for every `qsort` that sorts and every saturation
comparator: the population comparator narrows the difference 3221225472 of
the counts to a negative `int`. -/
theorem grayscale_overflow
    (qsort : (octnode → octnode → Int) → List octnode → List octnode)
    (compare_node_color : octnode → octnode → Int) (hq : sorts qsort) :
    (∀ p ∈ runs lopsided_gray, p.r = p.g ∧ p.g = p.b) ∧
      ∃ tree0 tree, add_pixels octree_create (runs lopsided_gray) = .ok tree0 ∧
        reduce_to tree0 16 = .ok tree ∧ tree.numLeaves = 2 ∧
        (∃ m ∈ octree_get_leaf_nodes tree.root,
          quad m = [0, 0, 0, 255] ∧ m.count = 3221225473) ∧
        get_dominant_color qsort compare_node_color (runs lopsided_gray) =
          .ok [255, 255, 255, 255] := by
  constructor
  · intro p hp
    obtain ⟨x, hx, hxp⟩ := mem_runs hp
    subst hxp
    have hall : ∀ y ∈ lopsided_gray, y.1.r = y.1.g ∧ y.1.g = y.1.b := by decide
    exact hall x hx
  · obtain ⟨tree0, tree, h1, h2, h3, h4, h5⟩ := dominant_of_runs qsort compare_node_color hq
      lopsided_gray (by decide) (by decide) (by decide) (by decide)
      (fun p => if p = ⟨255, 255, 255, 255⟩ then 0 else 1) (by decide) ⟨255, 255, 255, 255⟩
      (by decide)
    exact ⟨tree0, tree, h1, h2, h3, h4 (⟨0, 0, 0, 255⟩, 3221225473) (by decide), h5⟩

theorem grayscale_overflow_witness :
    sorts insertion_qsort ∧ (∀ p ∈ runs lopsided_gray, p.r = p.g ∧ p.g = p.b) ∧
      ∃ tree0 tree, add_pixels octree_create (runs lopsided_gray) = .ok tree0 ∧
        reduce_to tree0 16 = .ok tree ∧ tree.numLeaves = 2 ∧
        (∃ m ∈ octree_get_leaf_nodes tree.root,
          quad m = [0, 0, 0, 255] ∧ m.count = 3221225473) ∧
        get_dominant_color insertion_qsort (compare_node_color exact_ops)
          (runs lopsided_gray) = .ok [255, 255, 255, 255] :=
  ⟨insertion_qsort_sorts,
    grayscale_overflow insertion_qsort (compare_node_color exact_ops)
      insertion_qsort_sorts⟩

/-! ## No division by zero -/

/-- C20: in the tree built by inserting the pixels of a non-empty buffer into
a fresh tree and calling `octree_reduce` any number `k` of times, every leaf
has `numPixels ≥ 1`; so for every leaf that `octree_get_leaf_nodes` collects
the four divisions of the colour emission (`leaf_color`) and the three
divisions of `get_rgb`, which the saturation comparator calls, have a divisor
other than zero and return. -/
theorem leaves_hold_pixels {F : Type} (ops : float_ops F) (pixels : List Pixel)
    (hne : pixels ≠ []) (k : Nat) :
    ∃ tree0 tree, add_pixels octree_create pixels = .ok tree0 ∧
      reduce_times k tree0 = .ok tree ∧
      (∀ q, (tree.root.find q).leaf = true → 1 ≤ (tree.root.find q).count) ∧
      ∀ m ∈ octree_get_leaf_nodes tree.root, 1 ≤ m.count ∧
        leaf_color m = .ok (quad m) ∧
        get_rgb ops m = .ok (ops.div_255 (ops.of_size (m.sumRed / m.count)),
          ops.div_255 (ops.of_size (m.sumGreen / m.count)),
          ops.div_255 (ops.of_size (m.sumBlue / m.count))) := by
  obtain ⟨tree0, hadd, hc0, hpop0, _⟩ :=
    add_pixels_spec pixels create_consistent create_unpopulated
  obtain ⟨tree, hrun, _, _, hp⟩ := reduce_times_spec k hc0
  have hpop := hp (hpop0 hne)
  refine ⟨tree0, tree, hadd, hrun, fun q hq => (hpop q).1 hq, ?_⟩
  intro m hm
  obtain ⟨h1, h2⟩ := populated_leaves hpop m hm
  exact ⟨h2, leaf_color_eq h1 h2, get_rgb_ok ops h1 h2⟩

theorem leaves_hold_pixels_witness :
    two_clusters ≠ [] ∧
      ∃ tree0 tree, add_pixels octree_create two_clusters = .ok tree0 ∧
        reduce_times 3 tree0 = .ok tree ∧
        (∀ q, (tree.root.find q).leaf = true → 1 ≤ (tree.root.find q).count) ∧
        ∀ m ∈ octree_get_leaf_nodes tree.root, 1 ≤ m.count ∧
          leaf_color m = .ok (quad m) ∧
          get_rgb exact_ops m = .ok (exact_ops.div_255 (exact_ops.of_size (m.sumRed / m.count)),
            exact_ops.div_255 (exact_ops.of_size (m.sumGreen / m.count)),
            exact_ops.div_255 (exact_ops.of_size (m.sumBlue / m.count))) :=
  ⟨by decide, leaves_hold_pixels exact_ops two_clusters (by decide) 3⟩

end Palette
